import Mathlib

/-!
# LURE repository index: sync engine, override resolution, webhook and store

A shallow embedding of `internal/repos/pull.go`, `internal/db/db.go` and
`cmd/lure-api-server/webhook.go`, with the properties of the specification
stated and settled over it.

Go strings are byte sequences and are embedded as lists of byte values
(numbers below 256). A Go slice is `Option (List α)` (`none` is the nil slice)
and a Go map is `Option (List (key × value))` (`none` is the nil map, entries
carry distinct keys). Library code the repository calls (`path/filepath`,
`encoding/hex`, `unicode/utf8`, `encoding/json`) is embedded from its Go
source as far as the repository uses it; the git commits, the shell
interpreter with the decoder, and HMAC-SHA256 are parameters.
-/

namespace Lure

/-! ## Go strings -/

/-- A Go string: a finite sequence of bytes. -/
abbrev GoString := List Nat

/-- The bytes of an ASCII string literal. -/
def str (s : String) : GoString := s.toList.map Char.toNat

/-- A Go slice: `none` is the nil slice. -/
abbrev GoSlice (α : Type) := Option (List α)

namespace strings

/-- Go `strings.HasPrefix(s, p)`. -/
def HasPrefix (s p : GoString) : Bool := p.isPrefixOf s

/-- Go `strings.TrimPrefix(s, p)`: `s` without the leading `p`, or `s` itself. -/
def TrimPrefix (s p : GoString) : GoString :=
  if HasPrefix s p then s.drop p.length else s

end strings

/-! ## `path/filepath` on a Unix host -/

namespace filepath

/-- The path separator `/`. -/
def Separator : Nat := 47

/-- The pattern metacharacter `*`. -/
def starByte : Nat := 42

/-- Go `scanChunk`: strips the leading stars of the pattern and cuts the
literal chunk that follows them. Returns `(star, chunk, rest)`. The model
covers patterns whose only metacharacter is the star, which is all `pull.go`
passes. -/
def scanChunk (pattern : GoString) : Bool × GoString × GoString :=
  let p := pattern.dropWhile (fun c => c == starByte)
  (decide (p.length < pattern.length),
    p.takeWhile (fun c => c != starByte), p.dropWhile (fun c => c != starByte))

/-- Go `matchChunk` for a literal chunk: the rest of `s` after the chunk, when
`s` starts with it. -/
def matchChunk : GoString → GoString → Option GoString
  | [], s => some s
  | _ :: _, [] => none
  | c :: chunk, x :: s => if c = x then matchChunk chunk s else none

/-- The star loop of Go `Match`:
`for i := 0; i < len(name) && name[i] != Separator; i++` tries the chunk at
`name[i+1:]`; on the last chunk a match that leaves a rest is passed over. -/
def starSearch (chunk : GoString) (lastChunk : Bool) : GoString → Option GoString
  | [] => none
  | x :: name =>
    if x = Separator then none
    else
      match matchChunk chunk name with
      | some t =>
        if lastChunk && decide (0 < t.length) then starSearch chunk lastChunk name
        else some t
      | none => starSearch chunk lastChunk name

/-- The `Pattern:` loop of Go `Match`; every round consumes pattern bytes, so
the pattern length is enough fuel. -/
def matchLoop : Nat → GoString → GoString → Bool
  | 0, _, name => name.isEmpty
  | fuel + 1, pattern, name =>
    if pattern.isEmpty then name.isEmpty
    else
      match scanChunk pattern with
      | (star, chunk, rest) =>
        if star && chunk.isEmpty then !(name.contains Separator)
        else
          match matchChunk chunk name with
          | some t =>
            if t.isEmpty || !rest.isEmpty then matchLoop fuel rest t
            else if star then
              match starSearch chunk rest.isEmpty name with
              | some t2 => matchLoop fuel rest t2
              | none => false
            else false
          | none =>
            if star then
              match starSearch chunk rest.isEmpty name with
              | some t2 => matchLoop fuel rest t2
              | none => false
            else false

/-- Go `filepath.Match(pattern, name)`, the `matched` result (the error result
is nil for every star-and-literal pattern). -/
def Match (pattern name : GoString) : Bool := matchLoop pattern.length pattern name

/-- The elements of a path between separators. -/
def splitSep : GoString → List GoString
  | [] => [[]]
  | c :: s =>
    if c = Separator then [] :: splitSep s
    else
      match splitSep s with
      | [] => [[c]]
      | h :: t => (c :: h) :: t

/-- The element loop of Go `Clean`: the output elements so far are kept
newest first. Empty and `.` elements are dropped; `..` removes the newest
ordinary element, is kept in front of a relative path, and is dropped at the
root. -/
def cleanElems (rooted : Bool) : List GoString → List GoString → List GoString
  | [], out => out
  | e :: es, out =>
    if e = [] ∨ e = str "." then cleanElems rooted es out
    else if e = str ".." then
      match out with
      | top :: below =>
        if top = str ".." then cleanElems rooted es (e :: out)
        else cleanElems rooted es below
      | [] => if rooted then cleanElems rooted es [] else cleanElems rooted es [e]
    else cleanElems rooted es (e :: out)

/-- Joins elements with the separator. -/
def joinSep : List GoString → GoString
  | [] => []
  | [e] => e
  | e :: es => e ++ Separator :: joinSep es

/-- Go `filepath.Clean`. -/
def Clean (path : GoString) : GoString :=
  if path = [] then str "."
  else
    let rooted := path.head? == some Separator
    let body := joinSep (cleanElems rooted (splitSep path) []).reverse
    let out := if rooted then Separator :: body else body
    if out = [] then str "." else out

/-- Go `filepath.Dir`: `Clean` of the path up to and including its last
separator. -/
def Dir (path : GoString) : GoString :=
  Clean (path.reverse.dropWhile (fun c => c != Separator)).reverse

/-- Go `filepath.Base`: the last element of the path, after removing trailing
separators. -/
def Base (path : GoString) : GoString :=
  if path = [] then str "."
  else
    let p := (path.reverse.dropWhile (fun c => c == Separator)).reverse
    let b := (p.reverse.takeWhile (fun c => c != Separator)).reverse
    if b = [] then [Separator] else b

/-- Go `filepath.Join`: from the first non-empty element on, the elements
joined by the separator and cleaned. -/
def Join : List GoString → GoString
  | [] => []
  | e :: es => if e = [] then Join es else Clean (joinSep (e :: es))

end filepath

/-! ## `pull.go`: from a patch to actions -/

/-- A `diff.File`, of which only `Path()` is used. -/
structure File where
  Path : GoString
  deriving DecidableEq, Repr

/-- A `diff.FilePatch`, that is the result of `fp.Files()`; `none` is nil. -/
structure FilePatch where
  fromFile : Option File
  toFile : Option File
  deriving DecidableEq, Repr

inductive actionType where
  | actionDelete
  | actionUpdate
  deriving DecidableEq, Repr

structure action where
  Typ : actionType
  File : GoString
  deriving DecidableEq, Repr

/-- Go `isValid`: the path of `from`, overwritten by the path of `to` when
`to` is not nil, is matched against `*/*.sh`. -/
def isValid (f t : Option File) : Bool :=
  let path : GoString := match f with
    | some x => x.Path
    | none => []
  let path : GoString := match t with
    | some y => y.Path
    | none => path
  filepath.Match (str "*/*.sh") path

/-- The body of the loop over `patch.FilePatches()` in `processRepoChanges`.
`none` is the nil dereference `from.Path()` with both files nil. -/
def appendActions (actions : List action) (fp : FilePatch) : Option (List action) :=
  if !isValid fp.fromFile fp.toFile then some actions
  else
    match fp.toFile with
    | none =>
      match fp.fromFile with
      | none => none
      | some f => some (actions ++ [⟨actionType.actionDelete, f.Path⟩])
    | some t =>
      match fp.fromFile with
      | none => some (actions ++ [⟨actionType.actionUpdate, t.Path⟩])
      | some f =>
        if f.Path ≠ t.Path then
          some (actions ++ [⟨actionType.actionDelete, f.Path⟩, ⟨actionType.actionUpdate, t.Path⟩])
        else some (actions ++ [⟨actionType.actionUpdate, t.Path⟩])

/-- The first loop of `processRepoChanges`, started with `actions`. -/
def collectActions : List action → List FilePatch → Option (List action)
  | actions, [] => some actions
  | actions, fp :: fps =>
    match appendActions actions fp with
    | none => none
    | some actions2 => collectActions actions2 fps

/-- The action list `processRepoChanges` builds for a patch (`var actions
[]action` starts nil). -/
def buildActions (patch : List FilePatch) : Option (List action) :=
  collectActions [] patch

/-- The actions of one file pair, in the words of the specification. -/
def pairActionsSpec (fp : FilePatch) : List action :=
  match fp.fromFile, fp.toFile with
  | none, none => []
  | some f, none => [⟨actionType.actionDelete, f.Path⟩]
  | none, some t => [⟨actionType.actionUpdate, t.Path⟩]
  | some f, some t =>
    if f.Path ≠ t.Path then
      [⟨actionType.actionDelete, f.Path⟩, ⟨actionType.actionUpdate, t.Path⟩]
    else [⟨actionType.actionUpdate, t.Path⟩]

/-! ## Go maps -/

/-- A Go map with string keys: `none` is the nil map, otherwise the entries,
one per key. -/
abbrev GoMap (V : Type) := Option (List (GoString × V))

namespace GoMap

/-- The entries after `m[k] = v`: the entry of `k` is replaced, or added. -/
def setEntry {V : Type} : List (GoString × V) → GoString → V → List (GoString × V)
  | [], k, v => [(k, v)]
  | (k2, v2) :: es, k, v => if k2 = k then (k, v) :: es else (k2, v2) :: setEntry es k v

/-- The entry of `k`, if there is one. -/
def getEntry {V : Type} : List (GoString × V) → GoString → Option V
  | [], _ => none
  | (k2, v2) :: es, k => if k2 = k then some v2 else getEntry es k

/-- Go `m[k] = v`; `none` is the panic of an assignment to an entry of a nil
map. -/
def set {V : Type} (m : GoMap V) (k : GoString) (v : V) : Option (GoMap V) :=
  match m with
  | none => none
  | some es => some (some (setEntry es k v))

/-- Go `v, ok := m[k]`: `none` when the key is absent (also in a nil map). -/
def get {V : Type} (m : GoMap V) (k : GoString) : Option V :=
  match m with
  | none => none
  | some es => getEntry es k

end GoMap

/-! ## `db.go`: the package record -/

/-- Go `db.JSON[T]`. -/
structure JSON (T : Type) where
  Val : T
  deriving DecidableEq, Repr

/-- Go `db.NewJSON`. -/
def NewJSON {T : Type} (v : T) : JSON T := ⟨v⟩

/-- Go `db.Package`. -/
structure Package where
  Name : GoString
  Version : GoString
  Release : Int
  Epoch : Nat
  Description : JSON (GoMap GoString)
  Homepage : JSON (GoMap GoString)
  Maintainer : JSON (GoMap GoString)
  Architectures : JSON (GoSlice GoString)
  Licenses : JSON (GoSlice GoString)
  Provides : JSON (GoSlice GoString)
  Conflicts : JSON (GoSlice GoString)
  Replaces : JSON (GoSlice GoString)
  Depends : JSON (GoMap (GoSlice GoString))
  BuildDepends : JSON (GoMap (GoSlice GoString))
  Repository : GoString
  deriving DecidableEq, Repr

/-- The zero value of `db.Package` (`var pkg db.Package`). -/
def Package.zero : Package :=
  { Name := [], Version := [], Release := 0, Epoch := 0,
    Description := ⟨none⟩, Homepage := ⟨none⟩, Maintainer := ⟨none⟩,
    Architectures := ⟨none⟩, Licenses := ⟨none⟩, Provides := ⟨none⟩,
    Conflicts := ⟨none⟩, Replaces := ⟨none⟩,
    Depends := ⟨none⟩, BuildDepends := ⟨none⟩, Repository := [] }

/-! ## `pull.go`: override resolution -/

/-- Go `expand.ValueKind`. -/
inductive ValueKind where
  | Unset
  | String
  | NameRef
  | Indexed
  | Associative
  deriving DecidableEq, Repr

/-- Go `expand.Variable`: a scalar carries `Str` and a nil `List`, an indexed
array carries `List`. -/
structure Variable where
  Kind : ValueKind
  Str : GoString
  List : GoSlice GoString
  deriving DecidableEq, Repr

/-- The entries of `runner.Vars` in the order the `range` loop visits them
(Go leaves the order of a map iteration open; names are distinct). -/
abbrev Vars := List (GoString × Variable)

/-- An indexed array variable. -/
def arrayVar (l : List GoString) : Variable := ⟨ValueKind.Indexed, [], some l⟩

/-- A scalar variable: its `List` is nil. -/
def scalarVar (s : GoString) : Variable := ⟨ValueKind.String, s, none⟩

/-- The override key of a binding name: `strings.TrimPrefix` of the given
prefix, then of one underscore. -/
def overrideKey (pre name : GoString) : GoString :=
  strings.TrimPrefix (strings.TrimPrefix name pre) (str "_")

/-- The body of the `range runner.Vars` loop of `resolveOverrides`; `none` is
the panic of writing to a nil map. -/
def resolveBinding (pkg : Package) (name : GoString) (val : Variable) : Option Package :=
  if strings.HasPrefix name (str "deps") then
    let override := overrideKey (str "deps") name
    match GoMap.set pkg.Depends.Val override val.List with
    | none => none
    | some m => some { pkg with Depends := ⟨m⟩ }
  else if strings.HasPrefix name (str "build_deps") then
    let override := overrideKey (str "build_deps") name
    match GoMap.set pkg.BuildDepends.Val override val.List with
    | none => none
    | some m => some { pkg with BuildDepends := ⟨m⟩ }
  else some pkg

/-- Go `resolveOverrides(runner, &pkg)`. -/
def resolveOverrides : Vars → Package → Option Package
  | [], pkg => some pkg
  | (name, val) :: rest, pkg =>
    match resolveBinding pkg name val with
    | none => none
    | some pkg2 => resolveOverrides rest pkg2

/-- The package `processRepoFull` and the Update case of `processRepoChanges`
start from before decoding: empty `Depends` and `BuildDepends` maps and the
repository name. -/
def seedPackage (repo : GoString) : Package :=
  { Package.zero with
    Depends := NewJSON (some []), BuildDepends := NewJSON (some []), Repository := repo }

/-- The map selected by `proj` is written by a binding exactly when `c` holds
of its name, at the key `key name`, with the binding's `List`. -/
def WritesTo (proj : Package → GoMap (GoSlice GoString)) (c : GoString → Bool)
    (key : GoString → GoString) : Prop :=
  ∀ (pkg pkg2 : Package) (name : GoString) (val : Variable),
    resolveBinding pkg name val = some pkg2 →
    ∀ k, (proj pkg2).get k = if c name = true ∧ key name = k then some val.List
      else (proj pkg).get k

/-! ## `pull.go`: executing the actions -/

/-- A Go `error` value. -/
abbrev Error := GoString

/-- The fields of `db.Package` that carry an `sh` tag, which are the ones
`DecodeVars` can write. -/
structure ShFields where
  Name : GoString
  Version : GoString
  Release : Int
  Epoch : Nat
  Architectures : GoSlice GoString
  Licenses : GoSlice GoString
  Provides : GoSlice GoString
  Conflicts : GoSlice GoString
  Replaces : GoSlice GoString
  deriving DecidableEq, Repr

/-- Writes the decoded fields into a package. -/
def ShFields.into (d : ShFields) (pkg : Package) : Package :=
  { pkg with
    Name := d.Name, Version := d.Version, Release := d.Release, Epoch := d.Epoch,
    Architectures := ⟨d.Architectures⟩, Licenses := ⟨d.Licenses⟩,
    Provides := ⟨d.Provides⟩, Conflicts := ⟨d.Conflicts⟩, Replaces := ⟨d.Replaces⟩ }

/-- What `processRepoChanges` works against: the two commits, the sandboxed
interpreter with the decoder, and the store (of state `σ`).
* `oldFile p`, `newFile p`: `commit.File(p)` followed by `Reader()`, `none`
  when either returns an error;
* `parseScript scriptdir script`: Go `parseScript` on a runner whose
  environment has that `scriptdir`: an error of the shell parser, of the run
  or of `DecodeVars`, or the decoded fields with the final `runner.Vars`;
* `DeletePkgs db name repo`: `db.DeletePkgs(gdb, "name = ? AND repository = ?",
  name, repo)`;
* `InsertPackage db pkg`: `db.InsertPackage(gdb, pkg)`. -/
structure Env (σ : Type) where
  oldFile : GoString → Option GoString
  newFile : GoString → Option GoString
  parseScript : GoString → GoString → Except Error (ShFields × Vars)
  DeletePkgs : σ → GoString → GoString → Except Error σ
  InsertPackage : σ → Package → Except Error σ

/-- Which commit a recipe is read from. -/
inductive Commit where
  | oldCommit
  | newCommit
  deriving DecidableEq, Repr

/-- The store together with the recipe reads attempted so far, in order. -/
structure SyncState (σ : Type) where
  db : σ
  reads : List (Commit × GoString)
  deriving DecidableEq, Repr

/-- How one round of the action loop ends: with the next round, with a
`return` of the function (nil or an error), or with a panic. -/
inductive Step (σ : Type) where
  | next (s : SyncState σ)
  | ret (err : Option Error) (s : SyncState σ)
  | panic

/-- The value of `scriptdir` in the runner of an action:
`filepath.Dir(filepath.Join(repoDir, action.File))`. -/
def scriptdir (repoDir file : GoString) : GoString :=
  filepath.Dir (filepath.Join [repoDir, file])

/-- The `actionDelete` case from `oldCommit.File(action.File)` on. -/
def execDelete {σ : Type} (env : Env σ) (repo sd file : GoString) (s : SyncState σ) :
    Step σ :=
  let s1 : SyncState σ := ⟨s.db, s.reads ++ [(Commit.oldCommit, file)]⟩
  match env.oldFile file with
  | none => Step.ret none s1
  | some script =>
    match env.parseScript sd script with
    | Except.error e => Step.ret (some e) s1
    | Except.ok (d, _) =>
      let pkg := d.into Package.zero
      match env.DeletePkgs s1.db pkg.Name repo with
      | Except.error e => Step.ret (some e) s1
      | Except.ok db2 => Step.next ⟨db2, s1.reads⟩

/-- The `actionUpdate` case from `newCommit.File(action.File)` on. -/
def execUpdate {σ : Type} (env : Env σ) (repo sd file : GoString) (s : SyncState σ) :
    Step σ :=
  let s1 : SyncState σ := ⟨s.db, s.reads ++ [(Commit.newCommit, file)]⟩
  match env.newFile file with
  | none => Step.ret none s1
  | some script =>
    let pkg : Package := seedPackage repo
    match env.parseScript sd script with
    | Except.error e => Step.ret (some e) s1
    | Except.ok (d, vars) =>
      match resolveOverrides vars (d.into pkg) with
      | none => Step.panic
      | some pkg2 =>
        match env.InsertPackage s1.db pkg2 with
        | Except.error e => Step.ret (some e) s1
        | Except.ok db2 => Step.next ⟨db2, s1.reads⟩

/-- One round of the loop `for _, action := range actions` of
`processRepoChanges` (`interp.New` with these options returns no error). -/
def execAction {σ : Type} (env : Env σ) (repo repoDir : GoString) (a : action)
    (s : SyncState σ) : Step σ :=
  let sd := scriptdir repoDir a.File
  match a.Typ with
  | actionType.actionDelete =>
    if filepath.Base a.File ≠ str "lure.sh" then Step.next s
    else execDelete env repo sd a.File s
  | actionType.actionUpdate =>
    let file :=
      if filepath.Base a.File ≠ str "lure.sh" then
        filepath.Join [filepath.Dir a.File, str "lure.sh"]
      else a.File
    execUpdate env repo sd file s

/-- The loop over the actions of `processRepoChanges` up to its `return`. -/
def runActions {σ : Type} (env : Env σ) (repo repoDir : GoString) :
    List action → SyncState σ → Option (Option Error × SyncState σ)
  | [], s => some (none, s)
  | a :: rest, s =>
    match execAction env repo repoDir a s with
    | Step.next s2 => runActions env repo repoDir rest s2
    | Step.ret err s2 => some (err, s2)
    | Step.panic => none

/-- Go `processRepoChanges` from the patch on: the returned error (`none` is
nil) and the final state; the outer `none` is a panic. -/
def processRepoChanges {σ : Type} (env : Env σ) (repo repoDir : GoString)
    (patch : List FilePatch) (s : SyncState σ) : Option (Option Error × SyncState σ) :=
  match buildActions patch with
  | none => none
  | some actions => runActions env repo repoDir actions s

/-- The state a round ends in, when it does not panic. -/
def Step.state? {σ : Type} : Step σ → Option (SyncState σ)
  | Step.next s => some s
  | Step.ret _ s => some s
  | Step.panic => none

/-! ## A concrete repository to evaluate the sync engine on -/

/-- A store that keeps its rows in a list, with the upsert and the delete by
`(name, repository)` of `db.go`, and no failures. -/
def listStoreInsert (db : List Package) (pkg : Package) : Except Error (List Package) :=
  Except.ok
    (db.filter (fun p => !(decide (p.Name = pkg.Name) && decide (p.Repository = pkg.Repository)))
      ++ [pkg])

/-- Deletes the rows with that name and repository. -/
def listStoreDelete (db : List Package) (name repo : GoString) :
    Except Error (List Package) :=
  Except.ok (db.filter (fun p => !(decide (p.Name = name) && decide (p.Repository = repo))))

/-- A toy recipe language: the script `name=N` decodes to the package `N`,
version `1.0`, release 1, with no further bindings; anything else is a parse
error. -/
def demoParse (_sd script : GoString) : Except Error (ShFields × Vars) :=
  if strings.HasPrefix script (str "name=") then
    Except.ok
      ({ Name := strings.TrimPrefix script (str "name="), Version := str "1.0", Release := 1,
         Epoch := 0, Architectures := none, Licenses := none, Provides := none,
         Conflicts := none, Replaces := none }, [])
  else Except.error (str "parse error")

/-- Two commits: the old one holds `a/b/c/lure.sh` (package `foo`) and
`b/lure.sh` (package `b`); the new one holds `x/lure.sh` (package `bar`),
`b/lure.sh` and `a/x.sh`, and no `a/lure.sh`. -/
def demoEnv : Env (List Package) where
  oldFile := fun p =>
    if p = str "a/b/c/lure.sh" then some (str "name=foo")
    else if p = str "b/lure.sh" then some (str "name=b")
    else none
  newFile := fun p =>
    if p = str "x/lure.sh" then some (str "name=bar")
    else if p = str "b/lure.sh" then some (str "name=b")
    else if p = str "a/x.sh" then some (str "echo")
    else none
  parseScript := demoParse
  DeletePkgs := listStoreDelete
  InsertPackage := listStoreInsert

/-- The record the toy recipe `name=N` gives in repository `repo`. -/
def demoPkg (name repo : GoString) : Package :=
  { seedPackage repo with Name := name, Version := str "1.0", Release := 1 }

/-- The bindings of the recipe `name=foo; version=1.0; release=1;
architectures=(amd64); deps_amd64=(bar)`. -/
def fooVars : Vars :=
  [(str "name", scalarVar (str "foo")), (str "version", scalarVar (str "1.0")),
   (str "release", scalarVar (str "1")), (str "architectures", arrayVar [str "amd64"]),
   (str "deps_amd64", arrayVar [str "bar"])]

/-! ## `webhook.go` -/

namespace hex

/-- The value of a hexadecimal digit (Go `reverseHexTable`). -/
def fromHexChar (c : Nat) : Option Nat :=
  if 48 ≤ c ∧ c ≤ 57 then some (c - 48)
  else if 97 ≤ c ∧ c ≤ 102 then some (c - 87)
  else if 65 ≤ c ∧ c ≤ 70 then some (c - 55)
  else none

/-- Go `hex.DecodeString`: two digits per byte; an invalid digit or an odd
length is an error. -/
def DecodeString : GoString → Except Error GoString
  | [] => Except.ok []
  | [p] =>
    match fromHexChar p with
    | none => Except.error (str "encoding/hex: invalid byte")
    | some _ => Except.error (str "encoding/hex: odd length hex string")
  | p :: q :: rest =>
    match fromHexChar p, fromHexChar q with
    | some a, some b =>
      match DecodeString rest with
      | Except.ok bs => Except.ok ((a * 16 + b) :: bs)
      | Except.error e => Except.error e
    | _, _ => Except.error (str "encoding/hex: invalid byte")

end hex

/-- The parts of an `*http.Request` the handler reads. `Header` is
`req.Header.Get`; `Body` is what reading `req.Body` to its end gives. -/
structure Request where
  Path : GoString
  Method : GoString
  Header : GoString → GoString
  Body : Except Error GoString

/-- What the handler did: the status passed to `WriteHeader` (`none` when the
handler returned without writing one), the number of tokens sent on `sigCh`,
and whether the request was handed to `next`. -/
structure Handled where
  written : Option Nat
  sent : Nat
  passedOn : Bool
  deriving DecidableEq, Repr

/-- The status the client receives: `net/http` answers 200 when the handler
returns without calling `WriteHeader`. -/
def Handled.status (h : Handled) : Nat := h.written.getD 200

/-- Go `verifySecure`: `none` is a nil error. `mac key body` is the
HMAC-SHA256 of `body` under `key`; `secret` is the result of
`os.LookupEnv("LURE_API_GITHUB_SECRET")`. -/
def verifySecure (mac : GoString → GoString → GoString) (secret : Option GoString)
    (req : Request) : Option Error :=
  let sigStr := req.Header (str "X-Hub-Signature-256")
  match hex.DecodeString (strings.TrimPrefix sigStr (str "sha256=")) with
  | Except.error e => some e
  | Except.ok sig =>
    match secret with
    | none => some (str "LURE_API_GITHUB_SECRET must be set")
    | some secretStr =>
      match req.Body with
      | Except.error e => some e
      | Except.ok body =>
        if mac secretStr body ≠ sig then some (str "webhook signature mismatch")
        else none

/-- Go `handleWebhook`, the handler it returns applied to one request. -/
def handleWebhook (mac : GoString → GoString → GoString) (secret : Option GoString)
    (req : Request) : Handled :=
  if req.Path = str "/webhook" then
    if req.Method ≠ str "POST" then ⟨some 405, 0, false⟩
    else if req.Header (str "X-GitHub-Event") ≠ str "push" then ⟨some 400, 0, false⟩
    else
      match verifySecure mac secret req with
      | some _ => ⟨some 500, 0, false⟩
      | none => ⟨none, 1, false⟩
  else ⟨none, 0, true⟩

/-- A stand-in for HMAC-SHA256 to evaluate the handler on: the key followed by
the body. -/
def demoMac (key body : GoString) : GoString := key ++ body

/-- The request of the specification: `POST /webhook`, event `push`, body
`hello`, signed under the secret `s` with the stand-in MAC. -/
def demoRequest : Request where
  Path := str "/webhook"
  Method := str "POST"
  Header := fun h =>
    if h = str "X-GitHub-Event" then str "push"
    else if h = str "X-Hub-Signature-256" then str "sha256=7368656c6c6f"
    else []
  Body := Except.ok (str "hello")

/-- The same request with the event `ping`. -/
def pingRequest : Request :=
  { demoRequest with
    Header := fun h => if h = str "X-GitHub-Event" then str "ping" else demoRequest.Header h }

/-! ## `db.go`: opening the store -/

/-- Go `db.CurrentVersion`. -/
def CurrentVersion : Int := 1

/-- The contents of a store file: the rows of `pkgs` and of
`lure_db_version`; `none` is a table that does not exist. -/
structure DBFile where
  pkgs : Option (List Package)
  version : Option (List Int)
  deriving DecidableEq, Repr

/-- An `*sql.DB`: the data source it was opened on and whether `Close` was
called on it. -/
structure Handle where
  dsn : GoString
  isClosed : Bool
  deriving DecidableEq, Repr

/-- The file system (the store file at each path, every data source name
being taken as a file path), the `*sql.DB` objects created so far (a handle is
its index), and the package variables `conn` and `closed`. -/
structure World where
  files : GoString → Option DBFile
  handles : List Handle
  conn : Option Nat
  closed : Bool

/-- How a call ends: it returns, the process exits in `log.Fatal` (or
panics), or the fuel of the model ran out. -/
inductive Res (α : Type) where
  | done (a : α) (w : World)
  | fatal
  | outOfFuel

/-- The file a handle works on, unless the handle is closed. -/
def World.target (w : World) (h : Nat) : Option GoString :=
  match w.handles.get? h with
  | some hd => if hd.isClosed then none else some hd.dsn
  | none => none

/-- Writes a file. -/
def World.write (w : World) (path : GoString) (f : Option DBFile) : World :=
  { w with files := fun p => if p = path then f else w.files p }

/-- Go `sqlx.Open("sqlite", dsn)`: a new handle; the file is not touched. -/
def sqlxOpen (dsn : GoString) (w : World) : Nat × World :=
  (w.handles.length, { w with handles := w.handles ++ [⟨dsn, false⟩] })

/-- Go `(*sqlx.DB).Close`. -/
def World.close (w : World) (h : Nat) : World :=
  { w with handles := w.handles.modify (fun hd => { hd with isClosed := true }) h }

/-- The two `CREATE TABLE IF NOT EXISTS` statements of `initDB`: a missing
file is created and missing tables are created empty. -/
def execCreate (w : World) (h : Nat) : Except Error World :=
  match w.target h with
  | none => Except.error (str "sql: database is closed")
  | some dsn =>
    let f : DBFile :=
      match w.files dsn with
      | none => ⟨some [], some []⟩
      | some f0 => ⟨some (f0.pkgs.getD []), some (f0.version.getD [])⟩
    Except.ok (w.write dsn (some f))

/-- `SELECT * FROM lure_db_version LIMIT 1` through `Get`: the first row, or
an error. -/
def selectVersion (w : World) (h : Nat) : Except Error Int :=
  match w.target h with
  | none => Except.error (str "sql: database is closed")
  | some dsn =>
    match w.files dsn with
    | some ⟨_, some (v :: _)⟩ => Except.ok v
    | some ⟨_, some []⟩ => Except.error (str "sql: no rows in result set")
    | _ => Except.error (str "no such table: lure_db_version")

/-- `INSERT INTO lure_db_version(version) VALUES (?)`. -/
def insertVersion (w : World) (h : Nat) (ver : Int) : Except Error World :=
  match w.target h with
  | none => Except.error (str "sql: database is closed")
  | some dsn =>
    match w.files dsn with
    | some ⟨pk, some vs⟩ => Except.ok (w.write dsn (some ⟨pk, some (vs ++ [ver])⟩))
    | _ => Except.error (str "no such table: lure_db_version")

/-- Go `os.Remove`. -/
def osRemove (w : World) (path : GoString) : Except Error World :=
  match w.files path with
  | none => Except.error (str "remove: no such file or directory")
  | some _ => Except.ok (w.write path none)

/-- Go `DB()`: the current connection, or `Open` on the configured path.
`openFn` is `Open`, `cfg` is `config.GetPaths().DBPath`. -/
def DB (openFn : GoString → World → Res (Except Error Nat)) (cfg : GoString) (w : World) :
    Res Nat :=
  match w.conn, w.closed with
  | some h, false => Res.done h w
  | _, _ =>
    match openFn cfg w with
    | Res.done (Except.ok h) w2 => Res.done h { w2 with conn := some h }
    | Res.done (Except.error _) _ => Res.fatal
    | Res.fatal => Res.fatal
    | Res.outOfFuel => Res.outOfFuel

/-- Go `GetVersion`. -/
def GetVersion (openFn : GoString → World → Res (Except Error Nat)) (cfg : GoString)
    (w : World) : Res (Int × Bool) :=
  match DB openFn cfg w with
  | Res.done h w2 =>
    match selectVersion w2 h with
    | Except.error _ => Res.done (0, false) w2
    | Except.ok v => Res.done (v, true) w2
  | Res.fatal => Res.fatal
  | Res.outOfFuel => Res.outOfFuel

/-- Go `addVersion`; the result is the returned error. -/
def addVersion (openFn : GoString → World → Res (Except Error Nat)) (cfg : GoString)
    (ver : Int) (w : World) : Res (Option Error) :=
  match DB openFn cfg w with
  | Res.done h w2 =>
    match insertVersion w2 h ver with
    | Except.error e => Res.done (some e) w2
    | Except.ok w3 => Res.done none w3
  | Res.fatal => Res.fatal
  | Res.outOfFuel => Res.outOfFuel

/-- Go `initDB`; the result is the returned error. -/
def initDB (openFn : GoString → World → Res (Except Error Nat)) (cfg dsn : GoString)
    (w : World) : Res (Option Error) :=
  match w.conn with
  | none => Res.fatal
  | some c =>
    match execCreate w c with
    | Except.error e => Res.done (some e) w
    | Except.ok w1 =>
      match GetVersion openFn cfg w1 with
      | Res.fatal => Res.fatal
      | Res.outOfFuel => Res.outOfFuel
      | Res.done (_, false) w2 => addVersion openFn cfg CurrentVersion w2
      | Res.done (ver, true) w2 =>
        if ver ≠ CurrentVersion then
          match w2.conn with
          | none => Res.fatal
          | some c2 =>
            let w3 := w2.close c2
            match osRemove w3 cfg with
            | Except.error e => Res.done (some e) w3
            | Except.ok w4 =>
              match openFn dsn w4 with
              | Res.fatal => Res.fatal
              | Res.outOfFuel => Res.outOfFuel
              | Res.done (Except.error e) w5 => Res.done (some e) w5
              | Res.done (Except.ok tdb) w5 => Res.done none { w5 with conn := some tdb }
        else Res.done none w2

/-- Go `Open`; `fuel` bounds the depth of the calls of `Open` from within
`Open`. -/
def Open (cfg : GoString) : Nat → GoString → World → Res (Except Error Nat)
  | 0, _, _ => Res.outOfFuel
  | fuel + 1, dsn, w =>
    match sqlxOpen dsn w with
    | (db, w1) =>
      let w2 : World := { w1 with conn := some db, closed := false }
      match initDB (Open cfg fuel) cfg dsn w2 with
      | Res.fatal => Res.fatal
      | Res.outOfFuel => Res.outOfFuel
      | Res.done (some e) w3 => Res.done (Except.error e) w3
      | Res.done none w3 => Res.done (Except.ok db) w3

/-- The world after a call that returned. -/
def Res.world? {α : Type} : Res α → Option World
  | Res.done _ w => some w
  | _ => none

/-- The value of a call that returned. -/
def Res.value? {α : Type} : Res α → Option α
  | Res.done a _ => some a
  | _ => none

/-- A machine with two store files: `/other/db`, of version 0 with one row,
and the configured `/cfg/db`, of the current version with one row. -/
def demoWorld : World where
  files := fun p =>
    if p = str "/other/db" then some ⟨some [demoPkg (str "foo") (str "repo")], some [0]⟩
    else if p = str "/cfg/db" then some ⟨some [demoPkg (str "bar") (str "repo")], some [1]⟩
    else none
  handles := []
  conn := none
  closed := true

/-! ## `unicode/utf8` -/

namespace utf8

/-- Go `utf8.RuneError`, U+FFFD. -/
def RuneError : Nat := 65533

/-- Go `utf8.DecodeRune`: the first rune of the bytes and its width in bytes;
`(RuneError, 1)` for an invalid or cut-off encoding, `(RuneError, 0)` for no
bytes. The masks and shifts of the Go code are written with `%` and `*`. -/
def DecodeRune : GoString → Nat × Nat
  | [] => (RuneError, 0)
  | p0 :: rest =>
    if p0 < 128 then (p0, 1)
    else if p0 < 194 then (RuneError, 1)
    else if p0 < 224 then
      match rest with
      | b1 :: _ =>
        if 128 ≤ b1 ∧ b1 ≤ 191 then ((p0 % 32) * 64 + b1 % 64, 2) else (RuneError, 1)
      | [] => (RuneError, 1)
    else if p0 < 240 then
      match rest with
      | b1 :: b2 :: _ =>
        if (if p0 = 224 then 160 else 128) ≤ b1 ∧ b1 ≤ (if p0 = 237 then 159 else 191) then
          if 128 ≤ b2 ∧ b2 ≤ 191 then
            ((p0 % 16) * 4096 + (b1 % 64) * 64 + b2 % 64, 3)
          else (RuneError, 1)
        else (RuneError, 1)
      | _ => (RuneError, 1)
    else if p0 < 245 then
      match rest with
      | b1 :: b2 :: b3 :: _ =>
        if (if p0 = 240 then 144 else 128) ≤ b1 ∧ b1 ≤ (if p0 = 244 then 143 else 191) then
          if 128 ≤ b2 ∧ b2 ≤ 191 then
            if 128 ≤ b3 ∧ b3 ≤ 191 then
              ((p0 % 8) * 262144 + (b1 % 64) * 4096 + (b2 % 64) * 64 + b3 % 64, 4)
            else (RuneError, 1)
          else (RuneError, 1)
        else (RuneError, 1)
      | _ => (RuneError, 1)
    else (RuneError, 1)

/-- Go `utf8.EncodeRune`: the UTF-8 bytes of a rune; surrogates and values
above U+10FFFF are encoded as U+FFFD. -/
def EncodeRune (r : Nat) : GoString :=
  if r ≤ 127 then [r]
  else if r ≤ 2047 then [192 + r / 64, 128 + r % 64]
  else if 1114111 < r ∨ (55296 ≤ r ∧ r ≤ 57343) then [239, 191, 189]
  else if r ≤ 65535 then [224 + r / 4096, 128 + (r / 64) % 64, 128 + r % 64]
  else [240 + r / 262144, 128 + (r / 4096) % 64, 128 + (r / 64) % 64, 128 + r % 64]

/-- The loop of Go `utf8.ValidString`; the length of the string is enough
fuel. -/
def validLoop : Nat → GoString → Bool
  | 0, s => s.isEmpty
  | _ + 1, [] => true
  | fuel + 1, b :: rest =>
    match DecodeRune (b :: rest) with
    | (r, size) =>
      if r = RuneError ∧ size = 1 then false
      else validLoop fuel ((b :: rest).drop size)

/-- Go `utf8.ValidString`: the bytes are a sequence of valid UTF-8
encodings. -/
def ValidString (s : GoString) : Bool := validLoop s.length s

end utf8

/-! ## `encoding/json`: strings -/

namespace json

/-- The digit `"0123456789abcdef"[n]`. -/
def hexDigit (n : Nat) : Nat := if n < 10 then 48 + n else 87 + n

/-- Go `htmlSafeSet`: the ASCII bytes written as they are, that is the
printable ones and DEL other than the quote, the backslash, `&`, `<` and `>`. -/
def htmlSafe (b : Nat) : Bool :=
  decide (32 ≤ b ∧ b < 128 ∧ b ≠ 34 ∧ b ≠ 38 ∧ b ≠ 60 ∧ b ≠ 62 ∧ b ≠ 92)

/-- The escape `appendString` writes for an ASCII byte that is not safe. -/
def escapeByte (b : Nat) : GoString :=
  if b = 92 ∨ b = 34 then [92, b]
  else if b = 8 then [92, 98]
  else if b = 12 then [92, 102]
  else if b = 10 then [92, 110]
  else if b = 13 then [92, 114]
  else if b = 9 then [92, 116]
  else [92, 117, 48, 48, hexDigit (b / 16), hexDigit (b % 16)]

/-- The loop of Go `appendString` with `escapeHTML` set: what is written
between the quotes for the given bytes. Safe ASCII and valid multi-byte
encodings are copied, other ASCII is escaped, an invalid byte is written as
the escape of U+FFFD, and U+2028 and U+2029 are escaped. -/
def appendStringLoop : Nat → GoString → GoString
  | 0, _ => []
  | _ + 1, [] => []
  | fuel + 1, b :: rest =>
    if b < 128 then
      (if htmlSafe b then [b] else escapeByte b) ++ appendStringLoop fuel rest
    else
      match utf8.DecodeRune (b :: rest) with
      | (c, size) =>
        if c = utf8.RuneError ∧ size = 1 then
          str "\\ufffd" ++ appendStringLoop fuel rest
        else if c = 8232 ∨ c = 8233 then
          [92, 117, 50, 48, 50, hexDigit (c % 16)]
            ++ appendStringLoop fuel ((b :: rest).drop size)
        else (b :: rest).take size ++ appendStringLoop fuel ((b :: rest).drop size)

/-- Go `appendString(dst, src, true)`: the JSON string literal of `src`. -/
def appendString (src : GoString) : GoString :=
  34 :: (appendStringLoop src.length src ++ [34])

/-- The value of four hexadecimal digits. -/
def hex4 (a b c d : Nat) : Option Nat :=
  match hex.fromHexChar a, hex.fromHexChar b, hex.fromHexChar c, hex.fromHexChar d with
  | some x, some y, some z, some w => some (x * 4096 + y * 256 + z * 16 + w)
  | _, _, _, _ => none

/-- Go `getu4`: the rune of a leading `\uXXXX`, `none` for the result -1. -/
def getu4 : GoString → Option Nat
  | 92 :: 117 :: a :: b :: c :: d :: _ => hex4 a b c d
  | _ => none

/-- The string literal scanner together with Go `unquote`, from behind the
opening quote: the bytes of the string value (appended to `acc`) and the input
behind the closing quote; `none` is a syntax error. Escapes are resolved, a
`\u` surrogate pair is combined, an unpaired surrogate and every invalid byte
become U+FFFD. -/
def unquoteLoop : Nat → GoString → GoString → Option (GoString × GoString)
  | 0, _, _ => none
  | _ + 1, [], _ => none
  | fuel + 1, c :: rest, acc =>
    if c = 34 then some (acc, rest)
    else if c = 92 then
      match rest with
      | [] => none
      | e :: rest2 =>
        if e = 34 ∨ e = 92 ∨ e = 47 then unquoteLoop fuel rest2 (acc ++ [e])
        else if e = 98 then unquoteLoop fuel rest2 (acc ++ [8])
        else if e = 102 then unquoteLoop fuel rest2 (acc ++ [12])
        else if e = 110 then unquoteLoop fuel rest2 (acc ++ [10])
        else if e = 114 then unquoteLoop fuel rest2 (acc ++ [13])
        else if e = 116 then unquoteLoop fuel rest2 (acc ++ [9])
        else if e = 117 then
          match getu4 (c :: rest) with
          | none => none
          | some rr =>
            let r6 := rest2.drop 4
            if 55296 ≤ rr ∧ rr < 57344 then
              match getu4 r6 with
              | some rr1 =>
                if rr < 56320 ∧ 56320 ≤ rr1 ∧ rr1 < 57344 then
                  unquoteLoop fuel (r6.drop 6)
                    (acc ++ utf8.EncodeRune ((rr - 55296) * 1024 + (rr1 - 56320) + 65536))
                else unquoteLoop fuel r6 (acc ++ utf8.EncodeRune utf8.RuneError)
              | none => unquoteLoop fuel r6 (acc ++ utf8.EncodeRune utf8.RuneError)
            else unquoteLoop fuel r6 (acc ++ utf8.EncodeRune rr)
        else none
    else if c < 32 then none
    else if c < 128 then unquoteLoop fuel rest (acc ++ [c])
    else
      match utf8.DecodeRune (c :: rest) with
      | (rr, size) => unquoteLoop fuel ((c :: rest).drop size) (acc ++ utf8.EncodeRune rr)

end json

/-! ## `encoding/json`: values -/

namespace json

/-- A parsed JSON value; strings are held unquoted, numbers as their
literal. -/
inductive JValue where
  | null
  | bool (b : Bool)
  | number (lit : GoString)
  | string (s : GoString)
  | array (elems : List JValue)
  | object (members : List (GoString × JValue))

/-- JSON white space: space, tab, line feed, carriage return. -/
def isSpace (c : Nat) : Bool := c == 32 || c == 9 || c == 10 || c == 13

/-- Skips white space. -/
def skipWS (s : GoString) : GoString := s.dropWhile isSpace

/-- An ASCII digit. -/
def isDigit (c : Nat) : Bool := decide (48 ≤ c ∧ c ≤ 57)

/-- One or more digits. -/
def digits1 (s : GoString) : Option (GoString × GoString) :=
  if (s.takeWhile isDigit).isEmpty then none
  else some (s.takeWhile isDigit, s.dropWhile isDigit)

/-- The optional exponent of a number. -/
def numberExp (lit s : GoString) : Option (GoString × GoString) :=
  match s with
  | e :: r =>
    if e = 101 ∨ e = 69 then
      match r with
      | sg :: r2 =>
        if sg = 43 ∨ sg = 45 then
          match digits1 r2 with
          | some (ds, r3) => some (lit ++ e :: sg :: ds, r3)
          | none => none
        else
          match digits1 r with
          | some (ds, r3) => some (lit ++ e :: ds, r3)
          | none => none
      | [] => none
    else some (lit, s)
  | [] => some (lit, s)

/-- The optional fraction of a number, then the exponent. -/
def numberFrac (lit s : GoString) : Option (GoString × GoString) :=
  match s with
  | 46 :: r =>
    match digits1 r with
    | some (ds, r2) => numberExp (lit ++ 46 :: ds) r2
    | none => none
  | _ => numberExp lit s

/-- A JSON number literal at the head of the input. -/
def parseNumber (s : GoString) : Option (GoString × GoString) :=
  match s with
  | 45 :: 48 :: r => numberFrac [45, 48] r
  | 45 :: r =>
    match digits1 r with
    | some (ds, r2) => numberFrac (45 :: ds) r2
    | none => none
  | 48 :: r => numberFrac [48] r
  | _ =>
    match digits1 s with
    | some (ds, r2) => numberFrac ds r2
    | none => none

mutual

/-- A JSON value at the head of the input (no white space before it): the
value and the input behind it. `none` is a syntax error, or the end of the
fuel: a nested value takes one unit, an element or member two. -/
def parseValue : Nat → GoString → Option (JValue × GoString)
  | 0, _ => none
  | fuel + 1, input =>
    match input with
    | 110 :: 117 :: 108 :: 108 :: rest => some (JValue.null, rest)
    | 116 :: 114 :: 117 :: 101 :: rest => some (JValue.bool true, rest)
    | 102 :: 97 :: 108 :: 115 :: 101 :: rest => some (JValue.bool false, rest)
    | 34 :: rest =>
      match unquoteLoop (rest.length + 1) rest [] with
      | some (s, rest2) => some (JValue.string s, rest2)
      | none => none
    | 91 :: rest =>
      match skipWS rest with
      | 93 :: rest2 => some (JValue.array [], rest2)
      | r => parseElems fuel r []
    | 123 :: rest =>
      match skipWS rest with
      | 125 :: rest2 => some (JValue.object [], rest2)
      | r => parseMembers fuel r []
    | _ =>
      match parseNumber input with
      | some (lit, rest) => some (JValue.number lit, rest)
      | none => none

/-- The elements of an array from the head of an element on, up to the
closing bracket. -/
def parseElems : Nat → GoString → List JValue → Option (JValue × GoString)
  | 0, _, _ => none
  | fuel + 1, input, acc =>
    match parseValue fuel input with
    | none => none
    | some (v, rest) =>
      match skipWS rest with
      | 44 :: rest2 => parseElems fuel (skipWS rest2) (acc ++ [v])
      | 93 :: rest2 => some (JValue.array (acc ++ [v]), rest2)
      | _ => none

/-- The members of an object from the head of a key on, up to the closing
brace. -/
def parseMembers : Nat → GoString → List (GoString × JValue) → Option (JValue × GoString)
  | 0, _, _ => none
  | fuel + 1, input, acc =>
    match input with
    | 34 :: rest =>
      match unquoteLoop (rest.length + 1) rest [] with
      | none => none
      | some (key, rest1) =>
        match skipWS rest1 with
        | 58 :: rest2 =>
          match parseValue fuel (skipWS rest2) with
          | none => none
          | some (v, rest3) =>
            match skipWS rest3 with
            | 44 :: rest4 => parseMembers fuel (skipWS rest4) (acc ++ [(key, v)])
            | 125 :: rest4 => some (JValue.object (acc ++ [(key, v)]), rest4)
            | _ => none
        | _ => none
    | _ => none

end

/-- The JSON value a text consists of, with white space allowed around it;
`none` is the `SyntaxError` of Go `checkValid`. (The nesting limit of the Go
scanner, 10000 levels, is not modelled.) -/
def parseJSON (data : GoString) : Option JValue :=
  match parseValue (2 * data.length + 2) (skipWS data) with
  | some (v, rest) => if skipWS rest = [] then some v else none
  | none => none

/-- Go `strings.Compare(a, b) <= 0`: the byte-wise order of strings. -/
def bytesLe : GoString → GoString → Bool
  | [], _ => true
  | _ :: _, [] => false
  | a :: as, b :: bs => if a < b then true else if b < a then false else bytesLe as bs

/-- The entries of a map in the order `Marshal` writes them: sorted by key. -/
def sortEntries {V : Type} (es : List (GoString × V)) : List (GoString × V) :=
  es.insertionSort (fun a b => bytesLe a.1 b.1 = true)

/-- Texts joined by commas. -/
def joinComma : List GoString → GoString
  | [] => []
  | [e] => e
  | e :: es => e ++ 44 :: joinComma es

/-- Go `json.Marshal` of a `[]string`. -/
def marshalStrings (v : GoSlice GoString) : GoString :=
  match v with
  | none => str "null"
  | some l => 91 :: (joinComma (l.map appendString) ++ [93])

/-- Go `json.Marshal` of a map, given the encoding of its values. -/
def marshalMap {V : Type} (enc : V → GoString) (m : GoMap V) : GoString :=
  match m with
  | none => str "null"
  | some es =>
    123 :: (joinComma ((sortEntries es).map (fun e => appendString e.1 ++ 58 :: enc e.2))
      ++ [125])

/-- The `UnmarshalTypeError` of a JSON value that does not fit the Go type. -/
def typeError : Error := str "json: cannot unmarshal value into Go value"

/-- Go `Unmarshal` into a `string` holding `cur`: a JSON string replaces it,
`null` leaves it. -/
def unmarshalString (v : JValue) (cur : GoString) : Except Error GoString :=
  match v with
  | JValue.string s => Except.ok s
  | JValue.null => Except.ok cur
  | _ => Except.error typeError

/-- The elements of a JSON array decoded into the elements of a `[]string`;
an element within the old length starts from the old element, a new one from
the empty string. -/
def unmarshalElems : List JValue → List GoString → Except Error (List GoString)
  | [], _ => Except.ok []
  | v :: vs, cur =>
    match unmarshalString v (cur.headD []) with
    | Except.error e => Except.error e
    | Except.ok s =>
      match unmarshalElems vs cur.tail with
      | Except.error e => Except.error e
      | Except.ok ss => Except.ok (s :: ss)

/-- Go `Unmarshal` into a `[]string` holding `cur`: `null` gives the nil
slice, an array a slice of its elements (not nil, also when empty). -/
def unmarshalStrings (v : JValue) (cur : GoSlice GoString) : Except Error (GoSlice GoString) :=
  match v with
  | JValue.null => Except.ok none
  | JValue.array vs =>
    match unmarshalElems vs (cur.getD []) with
    | Except.error e => Except.error e
    | Except.ok ss => Except.ok (some ss)
  | _ => Except.error typeError

/-- The members of a JSON object stored into the entries of a map: every
value is decoded into a new zero element and assigned under its key. -/
def unmarshalMembers {V : Type} (dec : JValue → Except Error V) :
    List (GoString × JValue) → List (GoString × V) → Except Error (List (GoString × V))
  | [], es => Except.ok es
  | (k, v) :: ms, es =>
    match dec v with
    | Except.error e => Except.error e
    | Except.ok x => unmarshalMembers dec ms (GoMap.setEntry es k x)

/-- Go `Unmarshal` into a map holding `cur`: `null` gives the nil map, an
object is stored into the map, which is made when it is nil. -/
def unmarshalMap {V : Type} (dec : JValue → Except Error V) (v : JValue) (cur : GoMap V) :
    Except Error (GoMap V) :=
  match v with
  | JValue.null => Except.ok none
  | JValue.object ms =>
    match unmarshalMembers dec ms (cur.getD []) with
    | Except.error e => Except.error e
    | Except.ok es => Except.ok (some es)
  | _ => Except.error typeError

end json

/-- The three types `db.go` instantiates `JSON[T]` with, each with the way
`encoding/json` writes and reads it. -/
class JSONShape (T : Type) where
  zero : T
  marshal : T → GoString
  unmarshal : json.JValue → T → Except Error T

instance : JSONShape (GoSlice GoString) where
  zero := none
  marshal := json.marshalStrings
  unmarshal := json.unmarshalStrings

instance : JSONShape (GoMap GoString) where
  zero := none
  marshal := json.marshalMap json.appendString
  unmarshal := json.unmarshalMap (fun v => json.unmarshalString v [])

instance : JSONShape (GoMap (GoSlice GoString)) where
  zero := none
  marshal := json.marshalMap json.marshalStrings
  unmarshal := json.unmarshalMap (fun v => json.unmarshalStrings v none)

namespace json

/-- Go `json.Marshal` (it has no error for these types). -/
def Marshal {T : Type} [JSONShape T] (v : T) : GoString := JSONShape.marshal v

/-- Go `json.Unmarshal(data, &cur)`: the new value of `cur`, or the error. -/
def Unmarshal {T : Type} [JSONShape T] (data : GoString) (cur : T) : Except Error T :=
  match parseJSON data with
  | none => Except.error (str "invalid character")
  | some v => JSONShape.unmarshal v cur

end json

/-! ## `db.go`: the JSON columns and `json_array_contains` -/

/-- A Go value of dynamic type, as far as `db.go` tells the types apart: nil,
a `string`, an `sql.NullString`, or a value of another type (an `int64`, a
`[]byte`, ...). -/
inductive AnyValue where
  | nil
  | string (s : GoString)
  | nullString (s : GoString) (valid : Bool)
  | int64 (i : Int)
  | bytes (b : GoString)
  | bool (b : Bool)
  deriving DecidableEq, Repr

/-- Go `(*JSON[T]).Scan`: the wrapper after the call, or the error. -/
def JSON.Scan {T : Type} [JSONShape T] (s : JSON T) (val : AnyValue) : Except Error (JSON T) :=
  match val with
  | AnyValue.nil => Except.ok s
  | AnyValue.string v =>
    match json.Unmarshal v s.Val with
    | Except.error e => Except.error e
    | Except.ok x => Except.ok ⟨x⟩
  | AnyValue.nullString v valid =>
    if valid then
      match json.Unmarshal v s.Val with
      | Except.error e => Except.error e
      | Except.ok x => Except.ok ⟨x⟩
    else Except.ok s
  | _ => Except.error (str "sqlite json types must be strings")

/-- Go `JSON[T].Value`. -/
def JSON.Value {T : Type} [JSONShape T] (s : JSON T) : Except Error AnyValue :=
  Except.ok (AnyValue.string (json.Marshal s.Val))

/-- Go `slices.Contains` on a `[]string`. -/
def slicesContains (array : GoSlice GoString) (item : GoString) : Bool :=
  match array with
  | none => false
  | some l => l.contains item

/-- Go `JsonArrayContains`, on its two arguments. -/
def JsonArrayContains (arg0 arg1 : AnyValue) : Except Error Bool :=
  match arg0 with
  | AnyValue.string value =>
    match arg1 with
    | AnyValue.string item =>
      match json.Unmarshal value (none : GoSlice GoString) with
      | Except.error e => Except.error e
      | Except.ok array => Except.ok (slicesContains array item)
    | _ => Except.error (str "both arguments to json_array_contains must be strings")
  | _ => Except.error (str "both arguments to json_array_contains must be strings")

/-- Every string of a `[]string` is valid UTF-8. -/
def validStrings (v : GoSlice GoString) : Bool :=
  match v with
  | none => true
  | some l => l.all utf8.ValidString

/-- The keys of a map. -/
def GoMap.keys {V : Type} (m : GoMap V) : List GoString := (m.getD []).map Prod.fst

/-- Two maps are equal as Go maps: both nil or both not, and the same value
(or none) under every key. -/
def GoMap.Equiv {V : Type} (a b : GoMap V) : Prop :=
  (a = none ↔ b = none) ∧ ∀ k, a.get k = b.get k

/-- The text `enc x` is not led by white space and is parsed to `ast x`, with
any fuel from `B` on and whatever follows it. -/
def json.ReadsBack {V : Type} (enc : V → GoString) (ast : V → json.JValue) (B : Nat)
    (x : V) : Prop :=
  (∃ c r, enc x = c :: r ∧ json.isSpace c = false)
  ∧ ∀ (tail : GoString) (f : Nat), B ≤ f →
      json.parseValue (f + 1) (enc x ++ tail) = some (ast x, tail)

/-- Every key and value of a `map[string]string` is valid UTF-8. -/
def validStringMap (m : GoMap GoString) : Bool :=
  (m.getD []).all (fun e => utf8.ValidString e.1 && utf8.ValidString e.2)

/-- Every key and every string of every value of a `map[string][]string` is
valid UTF-8. -/
def validSliceMap (m : GoMap (GoSlice GoString)) : Bool :=
  (m.getD []).all (fun e => utf8.ValidString e.1 && validStrings e.2)

/-- The abstract syntax `Marshal` writes for a `[]string`. -/
def json.astStrings (v : GoSlice GoString) : json.JValue :=
  match v with
  | none => json.JValue.null
  | some l => json.JValue.array (l.map json.JValue.string)

/-- `Value` of a wrapper holding `v`, then `Scan` of the result into a new
wrapper (holding the zero value of the type). -/
def JSON.roundTrip {T : Type} [JSONShape T] (v : T) : Except Error (JSON T) :=
  match JSON.Value (⟨v⟩ : JSON T) with
  | Except.error e => Except.error e
  | Except.ok x => JSON.Scan (⟨JSONShape.zero⟩ : JSON T) x

/-! ## `db.go`: the `pkgs` table -/

/-- A row of the table `pkgs`: the JSON columns hold text. -/
structure Row where
  name : GoString
  repository : GoString
  version : GoString
  release : Int
  epoch : Int
  description : GoString
  homepage : GoString
  maintainer : GoString
  architectures : GoString
  licenses : GoString
  provides : GoString
  conflicts : GoString
  replaces : GoString
  depends : GoString
  builddepends : GoString
  deriving DecidableEq, Repr

/-- The `CHECK` of a JSON column: the text `null`, or valid JSON of the
wanted type (`object` or `array`). -/
def jsonCheck (wantObject : Bool) (text : GoString) : Bool :=
  if text = str "null" then true
  else
    match json.parseJSON text with
    | some (json.JValue.object _) => wantObject
    | some (json.JValue.array _) => !wantObject
    | _ => false

/-- The `CHECK` constraints of the table. -/
def Row.checks (r : Row) : Bool :=
  jsonCheck true r.description && jsonCheck true r.homepage && jsonCheck true r.maintainer
    && jsonCheck false r.architectures && jsonCheck false r.licenses
    && jsonCheck false r.provides && jsonCheck false r.conflicts && jsonCheck false r.replaces
    && jsonCheck true r.depends && jsonCheck true r.builddepends

/-- The text `Value` gives for a column (it has no error). -/
def columnText {T : Type} [JSONShape T] (s : JSON T) : Except Error GoString :=
  match JSON.Value s with
  | Except.ok (AnyValue.string t) => Except.ok t
  | Except.ok _ => Except.error (str "unsupported type")
  | Except.error e => Except.error e

/-- The query parameter of a Go `uint`: `int64(rv.Uint())`, which wraps from
2^63 on. -/
def uintParam (u : Nat) : Int := if u < 2 ^ 63 then (u : Int) else (u : Int) - 2 ^ 64

/-- Go `InsertPackage`: the columns are taken from the package, the JSON ones
through `Value`; `INSERT OR REPLACE` removes the row with the same
`(name, repository)` and adds the new one. -/
def InsertPackage (rows : List Row) (pkg : Package) : Except Error (List Row) := do
  let description ← columnText pkg.Description
  let homepage ← columnText pkg.Homepage
  let maintainer ← columnText pkg.Maintainer
  let architectures ← columnText pkg.Architectures
  let licenses ← columnText pkg.Licenses
  let provides ← columnText pkg.Provides
  let conflicts ← columnText pkg.Conflicts
  let replaces ← columnText pkg.Replaces
  let depends ← columnText pkg.Depends
  let builddepends ← columnText pkg.BuildDepends
  let row : Row :=
    { name := pkg.Name, repository := pkg.Repository, version := pkg.Version,
      release := pkg.Release, epoch := uintParam pkg.Epoch,
      description := description, homepage := homepage, maintainer := maintainer,
      architectures := architectures, licenses := licenses, provides := provides,
      conflicts := conflicts, replaces := replaces, depends := depends,
      builddepends := builddepends }
  if row.checks then
    Except.ok
      (rows.filter (fun r => !(decide (r.name = row.name)
        && decide (r.repository = row.repository))) ++ [row])
  else Except.error (str "CHECK constraint failed: pkgs")

/-- A row scanned into a new `Package`: the JSON columns through `Scan`, the
epoch into a `uint`. -/
def scanRow (r : Row) : Except Error Package := do
  let description ← JSON.Scan (⟨none⟩ : JSON (GoMap GoString)) (AnyValue.string r.description)
  let homepage ← JSON.Scan (⟨none⟩ : JSON (GoMap GoString)) (AnyValue.string r.homepage)
  let maintainer ← JSON.Scan (⟨none⟩ : JSON (GoMap GoString)) (AnyValue.string r.maintainer)
  let architectures ←
    JSON.Scan (⟨none⟩ : JSON (GoSlice GoString)) (AnyValue.string r.architectures)
  let licenses ← JSON.Scan (⟨none⟩ : JSON (GoSlice GoString)) (AnyValue.string r.licenses)
  let provides ← JSON.Scan (⟨none⟩ : JSON (GoSlice GoString)) (AnyValue.string r.provides)
  let conflicts ← JSON.Scan (⟨none⟩ : JSON (GoSlice GoString)) (AnyValue.string r.conflicts)
  let replaces ← JSON.Scan (⟨none⟩ : JSON (GoSlice GoString)) (AnyValue.string r.replaces)
  let depends ←
    JSON.Scan (⟨none⟩ : JSON (GoMap (GoSlice GoString))) (AnyValue.string r.depends)
  let builddepends ←
    JSON.Scan (⟨none⟩ : JSON (GoMap (GoSlice GoString))) (AnyValue.string r.builddepends)
  if r.epoch < 0 then Except.error (str "converting driver.Value type int64 to a uint")
  else
    Except.ok
      { Name := r.name, Version := r.version, Release := r.release, Epoch := r.epoch.toNat,
        Description := description, Homepage := homepage, Maintainer := maintainer,
        Architectures := architectures, Licenses := licenses, Provides := provides,
        Conflicts := conflicts, Replaces := replaces, Depends := depends,
        BuildDepends := builddepends, Repository := r.repository }

/-- Go `GetPkg("name = ? AND repository = ?", name, repo)`: the first row with
that name and repository, scanned; an error when there is none. -/
def GetPkg (rows : List Row) (name repo : GoString) : Except Error Package :=
  match rows.find? (fun r => decide (r.name = name) && decide (r.repository = repo)) with
  | none => Except.error (str "sql: no rows in result set")
  | some r => scanRow r

/-- The nested fields of a package hold valid UTF-8 under distinct keys, and
its epoch is below 2^63. -/
def Package.storable (p : Package) : Bool :=
  validStringMap p.Description.Val && validStringMap p.Homepage.Val
    && validStringMap p.Maintainer.Val
    && validStrings p.Architectures.Val && validStrings p.Licenses.Val
    && validStrings p.Provides.Val && validStrings p.Conflicts.Val
    && validStrings p.Replaces.Val
    && validSliceMap p.Depends.Val && validSliceMap p.BuildDepends.Val
    && decide (p.Description.Val.keys.Nodup) && decide (p.Homepage.Val.keys.Nodup)
    && decide (p.Maintainer.Val.keys.Nodup) && decide (p.Depends.Val.keys.Nodup)
    && decide (p.BuildDepends.Val.keys.Nodup) && decide (p.Epoch < 2 ^ 63)

/-- Two packages are equal as Go values: the same scalars and lists, and maps
equal as Go maps. -/
def Package.Equiv (a b : Package) : Prop :=
  a.Name = b.Name ∧ a.Version = b.Version ∧ a.Release = b.Release ∧ a.Epoch = b.Epoch
  ∧ a.Repository = b.Repository
  ∧ a.Architectures = b.Architectures ∧ a.Licenses = b.Licenses ∧ a.Provides = b.Provides
  ∧ a.Conflicts = b.Conflicts ∧ a.Replaces = b.Replaces
  ∧ GoMap.Equiv a.Description.Val b.Description.Val
  ∧ GoMap.Equiv a.Homepage.Val b.Homepage.Val
  ∧ GoMap.Equiv a.Maintainer.Val b.Maintainer.Val
  ∧ GoMap.Equiv a.Depends.Val b.Depends.Val
  ∧ GoMap.Equiv a.BuildDepends.Val b.BuildDepends.Val

/-- The package of the recipe `foo` of the specification, with a description
in two languages. -/
def fooPackage : Package :=
  { Package.zero with
    Name := str "foo", Version := str "1.0", Release := 1, Repository := str "repo",
    Description := ⟨some [(str "fr", [195, 169]), (str "", str "a <b> \"c\"")]⟩,
    Architectures := ⟨some [str "amd64"]⟩,
    Licenses := ⟨some []⟩,
    Depends := ⟨some [(str "amd64", some [str "bar"]), (str "", none)]⟩,
    BuildDepends := ⟨some []⟩ }

/-! ## `pull.go`: the filter, in the words of the specification -/

/-- The one path that decides `isValid`: the path of `to` when `to` is
present, otherwise the path of `from` (the empty string when both are nil). -/
def decidingPath (f t : Option File) : GoString :=
  match t with
  | some y => y.Path
  | none =>
    match f with
    | some x => x.Path
    | none => []

/-! ## `pull.go`: full reingest -/

/-- What `processRepoFull` works against: the checkout, the sandboxed
interpreter with the decoder, and the store (of state `σ`).
* `glob pattern`: `filepath.Glob(pattern)` on the file system;
* `openFile p`: `os.Open(p)`, with the contents the parser reads from it;
* `parseScript scriptdir script`: Go `parseScript` on a runner whose
  environment has that `scriptdir`: an error, or the decoded fields with the
  final `runner.Vars` in the order `resolveOverrides` will visit them;
* `InsertPackage db pkg`: `db.InsertPackage(gdb, pkg)`. -/
structure FullEnv (σ : Type) where
  glob : GoString → Except Error (List GoString)
  openFile : GoString → Except Error GoString
  parseScript : GoString → GoString → Except Error (ShFields × Vars)
  InsertPackage : σ → Package → Except Error σ

/-- The loop `for _, match := range matches` of `processRepoFull`: the
returned error (`none` is nil) with the final store; the outer `none` is a
panic (`interp.New` with these options returns no error). -/
def reingestMatches {σ : Type} (env : FullEnv σ) (repo : GoString) :
    List GoString → σ → Option (Option Error × σ)
  | [], db => some (none, db)
  | m :: ms, db =>
    match env.openFile m with
    | Except.error e => some (some e, db)
    | Except.ok script =>
      match env.parseScript (filepath.Dir m) script with
      | Except.error e => some (some e, db)
      | Except.ok (d, vars) =>
        match resolveOverrides vars (d.into (seedPackage repo)) with
        | none => none
        | some pkg =>
          match env.InsertPackage db pkg with
          | Except.error e => some (some e, db)
          | Except.ok db2 => reingestMatches env repo ms db2

/-- Go `processRepoFull`. -/
def processRepoFull {σ : Type} (env : FullEnv σ) (repo repoDir : GoString) (db : σ) :
    Option (Option Error × σ) :=
  match env.glob (filepath.Join [repoDir, str "/*/lure.sh"]) with
  | Except.error e => some (some e, db)
  | Except.ok ms => reingestMatches env repo ms db

/-- A checkout and a sandbox, with the `pkgs` table of `db.go` as the store. -/
def tableEnv (glob : GoString → Except Error (List GoString))
    (openFile : GoString → Except Error GoString)
    (parseScript : GoString → GoString → Except Error (ShFields × Vars)) :
    FullEnv (List Row) :=
  { glob := glob, openFile := openFile, parseScript := parseScript,
    InsertPackage := InsertPackage }

/-- The row `InsertPackage` writes for a package. -/
def Package.row (pkg : Package) : Row :=
  { name := pkg.Name, repository := pkg.Repository, version := pkg.Version,
    release := pkg.Release, epoch := uintParam pkg.Epoch,
    description := json.Marshal pkg.Description.Val,
    homepage := json.Marshal pkg.Homepage.Val,
    maintainer := json.Marshal pkg.Maintainer.Val,
    architectures := json.Marshal pkg.Architectures.Val,
    licenses := json.Marshal pkg.Licenses.Val,
    provides := json.Marshal pkg.Provides.Val,
    conflicts := json.Marshal pkg.Conflicts.Val,
    replaces := json.Marshal pkg.Replaces.Val,
    depends := json.Marshal pkg.Depends.Val,
    builddepends := json.Marshal pkg.BuildDepends.Val }

/-- `INSERT OR REPLACE` of a row: the row with the same `(name, repository)`
is removed and the new row added. -/
def upsertRow (rows : List Row) (row : Row) : List Row :=
  rows.filter (fun r => !(decide (r.name = row.name)
    && decide (r.repository = row.repository))) ++ [row]

/-- No two bindings of a recipe write the same key of the same map: the names
are distinct, and two names that start with `deps` (with `build_deps`) and
have the same override key are the same name. -/
def clashFree (vars : Vars) : Bool :=
  decide ((vars.map Prod.fst).Nodup)
  && vars.all (fun a => vars.all (fun b =>
      (!(strings.HasPrefix a.1 (str "deps") && strings.HasPrefix b.1 (str "deps")
          && decide (overrideKey (str "deps") a.1 = overrideKey (str "deps") b.1))
        || decide (a.1 = b.1))
      && (!(strings.HasPrefix a.1 (str "build_deps")
          && strings.HasPrefix b.1 (str "build_deps")
          && decide (overrideKey (str "build_deps") a.1
              = overrideKey (str "build_deps") b.1))
        || decide (a.1 = b.1))))

/-- Two runs of the sandbox see the same recipes with the same final
bindings: on every script both fail with the same error, or both decode the
same fields and end with the same bindings, visited in an order of their
own. -/
def SameBindings (p q : GoString → GoString → Except Error (ShFields × Vars)) : Prop :=
  ∀ sd script,
    match p sd script, q sd script with
    | Except.ok (d1, v1), Except.ok (d2, v2) => d1 = d2 ∧ v1.Perm v2
    | Except.error e1, Except.error e2 => e1 = e2
    | _, _ => False

/-- The decoded fields of the recipe `foo`. -/
def fooFields : ShFields :=
  { Name := str "foo", Version := str "1.0", Release := 1, Epoch := 0,
    Architectures := some [str "amd64"], Licenses := none, Provides := none,
    Conflicts := none, Replaces := none }

/-- The checkout has the one recipe `/r/foo/lure.sh`. -/
def oneRecipeGlob : GoString → Except Error (List GoString) :=
  fun _ => Except.ok [str "/r/foo/lure.sh"]

/-- The recipe can be opened, nothing else can. -/
def oneRecipeOpen : GoString → Except Error GoString :=
  fun p => if p = str "/r/foo/lure.sh" then Except.ok (str "recipe")
    else Except.error (str "open: no such file or directory")

/-- The recipe is decoded to the fields of `foo`, and its final bindings are
`vars`, in that visiting order. -/
def oneRecipeParse (vars : Vars) : GoString → GoString → Except Error (ShFields × Vars) :=
  fun _ script => if script = str "recipe" then Except.ok (fooFields, vars)
    else Except.error (str "parse error")

/-- A checkout with the one recipe `/r/foo/lure.sh`, whose final bindings are
`vars`. -/
def oneRecipeEnv (vars : Vars) : FullEnv (List Row) :=
  tableEnv oneRecipeGlob oneRecipeOpen (oneRecipeParse vars)

/-- The bindings `deps_amd64=(bar)` and `depsamd64=(baz)`, which have the same
override key. -/
def clashVars : Vars :=
  [(str "deps_amd64", arrayVar [str "bar"]), (str "depsamd64", arrayVar [str "baz"])]

/-- What one binding does to the entries of `Depends`. -/
def writeDeps (es : List (GoString × GoSlice GoString)) (b : GoString × Variable) :
    List (GoString × GoSlice GoString) :=
  if strings.HasPrefix b.1 (str "deps") then
    GoMap.setEntry es (overrideKey (str "deps") b.1) b.2.List
  else es

/-- What one binding does to the entries of `BuildDepends`. -/
def writeBuildDeps (es : List (GoString × GoSlice GoString)) (b : GoString × Variable) :
    List (GoString × GoSlice GoString) :=
  if strings.HasPrefix b.1 (str "deps") then es
  else if strings.HasPrefix b.1 (str "build_deps") then
    GoMap.setEntry es (overrideKey (str "build_deps") b.1) b.2.List
  else es

/-- The columns of the constraint `UNIQUE(name, repository)`. -/
def Row.key (r : Row) : GoString × GoString := (r.name, r.repository)

/-- The bindings `deps=(baz)`, `build_deps=(go)` and `deps_amd64=(bar)`, which
write three different entries. -/
def threeVars : Vars :=
  [(str "deps", arrayVar [str "baz"]), (str "build_deps", arrayVar [str "go"]),
   (str "deps_amd64", arrayVar [str "bar"])]

/-! ## Theorems

### The action list of a patch -/

theorem collectActions_eq (patch : List FilePatch) : ∀ acc : List action,
    collectActions acc patch
      = some (acc ++ (patch.filter (fun fp => isValid fp.fromFile fp.toFile)).flatMap
          pairActionsSpec) := by
  induction patch with
  | nil => intro acc; simp [collectActions]
  | cons fp fps ih =>
    intro acc
    obtain ⟨f, t⟩ := fp
    by_cases hv : isValid f t = true
    · cases f with
      | none =>
        cases t with
        | none => exact absurd hv (by decide)
        | some t =>
          simp [collectActions, appendActions, hv, ih, pairActionsSpec, List.filter_cons]
      | some f =>
        cases t with
        | none => simp [collectActions, appendActions, hv, ih, pairActionsSpec, List.filter_cons]
        | some t =>
          by_cases hp : f.Path = t.Path
          · simp [collectActions, appendActions, hv, ih, pairActionsSpec, List.filter_cons, hp]
          · simp [collectActions, appendActions, hv, ih, pairActionsSpec, List.filter_cons, hp]
    · simp [collectActions, appendActions, hv, ih, List.filter_cons]

/-- C1: for every patch the first loop of `processRepoChanges` completes and
its action list is the concatenation, in file-pair order, of the actions of
the file pairs that pass `isValid`: a deletion gives `[Delete from]`, an
addition `[Update to]`, a rename `[Delete from, Update to]` and an edit in
place `[Update to]`. -/
theorem buildActions_eq_concat (patch : List FilePatch) :
    buildActions patch
      = some ((patch.filter (fun fp => isValid fp.fromFile fp.toFile)).flatMap
          pairActionsSpec)
    ∧ (∀ f : File, pairActionsSpec ⟨some f, none⟩ = [⟨actionType.actionDelete, f.Path⟩])
    ∧ (∀ t : File, pairActionsSpec ⟨none, some t⟩ = [⟨actionType.actionUpdate, t.Path⟩])
    ∧ (∀ f t : File, pairActionsSpec ⟨some f, some t⟩ =
        if f.Path = t.Path then [⟨actionType.actionUpdate, t.Path⟩]
        else [⟨actionType.actionDelete, f.Path⟩, ⟨actionType.actionUpdate, t.Path⟩]) := by
  refine ⟨?_, fun _ => rfl, fun _ => rfl, ?_⟩
  · simpa [buildActions] using collectActions_eq patch []
  · intro f t
    by_cases hp : f.Path = t.Path <;> simp [pairActionsSpec, hp]

/-! ### Paths -/

namespace filepath

theorem splitSep_append_sep (d r : GoString) (hd : ∀ c ∈ d, c ≠ Separator) :
    splitSep (d ++ Separator :: r) = d :: splitSep r := by
  induction d with
  | nil => simp [splitSep]
  | cons c d ih =>
    have hc : c ≠ Separator := hd c (by simp)
    have ih2 := ih (fun x hx => hd x (by simp [hx]))
    simp [splitSep, hc, ih2]

theorem splitSep_no_sep (d : GoString) (hd : ∀ c ∈ d, c ≠ Separator) :
    splitSep d = [d] := by
  induction d with
  | nil => simp [splitSep]
  | cons c d ih =>
    have hc : c ≠ Separator := hd c (by simp)
    have ih2 := ih (fun x hx => hd x (by simp [hx]))
    simp [splitSep, hc, ih2]

theorem dirPart_append_sep (d b : GoString) (hb : ∀ c ∈ b, c ≠ Separator) :
    ((d ++ Separator :: b).reverse.dropWhile (fun c => c != Separator)).reverse
      = d ++ [Separator] := by
  have h1 : (d ++ Separator :: b).reverse = b.reverse ++ (Separator :: d.reverse) := by simp
  rw [h1, List.dropWhile_append_of_pos]
  · simp [List.dropWhile]
  · intro c hc
    simpa using hb c (by simpa using hc)

theorem Base_append_sep (d b : GoString) (hb : ∀ c ∈ b, c ≠ Separator) (hb0 : b ≠ []) :
    Base (d ++ Separator :: b) = b := by
  have h1 : (d ++ Separator :: b).reverse = b.reverse ++ (Separator :: d.reverse) := by simp
  have hpos : ∀ c ∈ b.reverse, (c != Separator) = true := by
    intro c hc
    simpa using hb c (by simpa using hc)
  have hdrop : (b.reverse ++ (Separator :: d.reverse)).dropWhile (fun c => c == Separator)
      = b.reverse ++ (Separator :: d.reverse) := by
    cases hr : b.reverse with
    | nil => exact absurd (by simpa using hr) hb0
    | cons x xs =>
      have hx : x ≠ Separator := by
        have := hpos x (by simp [hr])
        simpa using this
      rw [List.cons_append, List.dropWhile_cons_of_neg (by simpa using hx)]
  have htake : (b.reverse ++ (Separator :: d.reverse)).takeWhile (fun c => c != Separator)
      = b.reverse := by
    rw [List.takeWhile_append_of_pos hpos]
    simp [List.takeWhile]
  have hne : d ++ Separator :: b ≠ [] := by simp
  unfold Base
  rw [if_neg hne]
  simp only [h1, hdrop, List.reverse_reverse, htake]
  simp [hb0]

theorem Dir_append_sep (d b : GoString) (hd : ∀ c ∈ d, c ≠ Separator)
    (hb : ∀ c ∈ b, c ≠ Separator) (hdot : d ≠ str ".") :
    Dir (d ++ Separator :: b) = if d = [] then [Separator] else d := by
  unfold Dir
  rw [dirPart_append_sep d b hb]
  have hsplit : splitSep (d ++ [Separator]) = [d, []] := by
    rw [splitSep_append_sep d [] hd]; rfl
  unfold Clean
  rw [if_neg (by simp), hsplit]
  by_cases h0 : d = []
  · subst h0; decide
  · have hhead : ((d ++ [Separator]).head? == some Separator) = false := by
      cases d with
      | nil => exact absurd rfl h0
      | cons c d =>
        have hc : c ≠ Separator := hd c (by simp)
        simpa using hc
    have hhead2 : ¬ d.head? = some Separator := by
      cases d with
      | nil => exact absurd rfl h0
      | cons c d =>
        have hc : c ≠ Separator := hd c (by simp)
        simpa using hc
    by_cases h2 : d = str ".."
    · subst h2; decide
    · simp [hhead, hhead2, cleanElems, h0, hdot, h2, joinSep]

theorem Join_Dir_lure (d b : GoString) (hd : ∀ c ∈ d, c ≠ Separator)
    (hb : ∀ c ∈ b, c ≠ Separator) (hdot : d ≠ str ".") :
    Join [Dir (d ++ Separator :: b), str "lure.sh"] = d ++ Separator :: str "lure.sh" := by
  rw [Dir_append_sep d b hd hb hdot]
  by_cases h0 : d = []
  · subst h0; decide
  · rw [if_neg h0]
    unfold Join
    rw [if_neg h0]
    have hj : joinSep [d, str "lure.sh"] = d ++ Separator :: str "lure.sh" := rfl
    have hsplit : splitSep (d ++ Separator :: str "lure.sh") = [d, str "lure.sh"] := by
      rw [splitSep_append_sep d _ hd]; rfl
    have hhead : ((d ++ Separator :: str "lure.sh").head? == some Separator) = false := by
      cases d with
      | nil => exact absurd rfl h0
      | cons c d =>
        have hc : c ≠ Separator := hd c (by simp)
        simpa using hc
    unfold Clean
    rw [hj, if_neg (by simp), hsplit]
    have hl0 : str "lure.sh" ≠ [] := by decide
    have hl1 : str "lure.sh" ≠ str "." := by decide
    have hl2 : str "lure.sh" ≠ str ".." := by decide
    have hhead2 : ¬ d.head? = some Separator := by
      cases d with
      | nil => exact absurd rfl h0
      | cons c d =>
        have hc : c ≠ Separator := hd c (by simp)
        simpa using hc
    by_cases h2 : d = str ".."
    · subst h2; decide
    · simp [hhead, hhead2, cleanElems, h0, hdot, h2, joinSep, hl0, hl1, hl2]

end filepath

/-! ### Go maps, and override resolution does not panic -/

namespace GoMap

theorem getEntry_setEntry {V : Type} (es : List (GoString × V)) (k k2 : GoString) (v : V) :
    getEntry (setEntry es k v) k2 = if k = k2 then some v else getEntry es k2 := by
  induction es with
  | nil => simp [setEntry, getEntry]
  | cons e es ih =>
    obtain ⟨k3, v3⟩ := e
    by_cases h3 : k3 = k
    · subst h3
      by_cases h32 : k3 = k2 <;> simp [setEntry, getEntry, h32]
    · by_cases h32 : k3 = k2
      · subst h32
        simp [setEntry, getEntry, h3, Ne.symm h3]
      · simp [setEntry, getEntry, h3, h32, ih]

theorem get_set {V : Type} (m m2 : GoMap V) (k k2 : GoString) (v : V)
    (h : set m k v = some m2) :
    m2 ≠ none ∧ get m2 k2 = if k = k2 then some v else get m k2 := by
  cases m with
  | none => simp [set] at h
  | some es =>
    simp [set] at h
    subst h
    simp [get, getEntry_setEntry]

theorem set_isSome {V : Type} (m : GoMap V) (k : GoString) (v : V) (h : m ≠ none) :
    ∃ m2, set m k v = some m2 := by
  cases m with
  | none => exact absurd rfl h
  | some es => exact ⟨_, rfl⟩

end GoMap

theorem not_deps_of_build_deps (name : GoString)
    (h : strings.HasPrefix name (str "build_deps") = true) :
    strings.HasPrefix name (str "deps") = false := by
  cases name with
  | nil => simp [strings.HasPrefix, str] at h
  | cons c name =>
    simp [strings.HasPrefix, str, List.isPrefixOf] at h
    have hc : c = 98 := by simpa using h.1.symm
    subst hc
    simp [strings.HasPrefix, str, List.isPrefixOf]

/-- What one binding does to the two maps, when neither is nil. -/
theorem resolveBinding_spec (pkg : Package) (name : GoString) (val : Variable)
    (hD : pkg.Depends.Val ≠ none) (hB : pkg.BuildDepends.Val ≠ none) :
    ∃ pkg2, resolveBinding pkg name val = some pkg2
      ∧ pkg2.Depends.Val ≠ none ∧ pkg2.BuildDepends.Val ≠ none
      ∧ (∀ k, pkg2.Depends.Val.get k =
          if strings.HasPrefix name (str "deps") = true ∧ overrideKey (str "deps") name = k
          then some val.List else pkg.Depends.Val.get k)
      ∧ (∀ k, pkg2.BuildDepends.Val.get k =
          if strings.HasPrefix name (str "deps") = false
              ∧ strings.HasPrefix name (str "build_deps") = true
              ∧ overrideKey (str "build_deps") name = k
          then some val.List else pkg.BuildDepends.Val.get k) := by
  unfold resolveBinding
  by_cases h1 : strings.HasPrefix name (str "deps") = true
  · obtain ⟨m2, hm2⟩ := GoMap.set_isSome pkg.Depends.Val (overrideKey (str "deps") name)
      val.List hD
    have hg := fun k => GoMap.get_set _ _ _ k _ hm2
    refine ⟨{ pkg with Depends := ⟨m2⟩ }, by simp [h1, hm2], (hg []).1, hB, ?_, ?_⟩
    · intro k
      simp [h1, (hg k).2]
    · intro k
      simp [h1]
  · by_cases h2 : strings.HasPrefix name (str "build_deps") = true
    · obtain ⟨m2, hm2⟩ := GoMap.set_isSome pkg.BuildDepends.Val
        (overrideKey (str "build_deps") name) val.List hB
      have hg := fun k => GoMap.get_set _ _ _ k _ hm2
      refine ⟨{ pkg with BuildDepends := ⟨m2⟩ }, by simp [h1, h2, hm2], hD, (hg []).1, ?_, ?_⟩
      · intro k
        simp [h1]
      · intro k
        simp [h1, h2, (hg k).2]
    · refine ⟨pkg, by simp [h1, h2], hD, hB, ?_, ?_⟩
      · intro k; simp [h1]
      · intro k; simp [h2]

/-- With both maps not nil, `resolveOverrides` does not panic and keeps them
not nil. -/
theorem resolveOverrides_total (vars : Vars) : ∀ pkg : Package,
    pkg.Depends.Val ≠ none → pkg.BuildDepends.Val ≠ none →
    ∃ pkg2, resolveOverrides vars pkg = some pkg2
      ∧ pkg2.Depends.Val ≠ none ∧ pkg2.BuildDepends.Val ≠ none := by
  induction vars with
  | nil => intro pkg hD hB; exact ⟨pkg, rfl, hD, hB⟩
  | cons b rest ih =>
    intro pkg hD hB
    obtain ⟨name, val⟩ := b
    obtain ⟨p1, h1, hD1, hB1, -, -⟩ := resolveBinding_spec pkg name val hD hB
    obtain ⟨p2, h2, hD2, hB2⟩ := ih p1 hD1 hB1
    exact ⟨p2, by simp [resolveOverrides, h1, h2], hD2, hB2⟩

/-! ### Executing the actions -/

theorem execUpdate_reads {σ : Type} (env : Env σ) (repo sd p : GoString)
    (s s2 : SyncState σ) (h : (execUpdate env repo sd p s).state? = some s2) :
    s2.reads = s.reads ++ [(Commit.newCommit, p)] := by
  unfold execUpdate at h
  cases h1 : env.newFile p with
  | none => simp [h1, Step.state?] at h; rw [← h]
  | some script =>
    cases h2 : env.parseScript sd script with
    | error e => simp [h1, h2, Step.state?] at h; rw [← h]
    | ok r =>
      obtain ⟨d, vars⟩ := r
      simp only [h1, h2] at h
      split at h
      · simp [Step.state?] at h
      · split at h <;> (simp [Step.state?] at h; rw [← h])

theorem execDelete_reads {σ : Type} (env : Env σ) (repo sd p : GoString)
    (s s2 : SyncState σ) (h : (execDelete env repo sd p s).state? = some s2) :
    s2.reads = s.reads ++ [(Commit.oldCommit, p)] := by
  unfold execDelete at h
  cases h1 : env.oldFile p with
  | none => simp [h1, Step.state?] at h; rw [← h]
  | some script =>
    cases h2 : env.parseScript sd script with
    | error e => simp [h1, h2, Step.state?] at h; rw [← h]
    | ok r =>
      obtain ⟨d, vars⟩ := r
      simp only [h1, h2] at h
      split at h <;> (simp [Step.state?] at h; rw [← h])

/-- C2: an action whose path has a base name other than `lure.sh` is dropped
when it is a Delete (the round ends with the state it began with: no recipe
read, no store mutation) and is executed on
`filepath.Join(filepath.Dir(path), "lure.sh")` when it is an Update; an action
whose base name is `lure.sh` is executed on its own path. Executing on a path
reads exactly that path from the commit, and the store and the returned error
are those of the recipe at that path: an Update on `p` returns nil with the
store as it was when the new commit has no `p`, returns the error of the
interpreter or of `InsertPackage` with the store as it was, and otherwise
leaves the store `InsertPackage` gives for the package decoded from the recipe
at `p` with its overrides resolved; a Delete on `p` does the same with the old
commit and `DeletePkgs` on the name the recipe at `p` declares. For a path
`d/b` with `d` and `b` free of separators, `b` not empty and `d` other than
`.`, the base name is `b` and the rewritten path is `d/lure.sh`. -/
theorem execAction_refinement {σ : Type} (env : Env σ) (repo repoDir f : GoString)
    (s : SyncState σ) :
    (filepath.Base f ≠ str "lure.sh" →
        execAction env repo repoDir ⟨actionType.actionDelete, f⟩ s = Step.next s
      ∧ execAction env repo repoDir ⟨actionType.actionUpdate, f⟩ s
          = execUpdate env repo (scriptdir repoDir f)
              (filepath.Join [filepath.Dir f, str "lure.sh"]) s)
    ∧ (filepath.Base f = str "lure.sh" →
        execAction env repo repoDir ⟨actionType.actionDelete, f⟩ s
          = execDelete env repo (scriptdir repoDir f) f s
      ∧ execAction env repo repoDir ⟨actionType.actionUpdate, f⟩ s
          = execUpdate env repo (scriptdir repoDir f) f s)
    ∧ (∀ sd p s2, (execUpdate env repo sd p s).state? = some s2 →
        s2.reads = s.reads ++ [(Commit.newCommit, p)])
    ∧ (∀ sd p s2, (execDelete env repo sd p s).state? = some s2 →
        s2.reads = s.reads ++ [(Commit.oldCommit, p)])
    ∧ (∀ d b : GoString, f = d ++ filepath.Separator :: b →
        (∀ c ∈ d, c ≠ filepath.Separator) → (∀ c ∈ b, c ≠ filepath.Separator) →
        b ≠ [] → d ≠ str "." →
        filepath.Base f = b
        ∧ filepath.Join [filepath.Dir f, str "lure.sh"]
            = d ++ filepath.Separator :: str "lure.sh")
    ∧ (∀ p : GoString,
        p = (if filepath.Base f = str "lure.sh" then f
              else filepath.Join [filepath.Dir f, str "lure.sh"]) →
        (env.newFile p = none →
          execAction env repo repoDir ⟨actionType.actionUpdate, f⟩ s
            = Step.ret none ⟨s.db, s.reads ++ [(Commit.newCommit, p)]⟩)
        ∧ (∀ script e, env.newFile p = some script →
            env.parseScript (scriptdir repoDir f) script = Except.error e →
            execAction env repo repoDir ⟨actionType.actionUpdate, f⟩ s
              = Step.ret (some e) ⟨s.db, s.reads ++ [(Commit.newCommit, p)]⟩)
        ∧ (∀ script d vars, env.newFile p = some script →
            env.parseScript (scriptdir repoDir f) script = Except.ok (d, vars) →
            (∃ pkg, resolveOverrides vars (d.into (seedPackage repo)) = some pkg)
            ∧ ∀ pkg, resolveOverrides vars (d.into (seedPackage repo)) = some pkg →
                (∀ db2, env.InsertPackage s.db pkg = Except.ok db2 →
                  execAction env repo repoDir ⟨actionType.actionUpdate, f⟩ s
                    = Step.next ⟨db2, s.reads ++ [(Commit.newCommit, p)]⟩)
                ∧ (∀ e, env.InsertPackage s.db pkg = Except.error e →
                  execAction env repo repoDir ⟨actionType.actionUpdate, f⟩ s
                    = Step.ret (some e) ⟨s.db, s.reads ++ [(Commit.newCommit, p)]⟩)))
    ∧ (filepath.Base f = str "lure.sh" →
        (env.oldFile f = none →
          execAction env repo repoDir ⟨actionType.actionDelete, f⟩ s
            = Step.ret none ⟨s.db, s.reads ++ [(Commit.oldCommit, f)]⟩)
        ∧ (∀ script e, env.oldFile f = some script →
            env.parseScript (scriptdir repoDir f) script = Except.error e →
            execAction env repo repoDir ⟨actionType.actionDelete, f⟩ s
              = Step.ret (some e) ⟨s.db, s.reads ++ [(Commit.oldCommit, f)]⟩)
        ∧ (∀ script d vars, env.oldFile f = some script →
            env.parseScript (scriptdir repoDir f) script = Except.ok (d, vars) →
            (∀ db2, env.DeletePkgs s.db d.Name repo = Except.ok db2 →
              execAction env repo repoDir ⟨actionType.actionDelete, f⟩ s
                = Step.next ⟨db2, s.reads ++ [(Commit.oldCommit, f)]⟩)
            ∧ (∀ e, env.DeletePkgs s.db d.Name repo = Except.error e →
              execAction env repo repoDir ⟨actionType.actionDelete, f⟩ s
                = Step.ret (some e) ⟨s.db, s.reads ++ [(Commit.oldCommit, f)]⟩))) := by
  refine ⟨?_, ?_, ?_, ?_, ?_, ?_, ?_⟩
  · intro hb
    simp [execAction, hb]
  · intro hb
    simp [execAction, hb]
  · intro sd p s2 h
    exact execUpdate_reads env repo sd p s s2 h
  · intro sd p s2 h
    exact execDelete_reads env repo sd p s s2 h
  · intro d b hf hd hb hb0 hdot
    subst hf
    exact ⟨filepath.Base_append_sep d b hb hb0, filepath.Join_Dir_lure d b hd hb hdot⟩
  · intro p hp
    have hx : execAction env repo repoDir ⟨actionType.actionUpdate, f⟩ s
        = execUpdate env repo (scriptdir repoDir f) p s := by
      subst hp
      by_cases hb : filepath.Base f = str "lure.sh" <;> simp [execAction, hb]
    rw [hx]
    refine ⟨?_, ?_, ?_⟩
    · intro h
      simp [execUpdate, h]
    · intro script e h1 h2
      simp [execUpdate, h1, h2]
    · intro script d vars h1 h2
      refine ⟨?_, ?_⟩
      · obtain ⟨pkg, h, -, -⟩ := resolveOverrides_total vars (d.into (seedPackage repo))
          (by simp [ShFields.into, seedPackage, NewJSON])
          (by simp [ShFields.into, seedPackage, NewJSON])
        exact ⟨pkg, h⟩
      · intro pkg h3
        refine ⟨?_, ?_⟩
        · intro db2 h4
          simp [execUpdate, h1, h2, h3, h4]
        · intro e h4
          simp [execUpdate, h1, h2, h3, h4]
  · intro hb
    have hx : execAction env repo repoDir ⟨actionType.actionDelete, f⟩ s
        = execDelete env repo (scriptdir repoDir f) f s := by
      simp [execAction, hb]
    rw [hx]
    refine ⟨?_, ?_, ?_⟩
    · intro h
      simp [execDelete, h]
    · intro script e h1 h2
      simp [execDelete, h1, h2]
    · intro script d vars h1 h2
      have hn : (d.into Package.zero).Name = d.Name := rfl
      refine ⟨?_, ?_⟩
      · intro db2 h4
        simp [execDelete, h1, h2, hn, h4]
      · intro e h4
        simp [execDelete, h1, h2, hn, h4]

/-- C2 on the concrete repository: `Delete a/x.sh` is dropped; `Update a/x.sh`
runs on `a/lure.sh`, which the new commit does not hold, so the sync returns
nil with the store as it was; `Update x/y.sh` runs on `x/lure.sh` and stores
the package `bar` that recipe declares. -/
theorem execAction_refinement_witness :
    filepath.Base (str "a/x.sh") ≠ str "lure.sh"
    ∧ execAction demoEnv (str "repo") (str "/r") ⟨actionType.actionDelete, str "a/x.sh"⟩
        ⟨[], []⟩ = Step.next ⟨[], []⟩
    ∧ execAction demoEnv (str "repo") (str "/r") ⟨actionType.actionUpdate, str "a/x.sh"⟩
        ⟨[], []⟩
        = execUpdate demoEnv (str "repo") (scriptdir (str "/r") (str "a/x.sh"))
            (filepath.Join [filepath.Dir (str "a/x.sh"), str "lure.sh"]) ⟨[], []⟩
    ∧ filepath.Base (str "a/x.sh") = str "x.sh"
    ∧ filepath.Join [filepath.Dir (str "a/x.sh"), str "lure.sh"] = str "a/lure.sh"
    ∧ execAction demoEnv (str "repo") (str "/r") ⟨actionType.actionUpdate, str "a/x.sh"⟩
        ⟨[], []⟩ = Step.ret none ⟨[], [(Commit.newCommit, str "a/lure.sh")]⟩
    ∧ execAction demoEnv (str "repo") (str "/r") ⟨actionType.actionUpdate, str "x/y.sh"⟩
        ⟨[], []⟩
        = Step.next ⟨[demoPkg (str "bar") (str "repo")],
            [(Commit.newCommit, str "x/lure.sh")]⟩ :=
  have h := execAction_refinement demoEnv (str "repo") (str "/r") (str "a/x.sh") ⟨[], []⟩
  have hb : filepath.Base (str "a/x.sh") ≠ str "lure.sh" := by decide
  have hc := h.2.2.2.2.1 (str "a") (str "x.sh") (by decide) (by decide) (by decide)
    (by decide) (by decide)
  have hu := (h.2.2.2.2.2.1 (str "a/lure.sh") (by decide)).1 (by decide)
  have h2 := execAction_refinement demoEnv (str "repo") (str "/r") (str "x/y.sh") ⟨[], []⟩
  have hi := ((h2.2.2.2.2.2.1 (str "x/lure.sh") (by decide)).2.2 (str "name=bar")
    { Name := str "bar", Version := str "1.0", Release := 1, Epoch := 0,
      Architectures := none, Licenses := none, Provides := none, Conflicts := none,
      Replaces := none } [] (by decide) rfl).2 (demoPkg (str "bar") (str "repo")) rfl
  ⟨hb, (h.1 hb).1, (h.1 hb).2, hc.1, hc.2, hu,
    hi.1 [demoPkg (str "bar") (str "repo")] rfl⟩


theorem runActions_ret {σ : Type} (env : Env σ) (repo repoDir : GoString) (a : action)
    (rest : List action) (s s2 : SyncState σ) (err : Option Error)
    (h : execAction env repo repoDir a s = Step.ret err s2) :
    runActions env repo repoDir (a :: rest) s = some (err, s2) := by
  simp [runActions, h]

theorem buildActions_paths (patch : List FilePatch) (actions : List action)
    (h : buildActions patch = some actions) (a : action) (ha : a ∈ actions) :
    filepath.Match (str "*/*.sh") a.File = true
    ∨ (a.Typ = actionType.actionDelete
        ∧ ∃ f t : File, (⟨some f, some t⟩ : FilePatch) ∈ patch ∧ a.File = f.Path
            ∧ f.Path ≠ t.Path ∧ filepath.Match (str "*/*.sh") t.Path = true) := by
  have hc := collectActions_eq patch []
  rw [buildActions] at h
  rw [hc] at h
  simp only [List.nil_append, Option.some.injEq] at h
  subst h
  rw [List.mem_flatMap] at ha
  obtain ⟨fp, hfp, hmem⟩ := ha
  rw [List.mem_filter] at hfp
  obtain ⟨hin, hv⟩ := hfp
  obtain ⟨f, t⟩ := fp
  cases f with
  | none =>
    cases t with
    | none => simp [pairActionsSpec] at hmem
    | some t =>
      simp [pairActionsSpec] at hmem
      subst hmem
      left
      simpa [isValid] using hv
  | some f =>
    cases t with
    | none =>
      simp [pairActionsSpec] at hmem
      subst hmem
      left
      simpa [isValid] using hv
    | some t =>
      have hvt : filepath.Match (str "*/*.sh") t.Path = true := by simpa [isValid] using hv
      by_cases hp : f.Path = t.Path
      · simp [pairActionsSpec, hp] at hmem
        subst hmem
        left; exact hvt
      · simp [pairActionsSpec, hp] at hmem
        rcases hmem with hmem | hmem
        · subst hmem
          right
          exact ⟨rfl, f, t, hin, rfl, hp, hvt⟩
        · subst hmem
          left; exact hvt

/-- C3 at the rename of `a/b/c/lure.sh` to `x/lure.sh`, with the store holding
the record of package `foo`: the Delete action names the nested path, which
does not match the glob; the nested recipe is read from the old commit and the
record `foo` is deleted. -/
theorem nested_rename_source_processed :
    buildActions [⟨some ⟨str "a/b/c/lure.sh"⟩, some ⟨str "x/lure.sh"⟩⟩]
      = some [⟨actionType.actionDelete, str "a/b/c/lure.sh"⟩,
              ⟨actionType.actionUpdate, str "x/lure.sh"⟩]
    ∧ filepath.Match (str "*/*.sh") (str "a/b/c/lure.sh") = false
    ∧ processRepoChanges demoEnv (str "repo") (str "/r")
        [⟨some ⟨str "a/b/c/lure.sh"⟩, some ⟨str "x/lure.sh"⟩⟩]
        ⟨[demoPkg (str "foo") (str "repo")], []⟩
      = some (none, ⟨[demoPkg (str "bar") (str "repo")],
          [(Commit.oldCommit, str "a/b/c/lure.sh"), (Commit.newCommit, str "x/lure.sh")]⟩) := by
  refine ⟨by decide, by decide, by decide⟩

/-- C6 at the patch that adds `a/x.sh` (no `a/lure.sh` in the new commit) and
edits `b/lure.sh`: the unreadable recipe of the first action ends the whole
reconciliation with a nil error, and the second action is not executed;
without the first file pair the record of `b` is written. -/
theorem unreadable_recipe_ends_sync :
    processRepoChanges demoEnv (str "repo") (str "/r")
        [⟨none, some ⟨str "a/x.sh"⟩⟩, ⟨some ⟨str "b/lure.sh"⟩, some ⟨str "b/lure.sh"⟩⟩]
        ⟨[], []⟩
      = some (none, ⟨[], [(Commit.newCommit, str "a/lure.sh")]⟩)
    ∧ processRepoChanges demoEnv (str "repo") (str "/r")
        [⟨some ⟨str "b/lure.sh"⟩, some ⟨str "b/lure.sh"⟩⟩] ⟨[], []⟩
      = some (none, ⟨[demoPkg (str "b") (str "repo")],
          [(Commit.newCommit, str "b/lure.sh")]⟩) := by
  refine ⟨by decide, by decide⟩


/-! ### Override resolution -/

theorem writesTo_Depends :
    WritesTo (fun p => p.Depends.Val) (fun n => strings.HasPrefix n (str "deps"))
      (overrideKey (str "deps")) := by
  intro pkg pkg2 name val h k
  unfold resolveBinding at h
  by_cases h1 : strings.HasPrefix name (str "deps") = true
  · simp only [h1, if_true] at h
    cases hs : GoMap.set pkg.Depends.Val (overrideKey (str "deps") name) val.List with
    | none => simp [hs] at h
    | some m2 =>
      simp [hs] at h
      subst h
      simp [h1, (GoMap.get_set _ _ _ k _ hs).2]
  · by_cases h2 : strings.HasPrefix name (str "build_deps") = true
    · simp only [h1, h2, if_true] at h
      cases hs : GoMap.set pkg.BuildDepends.Val (overrideKey (str "build_deps") name)
          val.List with
      | none => simp [hs] at h
      | some m2 =>
        simp [hs] at h
        subst h
        simp [h1]
    · simp [h1, h2] at h
      subst h
      simp [h1]

theorem writesTo_BuildDepends :
    WritesTo (fun p => p.BuildDepends.Val)
      (fun n => !strings.HasPrefix n (str "deps") && strings.HasPrefix n (str "build_deps"))
      (overrideKey (str "build_deps")) := by
  intro pkg pkg2 name val h k
  unfold resolveBinding at h
  by_cases h1 : strings.HasPrefix name (str "deps") = true
  · simp only [h1, if_true] at h
    cases hs : GoMap.set pkg.Depends.Val (overrideKey (str "deps") name) val.List with
    | none => simp [hs] at h
    | some m2 =>
      simp [hs] at h
      subst h
      simp [h1]
  · by_cases h2 : strings.HasPrefix name (str "build_deps") = true
    · simp only [h1, h2, if_true] at h
      cases hs : GoMap.set pkg.BuildDepends.Val (overrideKey (str "build_deps") name)
          val.List with
      | none => simp [hs] at h
      | some m2 =>
        simp [hs] at h
        subst h
        simp [h1, h2, (GoMap.get_set _ _ _ k _ hs).2]
    · simp [h1, h2] at h
      subst h
      simp [h1, h2]

section Fold

variable {proj : Package → GoMap (GoSlice GoString)} {c : GoString → Bool}
  {key : GoString → GoString}

theorem fold_untouched (hw : WritesTo proj c key) (k : GoString) (vars : Vars) :
    ∀ pkg pkg2 : Package, (∀ n w, (n, w) ∈ vars → c n = true → key n ≠ k) →
      resolveOverrides vars pkg = some pkg2 → (proj pkg2).get k = (proj pkg).get k := by
  induction vars with
  | nil =>
    intro pkg pkg2 _ h
    simp [resolveOverrides] at h
    rw [h]
  | cons b rest ih =>
    intro pkg pkg2 hno h
    obtain ⟨name, val⟩ := b
    simp only [resolveOverrides] at h
    cases h1 : resolveBinding pkg name val with
    | none => simp [h1] at h
    | some p1 =>
      simp only [h1] at h
      rw [ih p1 pkg2 (fun n w hm => hno n w (List.mem_cons_of_mem _ hm)) h, hw pkg p1 name val h1 k]
      have := hno name val (List.mem_cons_self _ _)
      by_cases hc : c name = true
      · simp [hc, this hc]
      · simp [hc]

theorem fold_unique (hw : WritesTo proj c key) (n : GoString) (v : Variable) (vars : Vars) :
    ∀ pkg pkg2 : Package, (vars.map Prod.fst).Nodup → (n, v) ∈ vars → c n = true →
      (∀ n2 w, (n2, w) ∈ vars → c n2 = true → key n2 = key n → n2 = n) →
      resolveOverrides vars pkg = some pkg2 → (proj pkg2).get (key n) = some v.List := by
  induction vars with
  | nil => intro pkg pkg2 _ hm; simp at hm
  | cons b rest ih =>
    intro pkg pkg2 hnd hm hc hu h
    obtain ⟨name, val⟩ := b
    simp only [resolveOverrides] at h
    simp only [List.map_cons, List.nodup_cons] at hnd
    cases h1 : resolveBinding pkg name val with
    | none => simp [h1] at h
    | some p1 =>
      simp only [h1] at h
      by_cases hin : (n, v) ∈ rest
      · exact ih p1 pkg2 hnd.2 hin hc (fun n2 w hm2 => hu n2 w (List.mem_cons_of_mem _ hm2)) h
      · have heq : (n, v) = (name, val) := by
          rcases List.mem_cons.mp hm with h0 | h0
          · exact h0
          · exact absurd h0 hin
        obtain ⟨rfl, rfl⟩ := Prod.mk.inj heq
        have hrest : ∀ n2 w, (n2, w) ∈ rest → c n2 = true → key n2 ≠ key n := by
          intro n2 w hm2 hc2 hk
          have := hu n2 w (List.mem_cons_of_mem _ hm2) hc2 hk
          subst this
          exact hnd.1 (List.mem_map.mpr ⟨(n2, w), hm2, rfl⟩)
        rw [fold_untouched hw (key n) rest p1 pkg2 hrest h, hw pkg p1 n v h1 (key n)]
        simp [hc]

theorem fold_origin (hw : WritesTo proj c key) (k : GoString) (x : GoSlice GoString)
    (vars : Vars) :
    ∀ pkg pkg2 : Package, resolveOverrides vars pkg = some pkg2 →
      (proj pkg2).get k = some x →
      (proj pkg).get k = some x
        ∨ ∃ n w, (n, w) ∈ vars ∧ c n = true ∧ key n = k ∧ x = w.List := by
  induction vars with
  | nil =>
    intro pkg pkg2 h hx
    simp [resolveOverrides] at h
    subst h
    exact Or.inl hx
  | cons b rest ih =>
    intro pkg pkg2 h hx
    obtain ⟨name, val⟩ := b
    simp only [resolveOverrides] at h
    cases h1 : resolveBinding pkg name val with
    | none => simp [h1] at h
    | some p1 =>
      simp only [h1] at h
      rcases ih p1 pkg2 h hx with h2 | ⟨n, w, hm, hc, hk, hxw⟩
      · rw [hw pkg p1 name val h1 k] at h2
        by_cases hc : c name = true ∧ key name = k
        · rw [if_pos hc] at h2
          exact Or.inr ⟨name, val, List.mem_cons_self _ _, hc.1, hc.2, (Option.some.inj h2).symm⟩
        · rw [if_neg hc] at h2
          exact Or.inl h2
      · exact Or.inr ⟨n, w, List.mem_cons_of_mem _ hm, hc, hk, hxw⟩

end Fold

theorem hasPrefix_append (p t : GoString) : strings.HasPrefix (p ++ t) p = true := by
  simp [strings.HasPrefix]

theorem trimPrefix_append (p t : GoString) : strings.TrimPrefix (p ++ t) p = t := by
  simp [strings.TrimPrefix, hasPrefix_append]

theorem hasPrefix_iff (s p : GoString) :
    strings.HasPrefix s p = true ↔ ∃ t, s = p ++ t := by
  simp only [strings.HasPrefix, List.isPrefixOf_iff_prefix]
  constructor
  · rintro ⟨t, ht⟩; exact ⟨t, ht.symm⟩
  · rintro ⟨t, ht⟩; exact ⟨t, ht.symm⟩

/-- The key of `<pre>_K` is `K`. -/
theorem overrideKey_underscore (pre K : GoString) :
    overrideKey pre (pre ++ str "_" ++ K) = K := by
  unfold overrideKey
  rw [List.append_assoc, trimPrefix_append, trimPrefix_append]

/-- The names with prefix `pre` and key `K` are `<pre>K` and `<pre>_K`. -/
theorem overrideKey_cases (pre name K : GoString)
    (hp : strings.HasPrefix name pre = true) (hk : overrideKey pre name = K) :
    name = pre ++ K ∨ name = pre ++ str "_" ++ K := by
  obtain ⟨r, rfl⟩ := (hasPrefix_iff name pre).mp hp
  unfold overrideKey at hk
  rw [trimPrefix_append] at hk
  by_cases hu : strings.HasPrefix r (str "_") = true
  · obtain ⟨r2, rfl⟩ := (hasPrefix_iff r (str "_")).mp hu
    rw [trimPrefix_append] at hk
    subst hk
    right
    simp
  · left
    simp [strings.TrimPrefix, hu] at hk
    rw [hk]

theorem build_deps_cond (n : GoString) :
    ((!strings.HasPrefix n (str "deps") && strings.HasPrefix n (str "build_deps")) = true)
      ↔ strings.HasPrefix n (str "build_deps") = true := by
  constructor
  · intro h
    simp only [Bool.and_eq_true] at h
    exact h.2
  · intro h
    simp [h, not_deps_of_build_deps n h]

/-- C4 fails when `depsamd64` is bound next to `deps_amd64`: both names have
the key `amd64`, and with `depsamd64` visited last `Depends["amd64"]` is its
array `(baz)`, not `(bar)`. -/
theorem resolveOverrides_key_collision :
    ([(str "deps_amd64", arrayVar [str "bar"]),
      (str "depsamd64", arrayVar [str "baz"])].map Prod.fst).Nodup
    ∧ (resolveOverrides
        [(str "deps_amd64", arrayVar [str "bar"]), (str "depsamd64", arrayVar [str "baz"])]
        (seedPackage (str "repo"))).map (fun p => p.Depends.Val.get (str "amd64"))
      = some (some (some [str "baz"])) := by
  refine ⟨by decide, by decide⟩

/-- C4, amended: starting from empty `Depends` and `BuildDepends` maps, for
bindings with distinct names visited in any order, `resolveOverrides`
returns, and for every binding `deps_K` (`build_deps_K`) such that no binding
is named `depsK` (`build_depsK`), `Depends[K]` (`BuildDepends[K]`) is that
binding's `List`; a key is present in `Depends` (`BuildDepends`) only if it is
the override key of a binding whose name starts with `deps` (`build_deps`). -/
theorem resolveOverrides_entries (vars : Vars) (pkg : Package)
    (hnd : (vars.map Prod.fst).Nodup)
    (hD : pkg.Depends.Val = some []) (hB : pkg.BuildDepends.Val = some []) :
    ∃ pkg2, resolveOverrides vars pkg = some pkg2
      ∧ (∀ K v, (str "deps_" ++ K, v) ∈ vars → str "deps" ++ K ∉ vars.map Prod.fst →
          pkg2.Depends.Val.get K = some v.List)
      ∧ (∀ K v, (str "build_deps_" ++ K, v) ∈ vars →
          str "build_deps" ++ K ∉ vars.map Prod.fst →
          pkg2.BuildDepends.Val.get K = some v.List)
      ∧ (∀ k, (pkg2.Depends.Val.get k).isSome = true →
          ∃ n w, (n, w) ∈ vars ∧ strings.HasPrefix n (str "deps") = true
            ∧ overrideKey (str "deps") n = k)
      ∧ (∀ k, (pkg2.BuildDepends.Val.get k).isSome = true →
          ∃ n w, (n, w) ∈ vars ∧ strings.HasPrefix n (str "build_deps") = true
            ∧ overrideKey (str "build_deps") n = k) := by
  obtain ⟨pkg2, h2, -, -⟩ := resolveOverrides_total vars pkg (by simp [hD]) (by simp [hB])
  have e1 : str "deps_" = str "deps" ++ str "_" := by decide
  have e2 : str "build_deps_" = str "build_deps" ++ str "_" := by decide
  refine ⟨pkg2, h2, ?_, ?_, ?_, ?_⟩
  · intro K v hm hno
    rw [e1] at hm
    have hk := overrideKey_underscore (str "deps") K
    have := fold_unique writesTo_Depends _ v vars pkg pkg2 hnd hm
      (by rw [List.append_assoc]; exact hasPrefix_append _ _)
      (by
        intro n2 w hm2 hc2 hk2
        rw [hk] at hk2
        rcases overrideKey_cases (str "deps") n2 K hc2 hk2 with h | h
        · exact absurd (List.mem_map.mpr ⟨(n2, w), hm2, h⟩) hno
        · exact h) h2
    rw [hk] at this
    exact this
  · intro K v hm hno
    rw [e2] at hm
    have hk := overrideKey_underscore (str "build_deps") K
    have := fold_unique writesTo_BuildDepends _ v vars pkg pkg2 hnd hm
      ((build_deps_cond _).mpr (by rw [List.append_assoc]; exact hasPrefix_append _ _))
      (by
        intro n2 w hm2 hc2 hk2
        rw [hk] at hk2
        rcases overrideKey_cases (str "build_deps") n2 K ((build_deps_cond _).mp hc2) hk2
          with h | h
        · exact absurd (List.mem_map.mpr ⟨(n2, w), hm2, h⟩) hno
        · exact h) h2
    rw [hk] at this
    exact this
  · intro k hk
    obtain ⟨x, hx⟩ := Option.isSome_iff_exists.mp hk
    rcases fold_origin writesTo_Depends k x vars pkg pkg2 h2 hx with h | ⟨n, w, hm, hc, hkn, -⟩
    · simp [hD, GoMap.get, GoMap.getEntry] at h
    · exact ⟨n, w, hm, hc, hkn⟩
  · intro k hk
    obtain ⟨x, hx⟩ := Option.isSome_iff_exists.mp hk
    rcases fold_origin writesTo_BuildDepends k x vars pkg pkg2 h2 hx
      with h | ⟨n, w, hm, hc, hkn, -⟩
    · simp [hB, GoMap.get, GoMap.getEntry] at h
    · exact ⟨n, w, hm, (build_deps_cond _).mp hc, hkn⟩

/-- C4 on the bindings of the recipe `foo` of the specification:
`Depends["amd64"]` is `(bar)` and `Depends[""]` is absent. -/
theorem resolveOverrides_entries_witness :
    (fooVars.map Prod.fst).Nodup
    ∧ (seedPackage (str "repo")).Depends.Val = some []
    ∧ (seedPackage (str "repo")).BuildDepends.Val = some []
    ∧ ∃ pkg2, resolveOverrides fooVars (seedPackage (str "repo")) = some pkg2
        ∧ pkg2.Depends.Val.get (str "amd64") = some (some [str "bar"])
        ∧ pkg2.Depends.Val.get (str "") = none := by
  have hnd : (fooVars.map Prod.fst).Nodup := by decide
  obtain ⟨pkg2, h2, hdeps, -, horigin, -⟩ :=
    resolveOverrides_entries fooVars (seedPackage (str "repo")) hnd rfl rfl
  refine ⟨hnd, rfl, rfl, pkg2, h2, ?_, ?_⟩
  · exact hdeps (str "amd64") (arrayVar [str "bar"]) (by decide) (by decide)
  · cases hg : pkg2.Depends.Val.get (str "") with
    | none => rfl
    | some x =>
      obtain ⟨n, w, hm, hp, hk⟩ := horigin (str "") (by simp [hg])
      have : ∀ b ∈ fooVars, ¬ (strings.HasPrefix b.1 (str "deps") = true
          ∧ overrideKey (str "deps") b.1 = str "") := by decide
      exact absurd ⟨hp, hk⟩ (this (n, w) hm)

theorem resolveOverrides_append (a b : Vars) : ∀ pkg : Package,
    resolveOverrides (a ++ b) pkg = (resolveOverrides a pkg).bind (resolveOverrides b) := by
  induction a with
  | nil => intro pkg; simp [resolveOverrides]
  | cons x a ih =>
    intro pkg
    obtain ⟨name, val⟩ := x
    simp only [List.cons_append, resolveOverrides]
    cases resolveBinding pkg name val with
    | none => simp
    | some p1 => simpa using ih p1

theorem resolveBinding_other (pkg : Package) (n : GoString) (v : Variable)
    (h1 : strings.HasPrefix n (str "deps") = false)
    (h2 : strings.HasPrefix n (str "build_deps") = false) :
    resolveBinding pkg n v = some pkg := by
  simp [resolveBinding, h1, h2]

/-- C5 fails on the scalar binding `deps_x=foo`: with it `Depends` has the key
`x` (mapped to a nil list), without it the key is absent. -/
theorem scalar_deps_binding_adds_key :
    (scalarVar (str "foo")).Kind = ValueKind.String
    ∧ (resolveOverrides [(str "deps_x", scalarVar (str "foo"))] (seedPackage (str "repo"))).map
        (fun p => p.Depends.Val.get (str "x")) = some (some none)
    ∧ (resolveOverrides [] (seedPackage (str "repo"))).map
        (fun p => p.Depends.Val.get (str "x")) = some none
    ∧ resolveOverrides [(str "deps_x", scalarVar (str "foo"))] (seedPackage (str "repo"))
        ≠ resolveOverrides [] (seedPackage (str "repo")) := by
  refine ⟨rfl, by decide, by decide, by decide⟩

/-- C5, amended: a binding whose name starts with neither `deps` nor
`build_deps` leaves the result of `resolveOverrides` exactly as it is without
the binding, whatever its kind and its value, wherever it is visited and
whatever the package. A binding whose name starts with `deps` (`build_deps`)
is written whatever its kind: when no other binding has its override key, the
key is present in `Depends` (`BuildDepends`) and mapped to the binding's
`List`, which for a scalar is the nil list. -/
theorem resolveOverrides_scalar (before after : Vars) (pkg : Package) (n : GoString)
    (v : Variable) :
    (strings.HasPrefix n (str "deps") = false →
      strings.HasPrefix n (str "build_deps") = false →
      resolveOverrides (before ++ (n, v) :: after) pkg
        = resolveOverrides (before ++ after) pkg)
    ∧ (pkg.Depends.Val ≠ none → pkg.BuildDepends.Val ≠ none →
      ((before ++ (n, v) :: after).map Prod.fst).Nodup →
      ∃ pkg2, resolveOverrides (before ++ (n, v) :: after) pkg = some pkg2
        ∧ (strings.HasPrefix n (str "deps") = true →
            (∀ b ∈ before ++ (n, v) :: after, strings.HasPrefix b.1 (str "deps") = true →
              overrideKey (str "deps") b.1 = overrideKey (str "deps") n → b.1 = n) →
            pkg2.Depends.Val.get (overrideKey (str "deps") n) = some v.List
            ∧ (v.List = none →
                pkg2.Depends.Val.get (overrideKey (str "deps") n) = some none))
        ∧ (strings.HasPrefix n (str "build_deps") = true →
            (∀ b ∈ before ++ (n, v) :: after,
              strings.HasPrefix b.1 (str "build_deps") = true →
              overrideKey (str "build_deps") b.1 = overrideKey (str "build_deps") n →
              b.1 = n) →
            pkg2.BuildDepends.Val.get (overrideKey (str "build_deps") n) = some v.List
            ∧ (v.List = none →
                pkg2.BuildDepends.Val.get (overrideKey (str "build_deps") n)
                  = some none)))
    ∧ (∀ s : GoString, (scalarVar s).Kind = ValueKind.String ∧ (scalarVar s).List = none) := by
  refine ⟨?_, ?_, fun s => ⟨rfl, rfl⟩⟩
  · intro h1 h2
    rw [resolveOverrides_append, resolveOverrides_append]
    cases resolveOverrides before pkg with
    | none => rfl
    | some p1 => simp [resolveOverrides, resolveBinding_other p1 n v h1 h2]
  · intro hD hB hnd
    obtain ⟨pkg2, h2, -, -⟩ := resolveOverrides_total (before ++ (n, v) :: after) pkg hD hB
    refine ⟨pkg2, h2, ?_, ?_⟩
    · intro hp hu
      have := fold_unique writesTo_Depends n v _ pkg pkg2 hnd (by simp) hp
        (fun n2 w hm hc hk => hu (n2, w) hm hc hk) h2
      exact ⟨this, fun hv => by rw [this, hv]⟩
    · intro hp hu
      have := fold_unique writesTo_BuildDepends n v _ pkg pkg2 hnd (by simp)
        ((build_deps_cond n).mpr hp)
        (fun n2 w hm hc hk => hu (n2, w) hm ((build_deps_cond n2).mp hc) hk) h2
      exact ⟨this, fun hv => by rw [this, hv]⟩

/-- C5, amended, on the bindings `name=foo; deps_x=foo; deps_amd64=(bar)`: the
scalar `deps_x` leaves the key `x` in `Depends` with a nil list; and on the
bindings of the recipe `foo`, the array `architectures=(amd64)` changes
nothing. -/
theorem resolveOverrides_scalar_witness :
    (∃ pkg2, resolveOverrides
        ([(str "name", scalarVar (str "foo"))] ++ (str "deps_x", scalarVar (str "foo"))
          :: [(str "deps_amd64", arrayVar [str "bar"])]) (seedPackage (str "repo")) = some pkg2
      ∧ pkg2.Depends.Val.get (str "x") = some none)
    ∧ (arrayVar [str "amd64"]).List ≠ none
    ∧ resolveOverrides
        ([(str "name", scalarVar (str "foo"))] ++ (str "architectures", arrayVar [str "amd64"])
          :: [(str "deps_amd64", arrayVar [str "bar"])]) (seedPackage (str "repo"))
      = resolveOverrides
        ([(str "name", scalarVar (str "foo"))] ++ [(str "deps_amd64", arrayVar [str "bar"])])
        (seedPackage (str "repo")) :=
  have h := resolveOverrides_scalar [(str "name", scalarVar (str "foo"))]
    [(str "deps_amd64", arrayVar [str "bar"])] (seedPackage (str "repo")) (str "deps_x")
    (scalarVar (str "foo"))
  have ha := resolveOverrides_scalar [(str "name", scalarVar (str "foo"))]
    [(str "deps_amd64", arrayVar [str "bar"])] (seedPackage (str "repo"))
    (str "architectures") (arrayVar [str "amd64"])
  match h.2.1 (by decide) (by decide) (by decide) with
  | ⟨pkg2, h2, hdeps, _⟩ =>
    ⟨⟨pkg2, h2, (hdeps (by decide) (by decide)).2 rfl⟩, by decide,
      ha.1 (by decide) (by decide)⟩


/-! ### The webhook -/

/-- The signature of a request is accepted when it decodes, the secret is set,
the body can be read and the MAC of the body equals the decoded signature. -/
theorem verifySecure_eq_none (mac : GoString → GoString → GoString)
    (secret : Option GoString) (req : Request) :
    verifySecure mac secret req = none ↔
      ∃ key body, secret = some key ∧ req.Body = Except.ok body
        ∧ hex.DecodeString (strings.TrimPrefix (req.Header (str "X-Hub-Signature-256"))
            (str "sha256=")) = Except.ok (mac key body) := by
  simp only [verifySecure]
  generalize hex.DecodeString (strings.TrimPrefix (req.Header (str "X-Hub-Signature-256"))
      (str "sha256=")) = dec
  cases dec with
  | error e => simp
  | ok sig =>
    cases secret with
    | none => simp
    | some key =>
      cases hb : req.Body with
      | error e => simp
      | ok body =>
        by_cases hm : mac key body = sig
        · simp [hm]
        · simp [hm]
          exact fun h => hm h.symm

/-- C7: on a request to `/webhook` the handler answers 405 when the method is
not POST; otherwise 400 when the event header is not `push`, whatever the
signature; otherwise 500 when the secret is missing or the signature is not
the hex form of the HMAC of the body under the secret; in these cases nothing
is sent on the channel. It answers 200 and sends exactly one token exactly
when the method is POST, the event is `push`, the secret is set and the
signature is the MAC of the body. -/
theorem handleWebhook_order (mac : GoString → GoString → GoString)
    (secret : Option GoString) (req : Request) (hp : req.Path = str "/webhook") :
    (req.Method ≠ str "POST" →
      (handleWebhook mac secret req).status = 405 ∧ (handleWebhook mac secret req).sent = 0)
    ∧ (req.Method = str "POST" → req.Header (str "X-GitHub-Event") ≠ str "push" →
      (handleWebhook mac secret req).status = 400 ∧ (handleWebhook mac secret req).sent = 0)
    ∧ (req.Method = str "POST" → req.Header (str "X-GitHub-Event") = str "push" →
      (secret = none ∨ ∀ key body, secret = some key → req.Body = Except.ok body →
        hex.DecodeString (strings.TrimPrefix (req.Header (str "X-Hub-Signature-256"))
          (str "sha256=")) ≠ Except.ok (mac key body)) →
      (handleWebhook mac secret req).status = 500 ∧ (handleWebhook mac secret req).sent = 0)
    ∧ ((req.Method = str "POST" ∧ req.Header (str "X-GitHub-Event") = str "push"
          ∧ ∃ key body, secret = some key ∧ req.Body = Except.ok body
            ∧ hex.DecodeString (strings.TrimPrefix (req.Header (str "X-Hub-Signature-256"))
                (str "sha256=")) = Except.ok (mac key body)) →
        (handleWebhook mac secret req).status = 200 ∧ (handleWebhook mac secret req).sent = 1)
    ∧ (((handleWebhook mac secret req).status = 200 ∨ 0 < (handleWebhook mac secret req).sent)
        ↔ (req.Method = str "POST" ∧ req.Header (str "X-GitHub-Event") = str "push"
            ∧ ∃ key body, secret = some key ∧ req.Body = Except.ok body
              ∧ hex.DecodeString (strings.TrimPrefix (req.Header (str "X-Hub-Signature-256"))
                  (str "sha256=")) = Except.ok (mac key body)))
    ∧ ((handleWebhook mac secret req).status = 200 → (handleWebhook mac secret req).sent = 1)
    ∧ (handleWebhook mac secret req).passedOn = false := by
  have hv := verifySecure_eq_none mac secret req
  by_cases hm : req.Method = str "POST"
  · by_cases he : req.Header (str "X-GitHub-Event") = str "push"
    · cases hs : verifySecure mac secret req with
      | none =>
        have hex := hv.mp hs
        refine ⟨fun h => absurd hm h, fun _ h => absurd he h, ?_, ?_, ?_, ?_, ?_⟩
        · intro _ _ hbad
          obtain ⟨key, body, h1, h2, h3⟩ := hex
          rcases hbad with h | h
          · simp [h1] at h
          · exact absurd h3 (h key body h1 h2)
        · intro _
          simp [handleWebhook, hp, hm, he, hs, Handled.status]
        · simp only [handleWebhook, hp, hm, he, hs, Handled.status]
          simp only [if_true, ne_eq, not_true_eq_false, if_false, Option.getD_none, true_or,
            true_and, true_iff]
          exact hex
        · simp [handleWebhook, hp, hm, he, hs, Handled.status]
        · simp [handleWebhook, hp, hm, he, hs]
      | some e =>
        have hne : ¬ ∃ key body, secret = some key ∧ req.Body = Except.ok body
            ∧ hex.DecodeString (strings.TrimPrefix (req.Header (str "X-Hub-Signature-256"))
                (str "sha256=")) = Except.ok (mac key body) := by
          intro h
          rw [hv.mpr h] at hs
          exact absurd hs (by simp)
        refine ⟨fun h => absurd hm h, fun _ h => absurd he h, ?_,
          fun h => absurd h.2.2 hne, ?_, ?_, ?_⟩
        · intro _ _ _
          simp [handleWebhook, hp, hm, he, hs, Handled.status]
        · constructor
          · intro h
            simp [handleWebhook, hp, hm, he, hs, Handled.status] at h
          · intro h
            exact absurd h.2.2 hne
        · simp [handleWebhook, hp, hm, he, hs, Handled.status]
        · simp [handleWebhook, hp, hm, he, hs]
    · refine ⟨fun h => absurd hm h, ?_, fun _ h => absurd h he, fun h => absurd h.2.1 he,
        ?_, ?_, ?_⟩
      · intro _ _
        simp [handleWebhook, hp, hm, he, Handled.status]
      · simp [handleWebhook, hp, hm, he, Handled.status]
      · simp [handleWebhook, hp, hm, he, Handled.status]
      · simp [handleWebhook, hp, hm, he]
  · refine ⟨?_, fun h => absurd h hm, fun h => absurd h hm, fun h => absurd h.1 hm,
      ?_, ?_, ?_⟩
    · intro _
      simp [handleWebhook, hp, hm, Handled.status]
    · simp [handleWebhook, hp, hm, Handled.status]
    · simp [handleWebhook, hp, hm, Handled.status]
    · simp [handleWebhook, hp, hm]

/-- C7 on the signed `push` request of the specification: 200 and one token;
the same request with event `ping` gives 400 and no token. -/
theorem handleWebhook_order_witness :
    demoRequest.Path = str "/webhook"
    ∧ (handleWebhook demoMac (some (str "s")) demoRequest).status = 200
    ∧ (handleWebhook demoMac (some (str "s")) demoRequest).sent = 1
    ∧ (handleWebhook demoMac (some (str "s")) pingRequest).status = 400
    ∧ (handleWebhook demoMac (some (str "s")) pingRequest).sent = 0 :=
  have h := handleWebhook_order demoMac (some (str "s")) demoRequest rfl
  have h200 := h.2.2.2.1 ⟨by decide, by decide, str "s", str "hello", rfl, rfl, rfl⟩
  have hping := handleWebhook_order demoMac (some (str "s")) pingRequest rfl
  ⟨rfl, h200.1, h200.2, hping.2.1 rfl (by decide)⟩


/-! ### Opening the store -/

theorem target_new_handle (w : World) (dsn : GoString) (c : Option Nat) (b : Bool) :
    World.target { files := w.files, handles := w.handles ++ [⟨dsn, false⟩], conn := c,
                   closed := b } w.handles.length = some dsn := by
  simp [World.target]

/-- On the configured path the rebuild works: when the store file at the
configured path records a version other than `CurrentVersion`, `Open` on that
path returns without error at depth two and leaves there a store with an empty
`pkgs` table and the single version `CurrentVersion`. -/
theorem Open_config_path_rebuilds (cfg : GoString) (w : World) (pk : Option (List Package))
    (v : Int) (vs : List Int) (k : Nat)
    (hf : w.files cfg = some ⟨pk, some (v :: vs)⟩) (hv : v ≠ CurrentVersion) :
    ∃ h w2, Open cfg (k + 2) cfg w = Res.done (Except.ok h) w2
      ∧ w2.files cfg = some ⟨some [], some [CurrentVersion]⟩ := by
  simp only [Open, sqlxOpen, initDB, execCreate, target_new_handle, hf, World.write,
    GetVersion, DB, selectVersion]
  simp [hv, osRemove, World.close, World.write, World.target, addVersion, DB, insertVersion,
    execCreate, GetVersion, selectVersion, List.modify]
  refine ⟨_, _, ⟨rfl, rfl⟩, ?_⟩
  simp

/-- C10 at `Open("/other/db")` with the configured path `/cfg/db`: the call
returns an error, the store at `/other/db` still has its row and version 0,
and the store file at the configured path is gone. -/
theorem Open_other_path_keeps_stale_store (k : Nat) :
    (Open (str "/cfg/db") (k + 3) (str "/other/db") demoWorld).value?.map Except.toBool
      = some false
    ∧ (Open (str "/cfg/db") (k + 3) (str "/other/db") demoWorld).world?.map
        (fun w => w.files (str "/other/db"))
      = some (some ⟨some [demoPkg (str "foo") (str "repo")], some [0]⟩)
    ∧ (Open (str "/cfg/db") (k + 3) (str "/other/db") demoWorld).world?.map
        (fun w => w.files (str "/cfg/db")) = some none := by
  refine ⟨rfl, rfl, rfl⟩


/-! ### UTF-8 and JSON strings -/

namespace utf8

/-- A valid multi-byte encoding is given back by `EncodeRune`, lies within the
bytes, and is decoded the same whatever follows it. -/
theorem decode_encode (b : Nat) (rest : GoString) (c size : Nat) (hb : 128 ≤ b)
    (hd : DecodeRune (b :: rest) = (c, size)) (hv : ¬ (c = RuneError ∧ size = 1)) :
    EncodeRune c = (b :: rest).take size
    ∧ ((b :: rest).take size).length = size
    ∧ 1 ≤ size
    ∧ ∀ X, DecodeRune ((b :: rest).take size ++ X) = (c, size) := by
  unfold DecodeRune at hd
  have hb1 : ¬ b < 128 := by omega
  simp only [hb1, if_false] at hd
  by_cases h2 : b < 194
  · simp [h2] at hd
    exact absurd ⟨hd.1.symm, hd.2.symm⟩ hv
  simp only [h2, if_false] at hd
  by_cases h3 : b < 224
  · simp only [h3, if_true] at hd
    cases rest with
    | nil => simp at hd; exact absurd ⟨hd.1.symm, hd.2.symm⟩ hv
    | cons b1 r1 =>
      simp only at hd
      by_cases hr : 128 ≤ b1 ∧ b1 ≤ 191
      · simp only [hr, and_self, if_true, Prod.mk.injEq] at hd
        obtain ⟨hc, hs⟩ := hd
        subst hs
        refine ⟨?_, by simp, by omega, ?_⟩
        · have h1 : ¬ c ≤ 127 := by omega
          have h2 : c ≤ 2047 := by omega
          simp only [EncodeRune, h1, h2, if_false, if_true, List.take_succ_cons, List.take_zero]
          congr 1
          · omega
          · congr 1; omega
        · intro X
          simp [DecodeRune, hb1, h2, h3, hr, hc]
      · simp only [hr, if_false] at hd
        simp at hd
        exact absurd ⟨hd.1.symm, hd.2.symm⟩ hv
  simp only [h3, if_false] at hd
  by_cases h4 : b < 240
  · simp only [h4, if_true] at hd
    match rest, hd with
    | [], hd => simp at hd; exact absurd ⟨hd.1.symm, hd.2.symm⟩ hv
    | [_], hd => simp at hd; exact absurd ⟨hd.1.symm, hd.2.symm⟩ hv
    | b1 :: b2 :: r2, hd =>
      simp only at hd
      by_cases hr1 : (if b = 224 then 160 else 128) ≤ b1 ∧ b1 ≤ (if b = 237 then 159 else 191)
      · by_cases hr2 : 128 ≤ b2 ∧ b2 ≤ 191
        · simp only [hr1, hr2, and_self, if_true, Prod.mk.injEq] at hd
          obtain ⟨hc, hs⟩ := hd
          subst hs
          have hlo : 128 ≤ b1 := by
            have := hr1.1
            split at this <;> omega
          have hhi : b1 ≤ 191 := by
            have := hr1.2
            split at this <;> omega
          have hE0 : b = 224 → 160 ≤ b1 := by
            intro h; have := hr1.1; simp [h] at this; exact this
          have hED : b = 237 → b1 ≤ 159 := by
            intro h; have := hr1.2; simp [h] at this; exact this
          refine ⟨?_, by simp, by omega, ?_⟩
          · have h1 : ¬ c ≤ 127 := by omega
            have h2 : ¬ c ≤ 2047 := by
              by_cases hb224 : b = 224
              · have := hE0 hb224; omega
              · omega
            have h3 : ¬ (1114111 < c ∨ (55296 ≤ c ∧ c ≤ 57343)) := by
              by_cases hb237 : b = 237
              · have := hED hb237; omega
              · omega
            have h4 : c ≤ 65535 := by omega
            simp only [EncodeRune, h1, h2, h3, h4, if_false, if_true, List.take_succ_cons,
              List.take_zero]
            congr 1
            · omega
            · congr 1
              · omega
              · congr 1; omega
          · intro X
            simp [DecodeRune, hb1, h2, h3, h4, hr1, hr2, hc]
        · simp only [hr1, hr2, and_self, if_true, if_false] at hd
          simp at hd
          exact absurd ⟨hd.1.symm, hd.2.symm⟩ hv
      · simp only [hr1, if_false] at hd
        simp at hd
        exact absurd ⟨hd.1.symm, hd.2.symm⟩ hv
  simp only [h4, if_false] at hd
  by_cases h5 : b < 245
  · simp only [h5, if_true] at hd
    match rest, hd with
    | [], hd => simp at hd; exact absurd ⟨hd.1.symm, hd.2.symm⟩ hv
    | [_], hd => simp at hd; exact absurd ⟨hd.1.symm, hd.2.symm⟩ hv
    | [_, _], hd => simp at hd; exact absurd ⟨hd.1.symm, hd.2.symm⟩ hv
    | b1 :: b2 :: b3 :: r3, hd =>
      simp only at hd
      by_cases hr1 : (if b = 240 then 144 else 128) ≤ b1 ∧ b1 ≤ (if b = 244 then 143 else 191)
      · by_cases hr2 : 128 ≤ b2 ∧ b2 ≤ 191
        · by_cases hr3 : 128 ≤ b3 ∧ b3 ≤ 191
          · simp only [hr1, hr2, hr3, and_self, if_true, Prod.mk.injEq] at hd
            obtain ⟨hc, hs⟩ := hd
            subst hs
            have hlo : 128 ≤ b1 := by
              have := hr1.1
              split at this <;> omega
            have hhi : b1 ≤ 191 := by
              have := hr1.2
              split at this <;> omega
            have hF0 : b = 240 → 144 ≤ b1 := by
              intro h; have := hr1.1; simp [h] at this; exact this
            have hF4 : b = 244 → b1 ≤ 143 := by
              intro h; have := hr1.2; simp [h] at this; exact this
            refine ⟨?_, by simp, by omega, ?_⟩
            · have h1 : ¬ c ≤ 127 := by omega
              have h2 : ¬ c ≤ 2047 := by omega
              have h4 : ¬ c ≤ 65535 := by
                by_cases hb240 : b = 240
                · have := hF0 hb240; omega
                · omega
              have h3 : ¬ (1114111 < c ∨ (55296 ≤ c ∧ c ≤ 57343)) := by
                by_cases hb244 : b = 244
                · have := hF4 hb244; omega
                · omega
              simp only [EncodeRune, h1, h2, h3, h4, if_false, List.take_succ_cons,
                List.take_zero]
              congr 1
              · omega
              · congr 1
                · omega
                · congr 1
                  · omega
                  · congr 1; omega
            · intro X
              simp [DecodeRune, hb1, h2, h3, h4, h5, hr1, hr2, hr3, hc]
          · simp only [hr1, hr2, hr3, and_self, if_true, if_false] at hd
            simp at hd
            exact absurd ⟨hd.1.symm, hd.2.symm⟩ hv
        · simp only [hr1, hr2, and_self, if_true, if_false] at hd
          simp at hd
          exact absurd ⟨hd.1.symm, hd.2.symm⟩ hv
      · simp only [hr1, if_false] at hd
        simp at hd
        exact absurd ⟨hd.1.symm, hd.2.symm⟩ hv
  · simp only [h5, if_false] at hd
    simp at hd
    exact absurd ⟨hd.1.symm, hd.2.symm⟩ hv

end utf8

namespace json

theorem hex4_ascii : ∀ b, b < 128 →
    hex4 48 48 (hexDigit (b / 16)) (hexDigit (b % 16)) = some b := by
  decide

theorem unquoteLoop_quote (k : Nat) (tail acc : GoString) :
    unquoteLoop (k + 1) (34 :: tail) acc = some (acc, tail) := by
  simp [unquoteLoop]

theorem unquoteLoop_safe (k b : Nat) (more acc : GoString) (hs : htmlSafe b = true) :
    unquoteLoop (k + 1) (b :: more) acc = unquoteLoop k more (acc ++ [b]) := by
  simp only [htmlSafe, decide_eq_true_eq] at hs
  obtain ⟨h1, h2, h3, -, -, -, h4⟩ := hs
  have h5 : ¬ b < 32 := by omega
  simp [unquoteLoop, h3, h4, h5, h2]

theorem unquoteLoop_escape (k b : Nat) (more acc : GoString) (hb : b < 128)
    (hs : htmlSafe b = false) :
    unquoteLoop (k + 1) (escapeByte b ++ more) acc = unquoteLoop k more (acc ++ [b]) := by
  unfold escapeByte
  by_cases h1 : b = 92 ∨ b = 34
  · rcases h1 with h | h <;> subst h <;> simp [unquoteLoop]
  rw [if_neg h1]
  by_cases h2 : b = 8
  · subst h2; simp [unquoteLoop]
  rw [if_neg h2]
  by_cases h3 : b = 12
  · subst h3; simp [unquoteLoop]
  rw [if_neg h3]
  by_cases h4 : b = 10
  · subst h4; simp [unquoteLoop]
  rw [if_neg h4]
  by_cases h5 : b = 13
  · subst h5; simp [unquoteLoop]
  rw [if_neg h5]
  by_cases h6 : b = 9
  · subst h6; simp [unquoteLoop]
  rw [if_neg h6]
  have hg : getu4 (92 :: 117 :: 48 :: 48 :: hexDigit (b / 16) :: hexDigit (b % 16) :: more)
      = some b := by
    simp only [getu4]
    exact hex4_ascii b hb
  have hsur : ¬ (55296 ≤ b ∧ b < 57344) := by omega
  have henc : utf8.EncodeRune b = [b] := by
    have : b ≤ 127 := by omega
    simp [utf8.EncodeRune, this]
  show unquoteLoop (k + 1)
      (92 :: 117 :: 48 :: 48 :: hexDigit (b / 16) :: hexDigit (b % 16) :: more) acc = _
  rw [unquoteLoop]
  simp only [hg]
  simp [hsur, henc]

theorem unquoteLoop_u202 (k c : Nat) (more acc : GoString) (hc : c = 8232 ∨ c = 8233) :
    unquoteLoop (k + 1) ([92, 117, 50, 48, 50, hexDigit (c % 16)] ++ more) acc
      = unquoteLoop k more (acc ++ utf8.EncodeRune c) := by
  rcases hc with h | h <;> subst h <;> simp [unquoteLoop, getu4, hex4, hex.fromHexChar, hexDigit]

theorem unquoteLoop_multibyte (k b : Nat) (rest more acc : GoString) (c size : Nat)
    (hb : 128 ≤ b) (hd : utf8.DecodeRune (b :: rest) = (c, size))
    (hv : ¬ (c = utf8.RuneError ∧ size = 1)) :
    unquoteLoop (k + 1) ((b :: rest).take size ++ more) acc
      = unquoteLoop k more (acc ++ (b :: rest).take size) := by
  obtain ⟨henc, hlen, hpos, hdec⟩ := utf8.decode_encode b rest c size hb hd hv
  obtain ⟨n, rfl⟩ : ∃ n, size = n + 1 := ⟨size - 1, by omega⟩
  have hX := hdec more
  simp only [List.take_succ_cons, List.cons_append] at hX hlen ⊢
  have h1 : ¬ b = 34 := by omega
  have h2 : ¬ b = 92 := by omega
  have h3 : ¬ b < 32 := by omega
  have h4 : ¬ b < 128 := by omega
  simp only [unquoteLoop, h1, h2, h3, h4, if_false, hX]
  rw [henc]
  simp only [List.take_succ_cons, List.drop_succ_cons]
  have hl : (List.take n rest).length = n := by simpa using hlen
  rw [List.drop_left' hl]

/-- What `unquote` reads back from the literal `appendString` wrote, for valid
UTF-8. -/
theorem unquote_appendStringLoop : ∀ (fuel : Nat) (s : GoString), s.length ≤ fuel →
    utf8.validLoop fuel s = true → ∀ (f2 : Nat) (tail acc : GoString),
    (appendStringLoop fuel s).length < f2 →
    unquoteLoop f2 (appendStringLoop fuel s ++ 34 :: tail) acc = some (acc ++ s, tail) := by
  intro fuel
  induction fuel with
  | zero =>
    intro s hl _ f2 tail acc hf
    have hs : s = [] := List.length_eq_zero.mp (Nat.le_zero.mp hl)
    subst hs
    obtain ⟨k, rfl⟩ : ∃ k, f2 = k + 1 := ⟨f2 - 1, by omega⟩
    simp [appendStringLoop, unquoteLoop_quote]
  | succ fuel ih =>
    intro s hl hvalid f2 tail acc hf
    cases s with
    | nil =>
      obtain ⟨k, rfl⟩ : ∃ k, f2 = k + 1 := ⟨f2 - 1, by omega⟩
      simp [appendStringLoop, unquoteLoop_quote]
    | cons b rest =>
      obtain ⟨k, rfl⟩ : ∃ k, f2 = k + 1 := ⟨f2 - 1, by omega⟩
      have hlr : rest.length ≤ fuel := by simpa using hl
      by_cases hb : b < 128
      · have hvr : utf8.validLoop fuel rest = true := by
          have hne : ¬ b = utf8.RuneError := by simp [utf8.RuneError]; omega
          simpa [utf8.validLoop, utf8.DecodeRune, hb, hne] using hvalid
        have hstep : appendStringLoop (fuel + 1) (b :: rest)
            = (if htmlSafe b then [b] else escapeByte b) ++ appendStringLoop fuel rest := by
          simp [appendStringLoop, hb]
        rw [hstep] at hf ⊢
        by_cases hs : htmlSafe b = true
        · simp only [hs, if_true, List.cons_append, List.nil_append] at hf ⊢
          rw [unquoteLoop_safe k b _ acc hs]
          rw [ih rest hlr hvr k tail (acc ++ [b]) (by simp at hf; omega)]
          simp
        · have hs2 : htmlSafe b = false := by simpa using hs
          simp only [hs2, Bool.false_eq_true, if_false, List.append_assoc] at hf ⊢
          rw [unquoteLoop_escape k b _ acc hb hs2]
          have hpos : 0 < (escapeByte b).length := by
            unfold escapeByte
            repeat' split
            all_goals simp
          rw [ih rest hlr hvr k tail (acc ++ [b]) (by simp at hf; omega)]
          simp
      · have hb2 : 128 ≤ b := by omega
        cases hd : utf8.DecodeRune (b :: rest) with
        | mk c size =>
          have hv : ¬ (c = utf8.RuneError ∧ size = 1) := by
            intro h
            simp [utf8.validLoop, hd, h] at hvalid
          obtain ⟨henc, hlen, hpos, -⟩ := utf8.decode_encode b rest c size hb2 hd hv
          have hvr : utf8.validLoop fuel ((b :: rest).drop size) = true := by
            simpa [utf8.validLoop, hd, hv] using hvalid
          have hlr2 : ((b :: rest).drop size).length ≤ fuel := by
            simp only [List.length_drop, List.length_cons]
            simp only [List.length_cons] at hl
            omega
          by_cases hc : c = 8232 ∨ c = 8233
          · have hstep : appendStringLoop (fuel + 1) (b :: rest)
                = [92, 117, 50, 48, 50, hexDigit (c % 16)]
                  ++ appendStringLoop fuel ((b :: rest).drop size) := by
              simp [appendStringLoop, hb, hd, hv, hc]
            rw [hstep] at hf ⊢
            rw [List.append_assoc, unquoteLoop_u202 k c _ acc hc, henc]
            rw [ih _ hlr2 hvr k tail _ (by simp at hf; omega)]
            rw [List.append_assoc, List.take_append_drop]
          · have hstep : appendStringLoop (fuel + 1) (b :: rest)
                = (b :: rest).take size ++ appendStringLoop fuel ((b :: rest).drop size) := by
              simp [appendStringLoop, hb, hd, hv, hc]
            rw [hstep] at hf ⊢
            rw [List.append_assoc, unquoteLoop_multibyte k b rest _ acc c size hb2 hd hv]
            rw [ih _ hlr2 hvr k tail _ (by
              simp only [List.length_append] at hf
              omega)]
            rw [List.append_assoc, List.take_append_drop]

end json

namespace json

/-! ### JSON texts of lists -/

theorem skipWS_cons (c : Nat) (r : GoString) (h : isSpace c = false) :
    skipWS (c :: r) = c :: r := by
  simp [skipWS, List.dropWhile, h]

theorem appendString_length (s : GoString) : 2 ≤ (appendString s).length := by
  simp [appendString]

/-- A string literal written by `appendString` is parsed back to the string,
for valid UTF-8. -/
theorem parseValue_appendString (s tail : GoString) (f : Nat)
    (hv : utf8.ValidString s = true) :
    parseValue (f + 1) (appendString s ++ tail) = some (JValue.string s, tail) := by
  have h := unquote_appendStringLoop s.length s (Nat.le_refl _) hv
    ((appendStringLoop s.length s ++ 34 :: tail).length + 1) tail []
    (by simp only [List.length_append, List.length_cons]; omega)
  simp only [appendString, List.cons_append, List.append_assoc, List.singleton_append,
    List.nil_append, parseValue]
  rw [h]
  simp

theorem parseElems_succ (f : Nat) (input : GoString) (acc : List JValue) :
    parseElems (f + 1) input acc =
      match parseValue f input with
      | none => none
      | some (v, rest) =>
        match skipWS rest with
        | 44 :: rest2 => parseElems f (skipWS rest2) (acc ++ [v])
        | 93 :: rest2 => some (JValue.array (acc ++ [v]), rest2)
        | _ => none := by
  rw [parseElems]

theorem parseElems_strings : ∀ (l : List GoString) (s : GoString) (tail : GoString)
    (acc : List JValue) (f : Nat),
    (∀ x ∈ s :: l, utf8.ValidString x = true) → l.length + 2 ≤ f →
    parseElems f (joinComma ((s :: l).map appendString) ++ 93 :: tail) acc
      = some (JValue.array (acc ++ (s :: l).map JValue.string), tail) := by
  intro l
  induction l with
  | nil =>
    intro s tail acc f hv hf
    obtain ⟨k, rfl⟩ : ∃ k, f = k + 2 := ⟨f - 2, by omega⟩
    have hs := hv s (by simp)
    simp only [List.map_cons, List.map_nil, joinComma]
    rw [parseElems_succ, parseValue_appendString s _ k hs]
    simp [skipWS, List.dropWhile, isSpace]
  | cons s2 l ih =>
    intro s tail acc f hv hf
    obtain ⟨k, rfl⟩ : ∃ k, f = k + 2 := ⟨f - 2, by omega⟩
    have hs := hv s (by simp)
    have hj : joinComma ((s :: s2 :: l).map appendString) ++ 93 :: tail
        = appendString s ++ (44 :: (joinComma ((s2 :: l).map appendString) ++ 93 :: tail)) := by
      simp [joinComma]
    rw [hj, parseElems_succ, parseValue_appendString s _ k hs]
    have hsk : skipWS (joinComma ((s2 :: l).map appendString) ++ 93 :: tail)
        = joinComma ((s2 :: l).map appendString) ++ 93 :: tail := by
      cases l with
      | nil => simp [joinComma, appendString, skipWS, List.dropWhile, isSpace]
      | cons s3 l => simp [joinComma, appendString, skipWS, List.dropWhile, isSpace]
    have hsk0 : skipWS (44 :: (joinComma ((s2 :: l).map appendString) ++ 93 :: tail))
        = 44 :: (joinComma ((s2 :: l).map appendString) ++ 93 :: tail) := by
      simp [skipWS, List.dropWhile, isSpace]
    simp only [hsk0, hsk]
    rw [ih s2 tail (acc ++ [JValue.string s]) (k + 1)
      (fun x hx => hv x (List.mem_cons_of_mem _ hx)) (by simp at hf ⊢; omega)]
    simp

/-- The abstract syntax of a `[]string`. -/
theorem parseValue_marshalStrings (v : GoSlice GoString) (tail : GoString) (f : Nat)
    (hv : ∀ l, v = some l → ∀ x ∈ l, utf8.ValidString x = true)
    (hf : ∀ l, v = some l → l.length + 2 ≤ f) :
    parseValue (f + 1) (marshalStrings v ++ tail)
      = some (match v with
          | none => JValue.null
          | some l => JValue.array (l.map JValue.string), tail) := by
  cases v with
  | none => simp [marshalStrings, str, parseValue]
  | some l =>
    cases l with
    | nil => simp [marshalStrings, joinComma, parseValue, skipWS, List.dropWhile, isSpace]
    | cons s l =>
      have hsk : skipWS (joinComma ((s :: l).map appendString) ++ 93 :: tail)
          = joinComma ((s :: l).map appendString) ++ 93 :: tail := by
        cases l with
        | nil => simp [joinComma, appendString, skipWS, List.dropWhile, isSpace]
        | cons s3 l => simp [joinComma, appendString, skipWS, List.dropWhile, isSpace]
      have hne : ∀ r, joinComma ((s :: l).map appendString) ++ 93 :: tail ≠ 93 :: r := by
        intro r
        cases l with
        | nil => simp [joinComma, appendString]
        | cons s3 l => simp [joinComma, appendString]
      have hp := parseElems_strings l s tail [] f (hv _ rfl)
        (by have := hf _ rfl; simp at this; omega)
      simp only [marshalStrings, List.cons_append, List.append_assoc, List.singleton_append,
        List.nil_append, parseValue, hsk]
      simpa using hp

theorem unmarshalElems_strings (l : List GoString) :
    unmarshalElems (l.map JValue.string) [] = Except.ok l := by
  induction l with
  | nil => rfl
  | cons s l ih => simp [unmarshalElems, unmarshalString, ih]

end json

namespace json

theorem joinComma_length (l : List GoString) :
    l.length ≤ (joinComma (l.map appendString)).length := by
  induction l with
  | nil => simp [joinComma]
  | cons s l ih =>
    cases l with
    | nil =>
      have := appendString_length s
      simp only [List.map_cons, List.map_nil, joinComma, List.length_cons, List.length_nil]
      omega
    | cons s2 l =>
      have := appendString_length s
      simp only [List.map_cons, joinComma, List.length_append, List.length_cons] at ih ⊢
      omega

/-- Marshal then Unmarshal gives a `[]string` back, for valid UTF-8. -/
theorem Unmarshal_Marshal_strings (v : GoSlice GoString) (hv : validStrings v = true) :
    Unmarshal (Marshal v) (none : GoSlice GoString) = Except.ok v := by
  have hvalid : ∀ l, v = some l → ∀ x ∈ l, utf8.ValidString x = true := by
    intro l hl x hx
    subst hl
    simp only [validStrings, List.all_eq_true] at hv
    exact hv x hx
  have hlen : ∀ l, v = some l → l.length + 2 ≤ 2 * (marshalStrings v).length + 1 := by
    intro l hl
    subst hl
    have := joinComma_length l
    simp only [marshalStrings, List.length_cons, List.length_append, List.length_nil]
    omega
  have hsk : skipWS (marshalStrings v) = marshalStrings v := by
    cases v with
    | none => rfl
    | some l => simp [marshalStrings, skipWS, List.dropWhile, isSpace]
  have hp := parseValue_marshalStrings v [] (2 * (marshalStrings v).length + 1) hvalid hlen
  rw [List.append_nil] at hp
  have hM : (Marshal v : GoString) = marshalStrings v := rfl
  simp only [Unmarshal, parseJSON, hM, hsk]
  rw [show 2 * (marshalStrings v).length + 2 = 2 * (marshalStrings v).length + 1 + 1 from rfl,
    hp]
  cases v with
  | none => simp [skipWS, JSONShape.unmarshal, unmarshalStrings]
  | some l =>
    simp [skipWS, JSONShape.unmarshal, unmarshalStrings, unmarshalElems_strings]

end json

/-! ### `json_array_contains` -/

/-- C8 fails on the list holding the one-byte string `0xFF`, which is not
valid UTF-8: the document written for it holds U+FFFD instead, and the
function answers `false` for the item `0xFF`, a member of the list. -/
theorem JsonArrayContains_invalid_utf8 :
    ([255] : GoString) ∈ [([255] : GoString)]
    ∧ JsonArrayContains (AnyValue.string (json.Marshal (some [[255]] : GoSlice GoString)))
        (AnyValue.string [255]) = Except.ok false := by
  refine ⟨by simp, rfl⟩

/-- C8, amended: for every list of valid UTF-8 strings (also the nil list),
serialized by `json.Marshal`, and every string item, `JsonArrayContains`
returns `true` exactly when the item is a member of the list; and it returns
an error whenever one of its two arguments is not a string. -/
theorem JsonArrayContains_spec :
    (∀ (L : GoSlice GoString) (item : GoString), validStrings L = true →
      JsonArrayContains (AnyValue.string (json.Marshal L)) (AnyValue.string item)
        = Except.ok (decide (item ∈ L.getD [])))
    ∧ (∀ a b : AnyValue, ((∀ s, a ≠ AnyValue.string s) ∨ (∀ s, b ≠ AnyValue.string s)) →
        ∃ e, JsonArrayContains a b = Except.error e) := by
  constructor
  · intro L item hv
    simp only [JsonArrayContains, json.Unmarshal_Marshal_strings L hv]
    cases L with
    | none => simp [slicesContains]
    | some l => simp [slicesContains]
  · intro a b h
    cases a with
    | string s =>
      cases b with
      | string t =>
        rcases h with h | h
        · exact absurd rfl (h s)
        · exact absurd rfl (h t)
      | _ => exact ⟨_, rfl⟩
    | _ => exact ⟨_, rfl⟩

/-- C8, amended, on the list `["amd64", "é"]`: `é` is found, `x` is not, and
an integer argument is an error. -/
theorem JsonArrayContains_spec_witness :
    validStrings (some [str "amd64", [195, 169]]) = true
    ∧ JsonArrayContains (AnyValue.string (json.Marshal (some [str "amd64", [195, 169]] :
          GoSlice GoString))) (AnyValue.string [195, 169]) = Except.ok true
    ∧ JsonArrayContains (AnyValue.string (json.Marshal (some [str "amd64", [195, 169]] :
          GoSlice GoString))) (AnyValue.string (str "x")) = Except.ok false
    ∧ ∃ e, JsonArrayContains (AnyValue.int64 1) (AnyValue.string (str "x")) = Except.error e :=
  have hv : validStrings (some [str "amd64", [195, 169]]) = true := by decide
  ⟨hv, JsonArrayContains_spec.1 (some [str "amd64", [195, 169]]) [195, 169] hv,
    JsonArrayContains_spec.1 (some [str "amd64", [195, 169]]) (str "x") hv,
    JsonArrayContains_spec.2 (AnyValue.int64 1) (AnyValue.string (str "x"))
      (Or.inl (fun s h => by cases h))⟩

namespace json

/-! ### JSON texts of maps -/

theorem parseMembers_succ (f : Nat) (rest : GoString) (acc : List (GoString × JValue)) :
    parseMembers (f + 1) (34 :: rest) acc =
      match unquoteLoop (rest.length + 1) rest [] with
      | none => none
      | some (key, rest1) =>
        match skipWS rest1 with
        | 58 :: rest2 =>
          match parseValue f (skipWS rest2) with
          | none => none
          | some (v, rest3) =>
            match skipWS rest3 with
            | 44 :: rest4 => parseMembers f (skipWS rest4) (acc ++ [(key, v)])
            | 125 :: rest4 => some (JValue.object (acc ++ [(key, v)]), rest4)
            | _ => none
        | _ => none := by
  rw [parseMembers]

/-- One `"key":value` member is read, up to what follows the value. -/
theorem parseMembers_member {V : Type} (enc : V → GoString) (ast : V → JValue) (B f : Nat)
    (k : GoString) (x : V) (more : GoString) (acc : List (GoString × JValue))
    (hk : utf8.ValidString k = true) (hx : ReadsBack enc ast B x) (hf : B + 1 ≤ f) :
    parseMembers (f + 1) (appendString k ++ (58 :: (enc x ++ more))) acc =
      match skipWS more with
      | 44 :: rest4 => parseMembers f (skipWS rest4) (acc ++ [(k, ast x)])
      | 125 :: rest4 => some (JValue.object (acc ++ [(k, ast x)]), rest4)
      | _ => none := by
  obtain ⟨⟨c, r, hc, hsp⟩, hparse⟩ := hx
  obtain ⟨g, rfl⟩ : ∃ g, f = g + 1 := ⟨f - 1, by omega⟩
  have h := unquote_appendStringLoop k.length k (Nat.le_refl _) hk
    ((appendStringLoop k.length k ++ 34 :: (58 :: (enc x ++ more))).length + 1)
    (58 :: (enc x ++ more)) []
    (by simp only [List.length_append, List.length_cons]; omega)
  have hin : appendString k ++ (58 :: (enc x ++ more))
      = 34 :: (appendStringLoop k.length k ++ 34 :: (58 :: (enc x ++ more))) := by
    simp [appendString]
  rw [hin, parseMembers_succ, h]
  have hs1 : skipWS (58 :: (enc x ++ more)) = 58 :: (enc x ++ more) := by
    simp [skipWS, List.dropWhile, isSpace]
  have hs2 : skipWS (enc x ++ more) = enc x ++ more := by
    rw [hc]
    exact skipWS_cons c _ hsp
  simp only [List.nil_append, hs1, hs2]
  rw [hparse more g (by omega)]

theorem parseMembers_entries {V : Type} (enc : V → GoString) (ast : V → JValue) (B : Nat) :
    ∀ (L : List (GoString × V)) (e : GoString × V) (tail : GoString)
      (acc : List (GoString × JValue)) (f : Nat),
    (∀ x ∈ e :: L, utf8.ValidString x.1 = true ∧ ReadsBack enc ast B x.2) →
    B + L.length + 2 ≤ f →
    parseMembers f
        (joinComma ((e :: L).map (fun e => appendString e.1 ++ 58 :: enc e.2)) ++ 125 :: tail)
        acc
      = some (JValue.object (acc ++ (e :: L).map (fun e => (e.1, ast e.2))), tail) := by
  intro L
  induction L with
  | nil =>
    intro e tail acc f hv hf
    obtain ⟨g, rfl⟩ : ∃ g, f = g + 1 := ⟨f - 1, by omega⟩
    obtain ⟨hk, hx⟩ := hv e (by simp)
    simp only [List.map_cons, List.map_nil, joinComma, List.append_assoc, List.cons_append]
    rw [parseMembers_member enc ast B g e.1 e.2 _ acc hk hx (by simp at hf; omega)]
    simp [skipWS, List.dropWhile, isSpace]
  | cons e2 L ih =>
    intro e tail acc f hv hf
    obtain ⟨g, rfl⟩ : ∃ g, f = g + 1 := ⟨f - 1, by omega⟩
    obtain ⟨hk, hx⟩ := hv e (by simp)
    have hj : joinComma ((e :: e2 :: L).map (fun e => appendString e.1 ++ 58 :: enc e.2))
          ++ 125 :: tail
        = appendString e.1 ++ (58 :: (enc e.2 ++ (44 ::
            (joinComma ((e2 :: L).map (fun e => appendString e.1 ++ 58 :: enc e.2))
              ++ 125 :: tail)))) := by
      simp [joinComma]
    rw [hj, parseMembers_member enc ast B g e.1 e.2 _ acc hk hx (by simp at hf; omega)]
    have hsk : skipWS (joinComma ((e2 :: L).map (fun e => appendString e.1 ++ 58 :: enc e.2))
          ++ 125 :: tail)
        = joinComma ((e2 :: L).map (fun e => appendString e.1 ++ 58 :: enc e.2))
          ++ 125 :: tail := by
      cases L with
      | nil => simp [joinComma, appendString, skipWS, List.dropWhile, isSpace]
      | cons e3 L => simp [joinComma, appendString, skipWS, List.dropWhile, isSpace]
    have hsk0 : ∀ X : GoString, skipWS (44 :: X) = 44 :: X := by
      intro X; simp [skipWS, List.dropWhile, isSpace]
    simp only [hsk0, hsk]
    rw [ih e2 tail (acc ++ [(e.1, ast e.2)]) g
      (fun x hx => hv x (List.mem_cons_of_mem _ hx)) (by simp at hf ⊢; omega)]
    simp

theorem unmarshalMembers_entries {V : Type} (dec : JValue → Except Error V)
    (ast : V → JValue) : ∀ (L : List (GoString × V)) (es : List (GoString × V)),
    (∀ x ∈ L, dec (ast x.2) = Except.ok x.2) →
    unmarshalMembers dec (L.map (fun e => (e.1, ast e.2))) es
      = Except.ok (L.foldl (fun acc e => GoMap.setEntry acc e.1 e.2) es) := by
  intro L
  induction L with
  | nil => intro es _; rfl
  | cons e L ih =>
    intro es h
    simp only [List.map_cons, unmarshalMembers, h e (by simp), List.foldl_cons]
    exact ih _ (fun x hx => h x (List.mem_cons_of_mem _ hx))

end json

namespace GoMap

theorem getEntry_eq_none {V : Type} (es : List (GoString × V)) (k : GoString)
    (h : k ∉ es.map Prod.fst) : getEntry es k = none := by
  induction es with
  | nil => rfl
  | cons e es ih =>
    obtain ⟨k2, v2⟩ := e
    simp only [List.map_cons, List.mem_cons, not_or] at h
    simp [getEntry, Ne.symm h.1, ih h.2]

theorem getEntry_eq_some_iff {V : Type} (es : List (GoString × V)) (k : GoString) (v : V)
    (h : (es.map Prod.fst).Nodup) : getEntry es k = some v ↔ (k, v) ∈ es := by
  induction es with
  | nil => simp [getEntry]
  | cons e es ih =>
    obtain ⟨k2, v2⟩ := e
    simp only [List.map_cons, List.nodup_cons] at h
    by_cases hk : k2 = k
    · subst hk
      simp only [getEntry, if_true, Option.some.injEq, List.mem_cons, Prod.mk.injEq, true_and]
      constructor
      · intro hv; exact Or.inl hv.symm
      · rintro (hv | hm)
        · exact hv.symm
        · exact absurd (List.mem_map.mpr ⟨(k2, v), hm, rfl⟩) h.1
    · simp only [getEntry, hk, if_false, List.mem_cons, Prod.mk.injEq, ih h.2]
      constructor
      · intro hm; exact Or.inr hm
      · rintro (⟨hk2, -⟩ | hm)
        · exact absurd hk2.symm hk
        · exact hm

theorem getEntry_perm {V : Type} (a b : List (GoString × V)) (k : GoString)
    (hp : a.Perm b) (h : (a.map Prod.fst).Nodup) : getEntry a k = getEntry b k := by
  have hb : (b.map Prod.fst).Nodup := (hp.map Prod.fst).nodup_iff.mp h
  cases hg : getEntry b k with
  | none =>
    cases hg2 : getEntry a k with
    | none => rfl
    | some v =>
      have := (getEntry_eq_some_iff a k v h).mp hg2
      have := (getEntry_eq_some_iff b k v hb).mpr (hp.mem_iff.mp this)
      rw [hg] at this
      exact absurd this (by simp)
  | some v =>
    have := (getEntry_eq_some_iff b k v hb).mp hg
    exact (getEntry_eq_some_iff a k v h).mpr (hp.mem_iff.mpr this)

theorem getEntry_foldl {V : Type} (k : GoString) : ∀ (L es : List (GoString × V)),
    (L.map Prod.fst).Nodup →
    getEntry (L.foldl (fun acc e => setEntry acc e.1 e.2) es) k
      = if k ∈ L.map Prod.fst then getEntry L k else getEntry es k := by
  intro L
  induction L with
  | nil => intro es _; simp
  | cons e L ih =>
    intro es h
    obtain ⟨k2, v2⟩ := e
    simp only [List.map_cons, List.nodup_cons] at h
    simp only [List.foldl_cons, List.map_cons, List.mem_cons]
    rw [ih _ h.2]
    by_cases hk : k2 = k
    · subst hk
      simp [h.1, getEntry, getEntry_setEntry]
    · by_cases hm : k ∈ L.map Prod.fst
      · simp [hm, getEntry, hk]
      · simp [hm, getEntry, hk, getEntry_setEntry, Ne.symm hk]

end GoMap

namespace json

theorem joinComma_length_ge (L : List GoString) (h : ∀ x ∈ L, 1 ≤ x.length) :
    L.length ≤ (joinComma L).length := by
  induction L with
  | nil => simp [joinComma]
  | cons x L ih =>
    have hx := h x (by simp)
    have ih2 := ih (fun y hy => h y (List.mem_cons_of_mem _ hy))
    cases L with
    | nil => simp only [joinComma, List.length_cons, List.length_nil]; omega
    | cons y L =>
      simp only [joinComma, List.length_append, List.length_cons] at ih2 ⊢
      omega

theorem joinComma_elem_le (L : List GoString) (x : GoString) (hx : x ∈ L) :
    x.length ≤ (joinComma L).length := by
  induction L with
  | nil => simp at hx
  | cons y L ih =>
    cases L with
    | nil =>
      have : x = y := by simpa using hx
      subst this
      simp [joinComma]
    | cons z L =>
      simp only [joinComma, List.length_append, List.length_cons]
      rcases List.mem_cons.mp hx with h | h
      · subst h; omega
      · have := ih h
        simp only [joinComma] at this
        omega

theorem parseJSON_null : parseJSON (str "null") = some JValue.null := by
  rfl

/-- The abstract syntax of the text `Marshal` writes for a map that is not
nil: the members in key order. -/
theorem parseJSON_marshalMap {V : Type} (enc : V → GoString) (ast : V → JValue)
    (es : List (GoString × V))
    (hk : ∀ e ∈ es, utf8.ValidString e.1 = true)
    (hrb : ∀ e ∈ es, ∀ B, (enc e.2).length ≤ B → ReadsBack enc ast B e.2) :
    parseJSON (marshalMap enc (some es))
      = some (JValue.object ((sortEntries es).map (fun e => (e.1, ast e.2)))) := by
  have hperm : (sortEntries es).Perm es := List.perm_insertionSort _ es
  generalize hS : sortEntries es = S at hperm
  cases S with
  | nil =>
    simp only [marshalMap, hS, List.map_nil, joinComma]
    rfl
  | cons e L =>
    let g : GoString × V → GoString := fun e => appendString e.1 ++ 58 :: enc e.2
    have hg1 : ∀ x ∈ (e :: L).map g, 1 ≤ x.length := by
      intro x hx
      obtain ⟨y, -, rfl⟩ := List.mem_map.mp hx
      simp [g, appendString]
    have hlen := joinComma_length_ge ((e :: L).map g) hg1
    simp only [List.length_map, List.length_cons] at hlen
    have hdata : marshalMap enc (some es) = 123 :: (joinComma ((e :: L).map g) ++ [125]) := by
      simp only [marshalMap, hS, g]
    have hB : ∀ x ∈ e :: L, utf8.ValidString x.1 = true
        ∧ ReadsBack enc ast (marshalMap enc (some es)).length x.2 := by
      intro x hx
      have hxes : x ∈ es := hperm.mem_iff.mp hx
      refine ⟨hk x hxes, hrb x hxes _ ?_⟩
      have h1 := joinComma_elem_le ((e :: L).map g) (g x) (List.mem_map.mpr ⟨x, hx, rfl⟩)
      have h2 : (enc x.2).length ≤ (g x).length := by
        simp only [g, List.length_append, List.length_cons]
        omega
      rw [hdata]
      simp only [List.length_cons, List.length_append, List.length_nil]
      omega
    have hpm := parseMembers_entries enc ast (marshalMap enc (some es)).length L e []
      [] (2 * (marshalMap enc (some es)).length + 1) hB (by
        rw [hdata]
        simp only [List.length_cons, List.length_append, List.length_nil]
        omega)
    have hsk : skipWS (joinComma ((e :: L).map g) ++ [125])
        = joinComma ((e :: L).map g) ++ [125] := by
      cases L with
      | nil => simp [joinComma, g, appendString, skipWS, List.dropWhile, isSpace]
      | cons e3 L => simp [joinComma, g, appendString, skipWS, List.dropWhile, isSpace]
    have hne : ∀ r, joinComma ((e :: L).map g) ++ [125] ≠ 125 :: r := by
      intro r
      cases L with
      | nil => simp [joinComma, g, appendString]
      | cons e3 L => simp [joinComma, g, appendString]
    have hpv : parseValue (2 * (marshalMap enc (some es)).length + 1 + 1)
        (123 :: (joinComma ((e :: L).map g) ++ [125]))
        = some (JValue.object ((e :: L).map (fun e => (e.1, ast e.2))), []) := by
      rw [parseValue]
      simp only [hsk]
      simpa [g] using hpm
    have hsk2 : skipWS (marshalMap enc (some es)) = marshalMap enc (some es) := by
      rw [hdata]; simp [skipWS, List.dropWhile, isSpace]
    unfold parseJSON
    rw [hsk2]
    rw [show 2 * (marshalMap enc (some es)).length + 2
      = 2 * (marshalMap enc (some es)).length + 1 + 1 from rfl]
    nth_rewrite 2 [hdata]
    rw [hpv]
    simp [skipWS]

/-- Marshal then Unmarshal of a map whose keys are distinct and valid UTF-8
and whose values are read back gives an equal map, and the text passes the
`CHECK` of an object column. -/
theorem roundtrip_map {V : Type} (enc : V → GoString) (ast : V → JValue)
    (dec : JValue → Except Error V) (m : GoMap V)
    (hnd : m.keys.Nodup)
    (hk : ∀ e ∈ m.getD [], utf8.ValidString e.1 = true)
    (hrb : ∀ e ∈ m.getD [], ∀ B, (enc e.2).length ≤ B → ReadsBack enc ast B e.2)
    (hdec : ∀ e ∈ m.getD [], dec (ast e.2) = Except.ok e.2) :
    ∃ m2, (match parseJSON (marshalMap enc m) with
        | none => Except.error (str "invalid character")
        | some v => unmarshalMap dec v none) = Except.ok m2
      ∧ GoMap.Equiv m2 m ∧ jsonCheck true (marshalMap enc m) = true := by
  cases m with
  | none =>
    refine ⟨none, ?_, ⟨Iff.rfl, fun _ => rfl⟩, rfl⟩
    simp only [marshalMap, parseJSON_null, unmarshalMap]
  | some es =>
    simp only [Option.getD_some] at hk hrb hdec
    have hperm : (sortEntries es).Perm es := List.perm_insertionSort _ es
    have hndS : ((sortEntries es).map Prod.fst).Nodup :=
      (hperm.map Prod.fst).nodup_iff.mpr (by simpa [GoMap.keys] using hnd)
    have hequiv : GoMap.Equiv
        (some ((sortEntries es).foldl (fun acc e => GoMap.setEntry acc e.1 e.2) [])) (some es) := by
      refine ⟨by simp, fun k => ?_⟩
      simp only [GoMap.get]
      rw [GoMap.getEntry_foldl k _ [] hndS]
      by_cases hm : k ∈ (sortEntries es).map Prod.fst
      · rw [if_pos hm]
        exact GoMap.getEntry_perm _ _ k hperm hndS
      · rw [if_neg hm]
        have : k ∉ es.map Prod.fst := fun h => hm ((hperm.map Prod.fst).mem_iff.mpr h)
        rw [GoMap.getEntry_eq_none es k this]
        rfl
    have hdecS : ∀ x ∈ sortEntries es, dec (ast x.2) = Except.ok x.2 :=
      fun x hx => hdec x (hperm.mem_iff.mp hx)
    have hpj := parseJSON_marshalMap enc ast es hk hrb
    refine ⟨_, ?_, hequiv, ?_⟩
    · rw [hpj]
      simp only [unmarshalMap, Option.getD_none,
        unmarshalMembers_entries dec ast (sortEntries es) [] hdecS]
    · unfold jsonCheck
      split
      · rfl
      · rw [hpj]

theorem readsBack_appendString (s : GoString) (B : Nat) (hv : utf8.ValidString s = true) :
    ReadsBack appendString JValue.string B s := by
  refine ⟨⟨34, _, rfl, rfl⟩, fun tail f _ => parseValue_appendString s tail f hv⟩

theorem readsBack_marshalStrings (v : GoSlice GoString) (B : Nat)
    (hv : validStrings v = true) (hB : (marshalStrings v).length ≤ B) :
    ReadsBack marshalStrings astStrings B v := by
  constructor
  · cases v with
    | none => exact ⟨110, _, rfl, rfl⟩
    | some l => exact ⟨91, _, rfl, rfl⟩
  · intro tail f hf
    have h := parseValue_marshalStrings v tail f
      (by
        intro l hl x hx
        subst hl
        simp only [validStrings, List.all_eq_true] at hv
        exact hv x hx)
      (by
        intro l hl
        subst hl
        have := joinComma_length l
        simp only [marshalStrings, List.length_cons, List.length_append, List.length_nil] at hB
        omega)
    rw [h]
    cases v <;> rfl

/-- Marshal then Unmarshal gives a `map[string]string` back. -/
theorem Unmarshal_Marshal_stringMap (m : GoMap GoString) (hnd : m.keys.Nodup)
    (hv : validStringMap m = true) :
    ∃ m2, Unmarshal (Marshal m) (none : GoMap GoString) = Except.ok m2 ∧ GoMap.Equiv m2 m
      ∧ jsonCheck true (Marshal m) = true := by
  have hall : ∀ e ∈ m.getD [], utf8.ValidString e.1 = true ∧ utf8.ValidString e.2 = true := by
    intro e he
    simp only [validStringMap, List.all_eq_true, Bool.and_eq_true] at hv
    exact hv e he
  exact roundtrip_map appendString JValue.string (fun v => unmarshalString v []) m hnd
    (fun e he => (hall e he).1)
    (fun e he B _ => readsBack_appendString e.2 B (hall e he).2)
    (fun e _ => rfl)

/-- Marshal then Unmarshal gives a `map[string][]string` back. -/
theorem Unmarshal_Marshal_sliceMap (m : GoMap (GoSlice GoString)) (hnd : m.keys.Nodup)
    (hv : validSliceMap m = true) :
    ∃ m2, Unmarshal (Marshal m) (none : GoMap (GoSlice GoString)) = Except.ok m2
      ∧ GoMap.Equiv m2 m ∧ jsonCheck true (Marshal m) = true := by
  have hall : ∀ e ∈ m.getD [], utf8.ValidString e.1 = true ∧ validStrings e.2 = true := by
    intro e he
    simp only [validSliceMap, List.all_eq_true, Bool.and_eq_true] at hv
    exact hv e he
  exact roundtrip_map marshalStrings astStrings (fun v => unmarshalStrings v none) m hnd
    (fun e he => (hall e he).1)
    (fun e he B hB => readsBack_marshalStrings e.2 B (hall e he).2 hB)
    (fun e _ => by
      cases h : e.2 with
      | none => rfl
      | some l => simp [astStrings, unmarshalStrings, unmarshalElems_strings])

/-- The text of a `[]string` passes the `CHECK` of an array column. -/
theorem jsonCheck_marshalStrings (v : GoSlice GoString) (hv : validStrings v = true) :
    jsonCheck false (Marshal v) = true := by
  have h := Unmarshal_Marshal_strings v hv
  unfold jsonCheck
  split
  · rfl
  · rename_i hne
    cases v with
    | none => exact absurd rfl hne
    | some l =>
      unfold Unmarshal at h
      cases hp : parseJSON (Marshal (some l : GoSlice GoString)) with
      | none => simp [hp] at h
      | some j =>
        rw [hp] at h
        cases j with
        | array _ => rfl
        | null => simp [JSONShape.unmarshal, unmarshalStrings] at h
        | bool _ => simp [JSONShape.unmarshal, unmarshalStrings] at h
        | number _ => simp [JSONShape.unmarshal, unmarshalStrings] at h
        | string _ => simp [JSONShape.unmarshal, unmarshalStrings] at h
        | object _ => simp [JSONShape.unmarshal, unmarshalStrings] at h

end json

/-! ### The JSON columns and the `pkgs` table -/

theorem roundTrip_strings (v : GoSlice GoString) (hv : validStrings v = true) :
    JSON.roundTrip v = Except.ok ⟨v⟩ := by
  simp only [JSON.roundTrip, JSON.Value, JSON.Scan, JSONShape.zero,
    json.Unmarshal_Marshal_strings v hv]

theorem roundTrip_stringMap (m : GoMap GoString) (hnd : m.keys.Nodup)
    (hv : validStringMap m = true) :
    ∃ m2, JSON.roundTrip m = Except.ok ⟨m2⟩ ∧ GoMap.Equiv m2 m := by
  obtain ⟨m2, h, he, -⟩ := json.Unmarshal_Marshal_stringMap m hnd hv
  exact ⟨m2, by simp only [JSON.roundTrip, JSON.Value, JSON.Scan, JSONShape.zero, h], he⟩

theorem roundTrip_sliceMap (m : GoMap (GoSlice GoString)) (hnd : m.keys.Nodup)
    (hv : validSliceMap m = true) :
    ∃ m2, JSON.roundTrip m = Except.ok ⟨m2⟩ ∧ GoMap.Equiv m2 m := by
  obtain ⟨m2, h, he, -⟩ := json.Unmarshal_Marshal_sliceMap m hnd hv
  exact ⟨m2, by simp only [JSON.roundTrip, JSON.Value, JSON.Scan, JSONShape.zero, h], he⟩

theorem find_after_replace (rows : List Row) (row : Row) :
    (rows.filter (fun r => !(decide (r.name = row.name)
        && decide (r.repository = row.repository))) ++ [row]).find?
      (fun r => decide (r.name = row.name) && decide (r.repository = row.repository))
      = some row := by
  rw [List.find?_append]
  have h : (rows.filter (fun r => !(decide (r.name = row.name)
        && decide (r.repository = row.repository)))).find?
      (fun r => decide (r.name = row.name) && decide (r.repository = row.repository))
      = none := by
    rw [List.find?_eq_none]
    intro r hr
    have := (List.mem_filter.mp hr).2
    simpa [imp_iff_not_or] using this
  rw [h]
  simp

/-- A storable package is written and read back by `(name, repository)`. -/
theorem insert_get (rows : List Row) (pkg : Package) (hs : pkg.storable = true) :
    ∃ rows2 pkg2, InsertPackage rows pkg = Except.ok rows2
      ∧ GetPkg rows2 pkg.Name pkg.Repository = Except.ok pkg2
      ∧ Package.Equiv pkg2 pkg := by
  simp only [Package.storable, Bool.and_eq_true, decide_eq_true_eq] at hs
  obtain ⟨⟨⟨⟨⟨⟨⟨⟨⟨⟨⟨⟨⟨⟨⟨v1, v2⟩, v3⟩, v4⟩, v5⟩, v6⟩, v7⟩, v8⟩, v9⟩, v10⟩, n1⟩, n2⟩, n3⟩, n4⟩, n5⟩,
    hep⟩ := hs
  obtain ⟨d1, s1, e1, c1⟩ := json.Unmarshal_Marshal_stringMap pkg.Description.Val n1 v1
  obtain ⟨d2, s2, e2, c2⟩ := json.Unmarshal_Marshal_stringMap pkg.Homepage.Val n2 v2
  obtain ⟨d3, s3, e3, c3⟩ := json.Unmarshal_Marshal_stringMap pkg.Maintainer.Val n3 v3
  obtain ⟨d9, s9, e9, c9⟩ := json.Unmarshal_Marshal_sliceMap pkg.Depends.Val n4 v9
  obtain ⟨d10, s10, e10, c10⟩ := json.Unmarshal_Marshal_sliceMap pkg.BuildDepends.Val n5 v10
  have s4 := json.Unmarshal_Marshal_strings pkg.Architectures.Val v4
  have s5 := json.Unmarshal_Marshal_strings pkg.Licenses.Val v5
  have s6 := json.Unmarshal_Marshal_strings pkg.Provides.Val v6
  have s7 := json.Unmarshal_Marshal_strings pkg.Conflicts.Val v7
  have s8 := json.Unmarshal_Marshal_strings pkg.Replaces.Val v8
  have c4 := json.jsonCheck_marshalStrings pkg.Architectures.Val v4
  have c5 := json.jsonCheck_marshalStrings pkg.Licenses.Val v5
  have c6 := json.jsonCheck_marshalStrings pkg.Provides.Val v6
  have c7 := json.jsonCheck_marshalStrings pkg.Conflicts.Val v7
  have c8 := json.jsonCheck_marshalStrings pkg.Replaces.Val v8
  have hu : uintParam pkg.Epoch = (pkg.Epoch : Int) := by
    unfold uintParam
    rw [if_pos hep]
  let row : Row :=
    { name := pkg.Name, repository := pkg.Repository, version := pkg.Version,
      release := pkg.Release, epoch := uintParam pkg.Epoch,
      description := json.Marshal pkg.Description.Val,
      homepage := json.Marshal pkg.Homepage.Val,
      maintainer := json.Marshal pkg.Maintainer.Val,
      architectures := json.Marshal pkg.Architectures.Val,
      licenses := json.Marshal pkg.Licenses.Val,
      provides := json.Marshal pkg.Provides.Val,
      conflicts := json.Marshal pkg.Conflicts.Val,
      replaces := json.Marshal pkg.Replaces.Val,
      depends := json.Marshal pkg.Depends.Val,
      builddepends := json.Marshal pkg.BuildDepends.Val }
  refine ⟨rows.filter (fun r => !(decide (r.name = row.name)
        && decide (r.repository = row.repository))) ++ [row],
    { Name := pkg.Name, Version := pkg.Version, Release := pkg.Release, Epoch := pkg.Epoch,
      Description := ⟨d1⟩, Homepage := ⟨d2⟩, Maintainer := ⟨d3⟩,
      Architectures := pkg.Architectures, Licenses := pkg.Licenses,
      Provides := pkg.Provides, Conflicts := pkg.Conflicts, Replaces := pkg.Replaces,
      Depends := ⟨d9⟩, BuildDepends := ⟨d10⟩, Repository := pkg.Repository }, ?_, ?_, ?_⟩
  · simp only [InsertPackage, columnText, JSON.Value, bind, Except.bind, Row.checks, c1, c2,
      c3, c4, c5, c6, c7, c8, c9, c10, Bool.and_self, if_true, row]
  · simp only [GetPkg]
    have hf := find_after_replace rows row
    simp only [row] at hf ⊢
    rw [hf]
    have hneg : ¬ ((pkg.Epoch : Int) < 0) := by omega
    simp only [scanRow, JSON.Scan, s1, s2, s3, s4, s5, s6, s7, s8, s9, s10, bind,
      Except.bind, hu, row, hneg, if_false, Int.toNat_ofNat]
  · exact ⟨rfl, rfl, rfl, rfl, rfl, rfl, rfl, rfl, rfl, rfl, e1, e2, e3, e9, e10⟩

/-- C9 fails on the list holding the one-byte string `0xFF`, which is not
valid UTF-8: `Value` writes U+FFFD for the byte, and `Scan` gives a list
holding the three bytes of U+FFFD. -/
theorem JSON_roundTrip_invalid_utf8 :
    JSON.roundTrip (some [[255]] : GoSlice GoString) = Except.ok ⟨some [[239, 191, 189]]⟩
    ∧ (⟨some [[239, 191, 189]]⟩ : JSON (GoSlice GoString)) ≠ ⟨some [[255]]⟩ := by
  refine ⟨rfl, by decide⟩

/-- C9, amended: for every value of one of the three shapes whose strings are
valid UTF-8 (for a map, with one entry per key), `Value` then `Scan` into a
new wrapper succeeds and gives the value back: the same list, nil and empty
included; a map equal as a Go map. A package whose nested fields are such
values, with an epoch below 2^63, is inserted without error and read back by
`(name, repository)` equal to the inserted one. -/
theorem JSON_roundTrip (rows : List Row) (pkg : Package) (hs : pkg.storable = true) :
    (∀ v : GoSlice GoString, validStrings v = true → JSON.roundTrip v = Except.ok ⟨v⟩)
    ∧ (∀ m : GoMap GoString, m.keys.Nodup → validStringMap m = true →
        ∃ m2, JSON.roundTrip m = Except.ok ⟨m2⟩ ∧ GoMap.Equiv m2 m)
    ∧ (∀ m : GoMap (GoSlice GoString), m.keys.Nodup → validSliceMap m = true →
        ∃ m2, JSON.roundTrip m = Except.ok ⟨m2⟩ ∧ GoMap.Equiv m2 m)
    ∧ ∃ rows2 pkg2, InsertPackage rows pkg = Except.ok rows2
        ∧ GetPkg rows2 pkg.Name pkg.Repository = Except.ok pkg2
        ∧ Package.Equiv pkg2 pkg :=
  ⟨roundTrip_strings, roundTrip_stringMap, roundTrip_sliceMap, insert_get rows pkg hs⟩

/-- C9, amended, on the package `foo` with an empty store, and on the nil
list, the empty list and two maps. -/
theorem JSON_roundTrip_witness :
    fooPackage.storable = true
    ∧ JSON.roundTrip (none : GoSlice GoString) = Except.ok ⟨none⟩
    ∧ JSON.roundTrip (some [] : GoSlice GoString) = Except.ok ⟨some []⟩
    ∧ (∃ m2, JSON.roundTrip fooPackage.Description.Val = Except.ok ⟨m2⟩
        ∧ GoMap.Equiv m2 fooPackage.Description.Val)
    ∧ (∃ m2, JSON.roundTrip fooPackage.Depends.Val = Except.ok ⟨m2⟩
        ∧ GoMap.Equiv m2 fooPackage.Depends.Val)
    ∧ ∃ rows2 pkg2, InsertPackage [] fooPackage = Except.ok rows2
        ∧ GetPkg rows2 (str "foo") (str "repo") = Except.ok pkg2
        ∧ Package.Equiv pkg2 fooPackage :=
  have hs : fooPackage.storable = true := by decide
  have h := JSON_roundTrip [] fooPackage hs
  ⟨hs, h.1 none rfl, h.1 (some []) rfl, h.2.1 _ (by decide) (by decide),
    h.2.2.1 _ (by decide) (by decide), h.2.2.2⟩


/-! ### The filter on file pairs -/

theorem isValid_eq_decidingPath (f t : Option File) :
    isValid f t = filepath.Match (str "*/*.sh") (decidingPath f t) := by
  cases f <;> cases t <;> rfl

theorem buildActions_drop_invalid (before after : List FilePatch) (fp : FilePatch)
    (h : isValid fp.fromFile fp.toFile = false) :
    buildActions (before ++ fp :: after) = buildActions (before ++ after) := by
  simp only [buildActions, collectActions_eq, List.filter_append, List.filter_cons, h,
    Bool.false_eq_true, if_false]

/-- C12: `isValid` is decided by one path, the path of `to` when `to` is
present and otherwise the path of `from`: the pair is accepted exactly when
that path matches `*/*.sh`. So a pair with both files present whose
destination path does not match gives no action: the loop body leaves the
action list as it is, and the patch gives the same actions, and the same
reconciliation, as the patch without the pair, whatever the source path. -/
theorem isValid_single_path (f t : File) (before after : List FilePatch)
    (h : filepath.Match (str "*/*.sh") t.Path = false) :
    (∀ f2 t2 : Option File,
      isValid f2 t2 = filepath.Match (str "*/*.sh") (decidingPath f2 t2))
    ∧ (∀ (x : File) (f2 : Option File), decidingPath f2 (some x) = x.Path)
    ∧ (∀ x : File, decidingPath (some x) none = x.Path)
    ∧ isValid (some f) (some t) = false
    ∧ (∀ acc, appendActions acc ⟨some f, some t⟩ = some acc)
    ∧ buildActions (before ++ ⟨some f, some t⟩ :: after) = buildActions (before ++ after)
    ∧ (∀ (σ : Type) (env : Env σ) (repo repoDir : GoString) (s : SyncState σ),
        processRepoChanges env repo repoDir (before ++ ⟨some f, some t⟩ :: after) s
          = processRepoChanges env repo repoDir (before ++ after) s) := by
  have hv : isValid (some f) (some t) = false := by
    rw [isValid_eq_decidingPath]; exact h
  have hb := buildActions_drop_invalid before after ⟨some f, some t⟩ hv
  refine ⟨isValid_eq_decidingPath, fun _ _ => rfl, fun _ => rfl, hv, ?_, hb, ?_⟩
  · intro acc
    simp [appendActions, hv]
  · intro σ env repo repoDir s
    simp only [processRepoChanges, hb]

/-- C12 on the rename of the recipe `a/lure.sh` to `a/b/lure.sh`: the source
matches the glob, the destination does not, and the patch gives no action. -/
theorem isValid_single_path_witness :
    filepath.Match (str "*/*.sh") (str "a/b/lure.sh") = false
    ∧ filepath.Match (str "*/*.sh") (str "a/lure.sh") = true
    ∧ filepath.Base (str "a/lure.sh") = str "lure.sh"
    ∧ isValid (some ⟨str "a/lure.sh"⟩) (some ⟨str "a/b/lure.sh"⟩) = false
    ∧ buildActions [⟨some ⟨str "a/lure.sh"⟩, some ⟨str "a/b/lure.sh"⟩⟩] = some [] :=
  have h : filepath.Match (str "*/*.sh") (str "a/b/lure.sh") = false := by decide
  have hc := isValid_single_path ⟨str "a/lure.sh"⟩ ⟨str "a/b/lure.sh"⟩ [] [] h
  ⟨h, by decide, by decide, hc.2.2.2.1, hc.2.2.2.2.2.1⟩


/-! ### The order of keys in a marshalled map -/

namespace json

theorem bytesLe_total : ∀ a b : GoString, bytesLe a b = true ∨ bytesLe b a = true
  | [], _ => Or.inl rfl
  | _ :: _, [] => Or.inr rfl
  | x :: xs, y :: ys => by
    rcases Nat.lt_trichotomy x y with h | h | h
    · left; simp [bytesLe, h]
    · subst h
      simpa [bytesLe] using bytesLe_total xs ys
    · right; simp [bytesLe, h]

theorem bytesLe_antisymm : ∀ a b : GoString, bytesLe a b = true → bytesLe b a = true → a = b
  | [], [], _, _ => rfl
  | [], _ :: _, _, h => by simp [bytesLe] at h
  | _ :: _, [], h, _ => by simp [bytesLe] at h
  | x :: xs, y :: ys, h1, h2 => by
    rcases Nat.lt_trichotomy x y with h | h | h
    · have hn : ¬ y < x := by omega
      simp [bytesLe, h, hn] at h2
    · subst h
      simp only [bytesLe, Nat.lt_irrefl, if_false] at h1 h2
      rw [bytesLe_antisymm xs ys h1 h2]
    · have hn : ¬ x < y := by omega
      simp [bytesLe, h, hn] at h1

theorem bytesLe_trans : ∀ a b c : GoString, bytesLe a b = true → bytesLe b c = true →
    bytesLe a c = true
  | [], _, _, _, _ => rfl
  | _ :: _, [], _, h, _ => by simp [bytesLe] at h
  | _ :: _, _ :: _, [], _, h => by simp [bytesLe] at h
  | x :: xs, y :: ys, z :: zs, h1, h2 => by
    by_cases hxy : x < y
    · by_cases hyz : y < z
      · have : x < z := by omega
        simp [bytesLe, this]
      · by_cases hzy : z < y
        · simp [bytesLe, hyz, hzy] at h2
        · have : x < z := by omega
          simp [bytesLe, this]
    · by_cases hyx : y < x
      · simp [bytesLe, hxy, hyx] at h1
      · have hxy2 : x = y := by omega
        subst hxy2
        simp only [bytesLe, Nat.lt_irrefl, if_false] at h1
        by_cases hxz : x < z
        · simp [bytesLe, hxz]
        · by_cases hzx : z < x
          · simp [bytesLe, hxz, hzx] at h2
          · simp only [bytesLe, hxz, hzx, if_false] at h2 ⊢
            exact bytesLe_trans xs ys zs h1 h2

/-- Two lists with the same keys in the same order and the same entries,
one per key, are the same list. -/
theorem eq_of_keys_eq {V : Type} : ∀ (a b : List (GoString × V)),
    a.map Prod.fst = b.map Prod.fst → a.Perm b → (a.map Prod.fst).Nodup → a = b
  | [], [], _, _, _ => rfl
  | [], _ :: _, h, _, _ => by simp at h
  | _ :: _, [], h, _, _ => by simp at h
  | x :: xs, y :: ys, hk, hp, hnd => by
    simp only [List.map_cons, List.cons.injEq] at hk
    simp only [List.map_cons, List.nodup_cons] at hnd
    have hx : x ∈ y :: ys := hp.subset (List.mem_cons_self _ _)
    have hxy : x = y := by
      rcases List.mem_cons.mp hx with h | h
      · exact h
      · exact absurd (hk.2 ▸ List.mem_map.mpr ⟨x, h, rfl⟩) hnd.1
    subst hxy
    rw [eq_of_keys_eq xs ys hk.2 (List.Perm.cons_inv hp) hnd.2]

/-- The sorted entries depend only on the entries, not on their order. -/
theorem sortEntries_perm {V : Type} (a b : List (GoString × V)) (hp : a.Perm b)
    (hnd : (a.map Prod.fst).Nodup) : sortEntries a = sortEntries b := by
  haveI : IsTotal (GoString × V) (fun x y => bytesLe x.1 y.1 = true) :=
    ⟨fun x y => bytesLe_total x.1 y.1⟩
  haveI : IsTrans (GoString × V) (fun x y => bytesLe x.1 y.1 = true) :=
    ⟨fun x y z => bytesLe_trans x.1 y.1 z.1⟩
  haveI : IsAntisymm GoString (fun x y => bytesLe x y = true) := ⟨bytesLe_antisymm⟩
  have hpa : (sortEntries a).Perm a := List.perm_insertionSort _ a
  have hpb : (sortEntries b).Perm b := List.perm_insertionSort _ b
  have hpab : (sortEntries a).Perm (sortEntries b) := hpa.trans (hp.trans hpb.symm)
  have hsa : List.Sorted (fun x y => bytesLe x y = true) ((sortEntries a).map Prod.fst) := by
    have := List.sorted_insertionSort (fun x y : GoString × V => bytesLe x.1 y.1 = true) a
    exact List.pairwise_map.mpr this
  have hsb : List.Sorted (fun x y => bytesLe x y = true) ((sortEntries b).map Prod.fst) := by
    have := List.sorted_insertionSort (fun x y : GoString × V => bytesLe x.1 y.1 = true) b
    exact List.pairwise_map.mpr this
  have hkeys := List.eq_of_perm_of_sorted (hpab.map Prod.fst) hsa hsb
  exact eq_of_keys_eq _ _ hkeys hpab ((hpa.map Prod.fst).nodup_iff.mpr hnd)

/-- Maps that are equal as Go maps are marshalled to the same text. -/
theorem marshalMap_equiv {V : Type} (enc : V → GoString) (a b : GoMap V)
    (ha : a.keys.Nodup) (hb : b.keys.Nodup) (h : GoMap.Equiv a b) :
    marshalMap enc a = marshalMap enc b := by
  obtain ⟨hnil, hget⟩ := h
  cases a with
  | none =>
    have : b = none := hnil.mp rfl
    subst this
    rfl
  | some ea =>
    cases b with
    | none => exact absurd (hnil.mpr rfl) (by simp)
    | some eb =>
      have hka : (ea.map Prod.fst).Nodup := by simpa [GoMap.keys] using ha
      have hkb : (eb.map Prod.fst).Nodup := by simpa [GoMap.keys] using hb
      have hp : ea.Perm eb := by
        rw [List.perm_ext_iff_of_nodup (List.Nodup.of_map _ hka) (List.Nodup.of_map _ hkb)]
        intro e
        obtain ⟨k, v⟩ := e
        rw [← GoMap.getEntry_eq_some_iff ea k v hka, ← GoMap.getEntry_eq_some_iff eb k v hkb]
        have := hget k
        simp only [GoMap.get] at this
        rw [this]
      simp only [marshalMap, sortEntries_perm ea eb hp hka]

end json


/-! ### Full reingest -/

theorem resolveOverrides_eq_fold (vars : Vars) : ∀ (pkg : Package)
    (eD eB : List (GoString × GoSlice GoString)),
    pkg.Depends.Val = some eD → pkg.BuildDepends.Val = some eB →
    resolveOverrides vars pkg
      = some { pkg with
          Depends := ⟨some (vars.foldl writeDeps eD)⟩,
          BuildDepends := ⟨some (vars.foldl writeBuildDeps eB)⟩ } := by
  induction vars with
  | nil =>
    intro pkg eD eB hD hB
    obtain ⟨n, v, r, e, d, h, m, a, l, p, c, rp, ⟨dep⟩, ⟨bdep⟩, repo⟩ := pkg
    simp only at hD hB
    subst hD hB
    rfl
  | cons b rest ih =>
    intro pkg eD eB hD hB
    obtain ⟨name, val⟩ := b
    simp only [resolveOverrides, List.foldl_cons]
    by_cases h1 : strings.HasPrefix name (str "deps") = true
    · simp only [resolveBinding, h1, if_true, hD, GoMap.set]
      rw [ih { pkg with Depends := ⟨some (GoMap.setEntry eD (overrideKey (str "deps") name)
        val.List)⟩ } _ eB rfl hB]
      simp [writeDeps, writeBuildDeps, h1]
    · by_cases h2 : strings.HasPrefix name (str "build_deps") = true
      · simp only [resolveBinding, h1, h2, if_true, if_false, Bool.false_eq_true, ↓reduceIte, hB,
          GoMap.set]
        rw [ih { pkg with BuildDepends := ⟨some (GoMap.setEntry eB
          (overrideKey (str "build_deps") name) val.List)⟩ } eD _ hD rfl]
        simp [writeDeps, writeBuildDeps, h1, h2]
      · simp only [resolveBinding, h1, h2, if_false, Bool.false_eq_true, ↓reduceIte]
        rw [ih pkg eD eB hD hB]
        simp [writeDeps, writeBuildDeps, h1, h2]

namespace GoMap

theorem setEntry_keys {V : Type} (es : List (GoString × V)) (k : GoString) (v : V) :
    (setEntry es k v).map Prod.fst
      = if k ∈ es.map Prod.fst then es.map Prod.fst else es.map Prod.fst ++ [k] := by
  induction es with
  | nil => simp [setEntry]
  | cons e es ih =>
    obtain ⟨k2, v2⟩ := e
    by_cases h : k2 = k
    · subst h
      simp [setEntry]
    · have h2 : ¬ k = k2 := fun x => h x.symm
      by_cases hm : k ∈ es.map Prod.fst
      · simp only [setEntry, h, if_false, List.map_cons, ih, hm, if_true, List.mem_cons,
          or_true]
      · simp only [setEntry, h, if_false, List.map_cons, ih, hm, List.mem_cons, h2, or_self,
          List.cons_append]

theorem setEntry_nodup {V : Type} (es : List (GoString × V)) (k : GoString) (v : V)
    (h : (es.map Prod.fst).Nodup) : ((setEntry es k v).map Prod.fst).Nodup := by
  rw [setEntry_keys]
  by_cases hm : k ∈ es.map Prod.fst
  · rw [if_pos hm]; exact h
  · rw [if_neg hm]
    exact List.Nodup.append h (List.nodup_singleton k) (by
      intro x hx hk
      have : x = k := by simpa using hk
      exact hm (this ▸ hx))

end GoMap

theorem foldl_writeDeps_nodup (vars : Vars) : ∀ es : List (GoString × GoSlice GoString),
    (es.map Prod.fst).Nodup → ((vars.foldl writeDeps es).map Prod.fst).Nodup := by
  induction vars with
  | nil => intro es h; exact h
  | cons b rest ih =>
    intro es h
    simp only [List.foldl_cons]
    apply ih
    unfold writeDeps
    split
    · exact GoMap.setEntry_nodup _ _ _ h
    · exact h

theorem foldl_writeBuildDeps_nodup (vars : Vars) :
    ∀ es : List (GoString × GoSlice GoString),
    (es.map Prod.fst).Nodup → ((vars.foldl writeBuildDeps es).map Prod.fst).Nodup := by
  induction vars with
  | nil => intro es h; exact h
  | cons b rest ih =>
    intro es h
    simp only [List.foldl_cons]
    apply ih
    unfold writeBuildDeps
    split
    · exact h
    · split
      · exact GoMap.setEntry_nodup _ _ _ h
      · exact h

/-- What `clashFree` says. -/
theorem clashFree_spec (vars : Vars) (h : clashFree vars = true) :
    (vars.map Prod.fst).Nodup
    ∧ (∀ a ∈ vars, ∀ b ∈ vars, strings.HasPrefix a.1 (str "deps") = true →
        strings.HasPrefix b.1 (str "deps") = true →
        overrideKey (str "deps") a.1 = overrideKey (str "deps") b.1 → a.1 = b.1)
    ∧ (∀ a ∈ vars, ∀ b ∈ vars, strings.HasPrefix a.1 (str "build_deps") = true →
        strings.HasPrefix b.1 (str "build_deps") = true →
        overrideKey (str "build_deps") a.1 = overrideKey (str "build_deps") b.1 →
        a.1 = b.1) := by
  simp only [clashFree, Bool.and_eq_true, decide_eq_true_eq, List.all_eq_true,
    Bool.or_eq_true, Bool.not_eq_true', Bool.and_eq_false_imp] at h
  obtain ⟨hnd, hall⟩ := h
  refine ⟨hnd, ?_, ?_⟩
  · intro a ha b hb h1 h2 hk
    rcases (hall a ha b hb).1 with h | h
    · exact absurd hk (by simpa using h ⟨h1, h2⟩)
    · exact h
  · intro a ha b hb h1 h2 hk
    rcases (hall a ha b hb).2 with h | h
    · exact absurd hk (by simpa using h ⟨h1, h2⟩)
    · exact h

/-- Without a clash the value under every key of a map is the same for every
order of visiting the bindings. -/
theorem resolveOverrides_get_perm {proj : Package → GoMap (GoSlice GoString)}
    {c : GoString → Bool} {key : GoString → GoString} (hw : WritesTo proj c key)
    (v1 v2 : Vars) (pkg p1 p2 : Package) (hp : v1.Perm v2)
    (hnd : (v1.map Prod.fst).Nodup)
    (hu : ∀ a ∈ v1, ∀ b ∈ v1, c a.1 = true → c b.1 = true → key a.1 = key b.1 → a.1 = b.1)
    (h1 : resolveOverrides v1 pkg = some p1) (h2 : resolveOverrides v2 pkg = some p2)
    (k : GoString) : (proj p1).get k = (proj p2).get k := by
  have hnd2 : (v2.map Prod.fst).Nodup := (hp.map Prod.fst).nodup_iff.mp hnd
  by_cases hex : ∃ b ∈ v1, c b.1 = true ∧ key b.1 = k
  · obtain ⟨⟨n, v⟩, hb, hc, hk⟩ := hex
    have e1 := fold_unique hw n v v1 pkg p1 hnd hb hc
      (fun n2 w hm hc2 hk2 => hu (n2, w) hm (n, v) hb hc2 hc hk2) h1
    have e2 := fold_unique hw n v v2 pkg p2 hnd2 (hp.mem_iff.mp hb) hc
      (fun n2 w hm hc2 hk2 => hu (n2, w) (hp.mem_iff.mpr hm) (n, v) hb hc2 hc hk2) h2
    simp only at hk
    rw [← hk, e1, e2]
  · have hno1 : ∀ n w, (n, w) ∈ v1 → c n = true → key n ≠ k :=
      fun n w hm hc hk => hex ⟨(n, w), hm, hc, hk⟩
    have hno2 : ∀ n w, (n, w) ∈ v2 → c n = true → key n ≠ k :=
      fun n w hm hc hk => hex ⟨(n, w), hp.mem_iff.mpr hm, hc, hk⟩
    rw [fold_untouched hw k v1 pkg p1 hno1 h1, fold_untouched hw k v2 pkg p2 hno2 h2]


theorem build_deps_is_not_deps (n : GoString)
    (h : strings.HasPrefix n (str "build_deps") = true) :
    (!strings.HasPrefix n (str "deps") && strings.HasPrefix n (str "build_deps")) = true := by
  simp [h, not_deps_of_build_deps n h]

theorem InsertPackage_eq (rows : List Row) (pkg : Package) :
    InsertPackage rows pkg
      = if pkg.row.checks then Except.ok (upsertRow rows pkg.row)
        else Except.error (str "CHECK constraint failed: pkgs") := by
  simp only [InsertPackage, columnText, JSON.Value, bind, Except.bind, Package.row, upsertRow]

/-- Without a clash the package after `resolveOverrides`, as a Go value and as
a stored row, is the same for every order of visiting the bindings. -/
theorem resolveOverrides_perm (v1 v2 : Vars) (pkg : Package)
    (eD eB : List (GoString × GoSlice GoString))
    (hD : pkg.Depends.Val = some eD) (hB : pkg.BuildDepends.Val = some eB)
    (hDn : (eD.map Prod.fst).Nodup) (hBn : (eB.map Prod.fst).Nodup)
    (hp : v1.Perm v2) (hfree : clashFree v1 = true) :
    ∃ p1 p2, resolveOverrides v1 pkg = some p1 ∧ resolveOverrides v2 pkg = some p2
      ∧ Package.Equiv p1 p2 ∧ p1.row = p2.row := by
  obtain ⟨hnd, hud, hub⟩ := clashFree_spec v1 hfree
  have e1 := resolveOverrides_eq_fold v1 pkg eD eB hD hB
  have e2 := resolveOverrides_eq_fold v2 pkg eD eB hD hB
  have gD := resolveOverrides_get_perm writesTo_Depends v1 v2 pkg _ _ hp hnd hud e1 e2
  have gB := resolveOverrides_get_perm writesTo_BuildDepends v1 v2 pkg _ _ hp hnd
    (fun a ha b hb ca cb hk => hub a ha b hb (by simpa using (Bool.and_eq_true _ _ ▸ ca).2)
      (by simpa using (Bool.and_eq_true _ _ ▸ cb).2) hk) e1 e2
  have qD : GoMap.Equiv (some (v1.foldl writeDeps eD)) (some (v2.foldl writeDeps eD)) :=
    ⟨by simp, gD⟩
  have qB : GoMap.Equiv (some (v1.foldl writeBuildDeps eB))
      (some (v2.foldl writeBuildDeps eB)) := ⟨by simp, gB⟩
  have mD := json.marshalMap_equiv json.marshalStrings _ _
    (by simpa [GoMap.keys] using foldl_writeDeps_nodup v1 eD hDn)
    (by simpa [GoMap.keys] using foldl_writeDeps_nodup v2 eD hDn) qD
  have mB := json.marshalMap_equiv json.marshalStrings _ _
    (by simpa [GoMap.keys] using foldl_writeBuildDeps_nodup v1 eB hBn)
    (by simpa [GoMap.keys] using foldl_writeBuildDeps_nodup v2 eB hBn) qB
  refine ⟨_, _, e1, e2, ?_, ?_⟩
  · exact ⟨rfl, rfl, rfl, rfl, rfl, rfl, rfl, rfl, rfl, rfl, ⟨Iff.rfl, fun _ => rfl⟩,
      ⟨Iff.rfl, fun _ => rfl⟩, ⟨Iff.rfl, fun _ => rfl⟩, qD, qB⟩
  · simp only [Package.row, json.Marshal, JSONShape.marshal, mD, mB]


theorem upsertRow_eq (rows : List Row) (row : Row) :
    upsertRow rows row = rows.filter (fun r => decide (r.key ≠ row.key)) ++ [row] := by
  unfold upsertRow
  congr 1
  apply List.filter_congr
  intro r _
  by_cases h1 : r.name = row.name <;> by_cases h2 : r.repository = row.repository <;>
    simp [Row.key, h1, h2]

theorem foldl_upsertRow (rs : List Row) : ∀ rows : List Row,
    rs.foldl upsertRow rows
      = rows.filter (fun r => decide (r.key ∉ rs.map Row.key)) ++ rs.foldl upsertRow [] := by
  induction rs with
  | nil => intro rows; simp
  | cons r rs ih =>
    intro rows
    simp only [List.foldl_cons]
    rw [ih (upsertRow rows r), ih (upsertRow [] r)]
    simp only [upsertRow_eq, List.filter_append, List.filter_filter, List.filter_nil,
      List.nil_append, List.append_assoc]
    congr 1
    apply List.filter_congr
    intro x _
    by_cases h1 : x.key = r.key <;> by_cases h2 : x.key ∈ rs.map Row.key <;>
      simp [h1, h2]

theorem mem_foldl_upsertRow (rs : List Row) : ∀ (rows : List Row) (x : Row),
    x ∈ rs.foldl upsertRow rows → x ∈ rows ∨ x ∈ rs := by
  induction rs with
  | nil => intro rows x h; exact Or.inl h
  | cons r rs ih =>
    intro rows x h
    simp only [List.foldl_cons] at h
    rcases ih _ x h with h | h
    · rw [upsertRow_eq] at h
      rcases List.mem_append.mp h with h | h
      · exact Or.inl (List.mem_filter.mp h).1
      · exact Or.inr (by simp at h; simp [h])
    · exact Or.inr (List.mem_cons_of_mem _ h)

/-- Upserting the same rows a second time leaves the table as it is. -/
theorem foldl_upsertRow_idem (rs rows : List Row) :
    rs.foldl upsertRow (rs.foldl upsertRow rows) = rs.foldl upsertRow rows := by
  have hnil : (rs.foldl upsertRow []).filter (fun r => decide (r.key ∉ rs.map Row.key)) = [] := by
    rw [List.filter_eq_nil_iff]
    intro x hx
    rcases mem_foldl_upsertRow rs [] x hx with h | h
    · simp at h
    · simp only [decide_eq_true_eq, not_not]
      exact List.mem_map_of_mem _ h
  rw [foldl_upsertRow rs (rs.foldl upsertRow rows)]
  nth_rewrite 1 [foldl_upsertRow rs rows]
  rw [List.filter_append, hnil, List.append_nil, List.filter_filter]
  conv_rhs => rw [foldl_upsertRow rs rows]
  congr 1
  apply List.filter_congr
  intro x _
  simp

/-- A full reingest upserts a list of rows that does not depend on the table
it starts from, nor, without a clash, on the order in which the bindings are
visited; and it returns. -/
theorem reingestMatches_rows (glob : GoString → Except Error (List GoString))
    (openFile : GoString → Except Error GoString)
    (p q : GoString → GoString → Except Error (ShFields × Vars)) (repo : GoString)
    (hsame : SameBindings p q)
    (hfree : ∀ sd script d v, p sd script = Except.ok (d, v) → clashFree v = true)
    (ms : List GoString) :
    ∃ (e : Option Error) (rs : List Row),
      (∀ rows, reingestMatches (tableEnv glob openFile p) repo ms rows
        = some (e, rs.foldl upsertRow rows))
      ∧ (∀ rows, reingestMatches (tableEnv glob openFile q) repo ms rows
        = some (e, rs.foldl upsertRow rows)) := by
  induction ms with
  | nil => exact ⟨none, [], fun _ => rfl, fun _ => rfl⟩
  | cons m ms ih =>
    obtain ⟨e, rs, ihp, ihq⟩ := ih
    cases ho : openFile m with
    | error err =>
      exact ⟨some err, [], fun _ => by simp [reingestMatches, tableEnv, ho],
        fun _ => by simp [reingestMatches, tableEnv, ho]⟩
    | ok script =>
      have hs := hsame (filepath.Dir m) script
      cases hp : p (filepath.Dir m) script with
      | error e1 =>
        cases hq : q (filepath.Dir m) script with
        | error e2 =>
          rw [hp, hq] at hs
          simp only at hs
          subst hs
          exact ⟨some e1, [], fun _ => by simp [reingestMatches, tableEnv, ho, hp],
            fun _ => by simp [reingestMatches, tableEnv, ho, hq]⟩
        | ok r2 =>
          rw [hp, hq] at hs
          exact absurd hs (by simp)
      | ok r1 =>
        cases hq : q (filepath.Dir m) script with
        | error e2 =>
          rw [hp, hq] at hs
          exact absurd hs (by simp)
        | ok r2 =>
          obtain ⟨d1, v1⟩ := r1
          obtain ⟨d2, v2⟩ := r2
          rw [hp, hq] at hs
          simp only at hs
          obtain ⟨hd, hperm⟩ := hs
          subst hd
          obtain ⟨p1, p2, h1, h2, _, hrow⟩ :=
            resolveOverrides_perm v1 v2 (d1.into (seedPackage repo)) [] [] rfl rfl
              List.nodup_nil List.nodup_nil hperm (hfree _ _ _ _ hp)
          by_cases hc : p1.row.checks = true
          · refine ⟨e, p1.row :: rs, fun rows => ?_, fun rows => ?_⟩
            · simp only [reingestMatches, tableEnv, ho, hp, h1, InsertPackage_eq, hc, if_true,
                List.foldl_cons]
              exact ihp _
            · simp only [reingestMatches, tableEnv, ho, hq, h2, InsertPackage_eq, ← hrow, hc,
                if_true, List.foldl_cons]
              exact ihq _
          · refine ⟨some (str "CHECK constraint failed: pkgs"), [], fun rows => ?_,
              fun rows => ?_⟩
            · simp only [reingestMatches, tableEnv, ho, hp, h1, InsertPackage_eq, hc, if_false,
                Bool.false_eq_true, List.foldl_nil]
            · simp only [reingestMatches, tableEnv, ho, hq, h2, InsertPackage_eq, ← hrow, hc,
                if_false, Bool.false_eq_true, List.foldl_nil]


/-- C11 fails when two bindings of a recipe share an override key: the recipe
with `deps_amd64=(bar)` and `depsamd64=(baz)` has the same final bindings
whatever the visiting order, yet a full reingest that visits them in this
order stores `depends` with `baz` under `amd64`, and a second full reingest
over the same checkout that visits them in the other order replaces it by
`bar`. -/
theorem processRepoFull_order_dependent :
    clashVars.Perm clashVars.reverse
    ∧ SameBindings (oneRecipeParse clashVars) (oneRecipeParse clashVars.reverse)
    ∧ (processRepoFull (oneRecipeEnv clashVars) (str "repo") (str "/r") []).map
        (fun r => (r.1, r.2.map Row.depends))
        = some (none, [str "\x7b\"amd64\":[\"baz\"]\x7d"])
    ∧ ((processRepoFull (oneRecipeEnv clashVars) (str "repo") (str "/r") []).bind
        (fun r => processRepoFull (oneRecipeEnv clashVars.reverse) (str "repo") (str "/r")
          r.2)).map (fun r => (r.1, r.2.map Row.depends))
        = some (none, [str "\x7b\"amd64\":[\"bar\"]\x7d"])
    ∧ (processRepoFull (oneRecipeEnv clashVars) (str "repo") (str "/r") []).bind
        (fun r => processRepoFull (oneRecipeEnv clashVars.reverse) (str "repo") (str "/r")
          r.2)
        ≠ processRepoFull (oneRecipeEnv clashVars) (str "repo") (str "/r") [] := by
  refine ⟨(List.reverse_perm _).symm, ?_, by decide, by decide, by decide⟩
  intro sd script
  by_cases h : script = str "recipe"
  · simp only [oneRecipeParse, h, if_true]
    exact ⟨trivial, (List.reverse_perm _).symm⟩
  · simp only [oneRecipeParse, h, if_false]

/-- C11, amended: when no two bindings of a recipe share an override key for
the same map (`clashFree`), the package computed for a recipe is the same Go
value and the same stored row for every order of visiting its bindings, and a
full reingest returns the same error and table whatever the order; a second
full reingest over the same checkout, in either order, starting from the table
the first one left, returns the same error and leaves the table as it is. -/
theorem processRepoFull_idempotent (glob : GoString → Except Error (List GoString))
    (openFile : GoString → Except Error GoString)
    (p q : GoString → GoString → Except Error (ShFields × Vars)) (repo repoDir : GoString)
    (rows : List Row) (hsame : SameBindings p q)
    (hfree : ∀ sd script d v, p sd script = Except.ok (d, v) → clashFree v = true) :
    (∀ (d : ShFields) (v1 v2 : Vars), v1.Perm v2 → clashFree v1 = true →
      ∃ p1 p2, resolveOverrides v1 (d.into (seedPackage repo)) = some p1
        ∧ resolveOverrides v2 (d.into (seedPackage repo)) = some p2
        ∧ Package.Equiv p1 p2 ∧ p1.row = p2.row
        ∧ ∀ t, InsertPackage t p1 = InsertPackage t p2)
    ∧ ∃ (e : Option Error) (T : List Row),
        processRepoFull (tableEnv glob openFile p) repo repoDir rows = some (e, T)
        ∧ processRepoFull (tableEnv glob openFile q) repo repoDir rows = some (e, T)
        ∧ processRepoFull (tableEnv glob openFile p) repo repoDir T = some (e, T)
        ∧ processRepoFull (tableEnv glob openFile q) repo repoDir T = some (e, T) := by
  constructor
  · intro d v1 v2 hp hf
    obtain ⟨p1, p2, h1, h2, he, hrow⟩ :=
      resolveOverrides_perm v1 v2 (d.into (seedPackage repo)) [] [] rfl rfl
        List.nodup_nil List.nodup_nil hp hf
    exact ⟨p1, p2, h1, h2, he, hrow, fun t => by simp only [InsertPackage_eq, hrow]⟩
  · cases hg : glob (filepath.Join [repoDir, str "/*/lure.sh"]) with
    | error err =>
      exact ⟨some err, rows, by simp [processRepoFull, tableEnv, hg],
        by simp [processRepoFull, tableEnv, hg], by simp [processRepoFull, tableEnv, hg],
        by simp [processRepoFull, tableEnv, hg]⟩
    | ok ms =>
      obtain ⟨e, rs, hp, hq⟩ := reingestMatches_rows glob openFile p q repo hsame hfree ms
      have ep : ∀ t, processRepoFull (tableEnv glob openFile p) repo repoDir t
          = some (e, rs.foldl upsertRow t) := fun t => by
        simp only [processRepoFull]
        rw [show (tableEnv glob openFile p).glob = glob from rfl, hg]
        exact hp t
      have eq : ∀ t, processRepoFull (tableEnv glob openFile q) repo repoDir t
          = some (e, rs.foldl upsertRow t) := fun t => by
        simp only [processRepoFull]
        rw [show (tableEnv glob openFile q).glob = glob from rfl, hg]
        exact hq t
      refine ⟨e, rs.foldl upsertRow rows, ep rows, eq rows, ?_, ?_⟩
      · rw [ep, foldl_upsertRow_idem]
      · rw [eq, foldl_upsertRow_idem]

/-- C11 on a checkout with one recipe whose bindings `deps=(baz)`,
`build_deps=(go)` and `deps_amd64=(bar)` are visited in one order and in the
reverse order: both full reingests return the same table, and a second one
leaves it as it is. -/
theorem processRepoFull_idempotent_witness :
    SameBindings (oneRecipeParse threeVars) (oneRecipeParse threeVars.reverse)
    ∧ clashFree threeVars = true
    ∧ threeVars ≠ threeVars.reverse
    ∧ (processRepoFull (oneRecipeEnv threeVars) (str "repo") (str "/r") []).map
        (fun r => (r.1, r.2.map Row.depends, r.2.map Row.builddepends))
        = some (none, [str "\x7b\"\":[\"baz\"],\"amd64\":[\"bar\"]\x7d"],
            [str "\x7b\"\":[\"go\"]\x7d"])
    ∧ ∃ (e : Option Error) (T : List Row),
        processRepoFull (oneRecipeEnv threeVars) (str "repo") (str "/r") [] = some (e, T)
        ∧ processRepoFull (oneRecipeEnv threeVars.reverse) (str "repo") (str "/r") []
            = some (e, T)
        ∧ processRepoFull (oneRecipeEnv threeVars) (str "repo") (str "/r") T = some (e, T)
        ∧ processRepoFull (oneRecipeEnv threeVars.reverse) (str "repo") (str "/r") T
            = some (e, T) :=
  have hsame : SameBindings (oneRecipeParse threeVars) (oneRecipeParse threeVars.reverse) := by
    intro sd script
    by_cases h : script = str "recipe"
    · simp only [oneRecipeParse, h, if_true]
      exact ⟨trivial, (List.reverse_perm _).symm⟩
    · simp only [oneRecipeParse, h, if_false]
  have hfree : ∀ sd script d v, oneRecipeParse threeVars sd script = Except.ok (d, v) →
      clashFree v = true := by
    intro sd script d v h
    by_cases hs : script = str "recipe"
    · simp only [oneRecipeParse, hs, if_true, Except.ok.injEq, Prod.mk.injEq] at h
      rw [← h.2]
      decide
    · simp [oneRecipeParse, hs] at h
  ⟨hsame, by decide, by decide, by decide,
    (processRepoFull_idempotent oneRecipeGlob oneRecipeOpen (oneRecipeParse threeVars)
      (oneRecipeParse threeVars.reverse) (str "repo") (str "/r") [] hsame hfree).2⟩

end Lure
